import Mathlib

/-!
# Verification of the `sched_model` batch-scheduling simulator

Shallow embedding of `src/sched_model` (resource vectors, the ordered-map
contract as used by the Timeline, the Timeline itself, the Job state
machine, the System simulator and the FCFS / backfill policies), together
with proofs and refutations of the specification claims.

Machine integers of the source (numpy int vectors, Python ints) are
modelled as `Int`; Python `assert` failures and raised exceptions are
modelled by `Option`/error results.  Job objects are owned by the
`System`; we model them as records indexed by their `job_id` (which the
system assigns densely from 0), so the identity-based sets of the
timeline store job ids.
-/

/-! ## Resource vectors (`sched_model/resource.py`)

`Resources` wraps a fixed-length numpy integer vector.  We model the
vector as `List Int`; the componentwise operations below are faithful
for equal-length vectors (the dimension D is fixed at `System`
construction; numpy broadcasting of mismatched shapes is out of scope). -/

def rscAdd (a b : List Int) : List Int := List.zipWith (· + ·) a b

def rscSub (a b : List Int) : List Int := List.zipWith (· - ·) a b

/-- `Resources.valid`: all components nonnegative. -/
def rscValid (a : List Int) : Prop := ∀ x ∈ a, 0 ≤ x

instance (a : List Int) : Decidable (rscValid a) := by
  unfold rscValid; infer_instance

/-- `Resources.all_geq`: componentwise ≥ (for equal-length vectors). -/
def allGeq (a b : List Int) : Prop :=
  a.length = b.length ∧ ∀ p ∈ List.zip a b, p.2 ≤ p.1

instance (a b : List Int) : Decidable (allGeq a b) := by
  unfold allGeq; infer_instance

/-- Zero vector of dimension `n`. -/
def rscZero (n : Nat) : List Int := List.replicate n 0

/-! ## Job records (`sched_model/job.py`)

A `Job` carries an immutable time limit and demand plus the state
machine fields.  `actualRuntime` is the (pinned) value that
`compute_actual_runtime` returns for this job when it is started
(`timelimit` for the base class; subclasses may return anything). -/

inductive JState where
  | pending | started | reserved | finished
deriving Repr, DecidableEq

structure JobRec where
  timelimit : Int
  resources : List Int
  actualRuntime : Int
  startTime : Option Int := none
  endTime : Option Int := none
  deadline : Option Int := none
  state : JState
deriving Repr, DecidableEq

/-! ## The ordered map, as the Timeline uses it (`sched_model/tree`)

The Timeline manipulates an `RBTree[int, TimelineData]` purely through
the ordered-map contract: keyed lookup, `get_or_insert_node` (with the
new node's in-order predecessor), deletion, `lower_bound`,
`upper_bound`, and in-order range iteration.  We model the map state as
an association list with strictly ascending keys; each operation below
is the list-level meaning of the corresponding tree operation. -/

structure TimelineData where
  start : List Nat
  end_ : List Nat
  expired : List Nat
  resources : List Int
deriving Repr, DecidableEq

/-- Find the value stored at key `k`. -/
def lookupKey {α : Type} : List (Int × α) → Int → Option α
  | [], _ => none
  | (k', v) :: rest, k => if k = k' then some v else lookupKey rest k

/-- Insert `(k, v)`, replacing the value if `k` is present, keeping keys
sorted. -/
def insertSorted {α : Type} : List (Int × α) → Int → α → List (Int × α)
  | [], k, v => [(k, v)]
  | (k', v') :: rest, k, v =>
    if k < k' then (k, v) :: (k', v') :: rest
    else if k = k' then (k, v) :: rest
    else (k', v') :: insertSorted rest k v

/-- Remove the entry with key `k` (no-op when absent). -/
def eraseKey {α : Type} : List (Int × α) → Int → List (Int × α)
  | [], _ => []
  | (k', v') :: rest, k => if k = k' then rest else (k', v') :: eraseKey rest k

/-- `upper_bound` of `tree/base.py`: the entry with the greatest key
strictly below `bound`, or `none`. -/
def predStrict {α : Type} : List (Int × α) → Int → Option (Int × α)
  | [], _ => none
  | (k', v') :: rest, k =>
    if k' < k then
      match predStrict rest k with
      | some e => some e
      | none => some (k', v')
    else none

/-- `lower_bound` of `tree/base.py`: the entry with the least key ≥
`bound`, or `none`. -/
def succIncl {α : Type} : List (Int × α) → Int → Option (Int × α)
  | [], _ => none
  | (k', v') :: rest, k => if k ≤ k' then some (k', v') else succIncl rest k

/-- Apply `f` to every value whose key lies in `[lo, hi)`; the meaning of
iterating `tree.values(lo, hi)` and mutating each value (all Timeline
call sites have `lo < hi`, so the bound swap of `_do_iter` does not
trigger). -/
def mapRange {α : Type} (m : List (Int × α)) (lo hi : Int) (f : α → α) :
    List (Int × α) :=
  m.map (fun p => if lo ≤ p.1 ∧ p.1 < hi then (p.1, f p.2) else p)

/-- The entries yielded by `items(lob, hib)` with optional bounds
(inclusive lower / exclusive upper, per `_lower_bound`/`_upper_bound`
node computation in `_do_iter`). -/
def itemsBetween {α : Type} (m : List (Int × α)) (lob hib : Option Int) :
    List (Int × α) :=
  m.filter (fun p =>
    (match lob with | none => true | some lo => decide (lo ≤ p.1)) &&
    (match hib with | none => true | some hi => decide (p.1 < hi)))

/-! ## The Timeline (`sched_model/system.py`, class `Timeline`) -/

/-- `Timeline._get_data`: the data stored at key `t`, materializing a
fresh node whose resource vector is cloned from the in-order
predecessor (or from `total` when there is none). -/
def getData (total : List Int) (m : List (Int × TimelineData)) (t : Int) :
    TimelineData :=
  match lookupKey m t with
  | some d => d
  | none =>
    { start := [], end_ := [], expired := [],
      resources :=
        match predStrict m t with
        | some e => e.2.resources
        | none => total }

/-- Python `set.add`: insert if not already a member. -/
def addElem (l : List Nat) (j : Nat) : List Nat := if j ∈ l then l else l ++ [j]

def insertStartEvent (total : List Int) (m : List (Int × TimelineData))
    (t : Int) (j : Nat) : List (Int × TimelineData) :=
  let d := getData total m t
  insertSorted m t { d with start := addElem d.start j }

def insertExpireEvent (total : List Int) (m : List (Int × TimelineData))
    (t : Int) (j : Nat) : List (Int × TimelineData) :=
  let d := getData total m t
  insertSorted m t { d with expired := addElem d.expired j }

def insertEndEvent (total : List Int) (m : List (Int × TimelineData))
    (t : Int) (j : Nat) : List (Int × TimelineData) :=
  let d := getData total m t
  insertSorted m t { d with end_ := addElem d.end_ j }

/-- `Timeline._cleanup_node` applied after an event removal: drop the key
when all three sets are empty. -/
def cleanupPut (m : List (Int × TimelineData)) (t : Int) (d : TimelineData) :
    List (Int × TimelineData) :=
  if d.start = [] ∧ d.end_ = [] ∧ d.expired = [] then eraseKey m t
  else insertSorted m t d

/-- `Timeline._remove_start_event`; `none` models the `KeyError` raised
by `set.remove` when the event is absent. -/
def removeStartEvent (m : List (Int × TimelineData)) (t : Int) (j : Nat) :
    Option (List (Int × TimelineData)) :=
  match lookupKey m t with
  | none => none
  | some d =>
    if j ∈ d.start then some (cleanupPut m t { d with start := d.start.erase j })
    else none

def removeExpireEvent (m : List (Int × TimelineData)) (t : Int) (j : Nat) :
    Option (List (Int × TimelineData)) :=
  match lookupKey m t with
  | none => none
  | some d =>
    if j ∈ d.expired then
      some (cleanupPut m t { d with expired := d.expired.erase j })
    else none

def removeEndEvent (m : List (Int × TimelineData)) (t : Int) (j : Nat) :
    Option (List (Int × TimelineData)) :=
  match lookupKey m t with
  | none => none
  | some d =>
    if j ∈ d.end_ then some (cleanupPut m t { d with end_ := d.end_.erase j })
    else none

/-- Subtract `dem` from the cached resource vector of every key in
`[lo, hi)`. -/
def debitRange (m : List (Int × TimelineData)) (lo hi : Int)
    (dem : List Int) : List (Int × TimelineData) :=
  mapRange m lo hi (fun d => { d with resources := rscSub d.resources dem })

/-- Add `dem` back to the cached resource vector of every key in
`[lo, hi)`. -/
def creditRange (m : List (Int × TimelineData)) (lo hi : Int)
    (dem : List Int) : List (Int × TimelineData) :=
  mapRange m lo hi (fun d => { d with resources := rscAdd d.resources dem })

/-- `Timeline.add_job_reservation` for job id `j` with start time `st`,
deadline `dl` and demand `dem`. -/
def addJobReservation (total : List Int) (m : List (Int × TimelineData))
    (j : Nat) (st dl : Int) (dem : List Int) : List (Int × TimelineData) :=
  debitRange (insertExpireEvent total (insertStartEvent total m st j) dl j)
    st dl dem

/-- `Timeline.remove_job_reservation`. -/
def removeJobReservation (m : List (Int × TimelineData)) (j : Nat)
    (st dl : Int) (dem : List Int) : Option (List (Int × TimelineData)) := do
  let m1 ← removeStartEvent m st j
  let m2 ← removeExpireEvent m1 dl j
  some (creditRange m2 st dl dem)

/-- `Timeline.end_job_reservation` for job `j` with current scheduled end
`et`, deadline `dl` and demand `dem`, trimming the reservation to end at
`newEnd`; `none` models the assertion failures. -/
def endJobReservation (total : List Int) (m : List (Int × TimelineData))
    (j : Nat) (et dl newEnd : Int) (dem : List Int) :
    Option (List (Int × TimelineData)) := do
  if newEnd ≤ dl ∧ newEnd ≤ et then
    let m1 ←
      if newEnd < et then
        removeEndEvent (insertEndEvent total m newEnd j) et j
      else some m
    let m2 := if newEnd < dl then creditRange m1 newEnd dl dem else m1
    removeExpireEvent m2 dl j
  else none

/-- `Timeline.iter_resources`: the projected `(time, resources)` pairs
covering `[startT, endB)`, starting from the node at or immediately
before `startT`. -/
def iterResources (total : List Int) (m : List (Int × TimelineData))
    (startT : Int) (endB : Option Int) : List (Int × List Int) :=
  if m.isEmpty then [(startT, total)]
  else
    (itemsBetween m ((predStrict m (startT + 1)).map (·.1)) endB).map
      (fun p => (max startT p.1, p.2.resources))

/-- `Timeline.can_schedule` for a job of demand `dem` and time limit `L`
at start time `t`. -/
def canSchedule (total : List Int) (m : List (Int × TimelineData))
    (dem : List Int) (L t : Int) : Bool :=
  if m.isEmpty then true
  else
    (iterResources total m t (some (t + L))).all
      (fun p => decide (allGeq p.2 dem))

/-- The candidate loop of `Timeline.find_schedulable_time`: walk the
timeline entries from the first candidate onwards. -/
def findSchedLoop (m : List (Int × TimelineData)) (dem : List Int)
    (L startT : Int) (reserve : Bool) :
    List (Int × TimelineData) → Option (Option Int)
  | [] => none
  | (it, _) :: rest =>
    if ¬reserve ∧ startT < it then some none
    else
      let ct := max startT it
      if (m.filter (fun p => decide (it ≤ p.1) && decide (p.1 < ct + L))).all
          (fun p => decide (allGeq p.2.resources dem)) then
        some (some ct)
      else findSchedLoop m dem L startT reserve rest

/-- `Timeline.find_schedulable_time`; the outer `none` models the
`RuntimeError` raised when the walk exhausts. -/
def findSchedulableTime (m : List (Int × TimelineData)) (dem : List Int)
    (L startT : Int) (reserve : Bool) : Option (Option Int) :=
  if m.isEmpty then some (some startT)
  else
    findSchedLoop m dem L startT reserve
      (itemsBetween m ((predStrict m (startT + 1)).map (·.1)) none)

/-- `Timeline.next_event`: the smallest timeline key strictly after
`after`, with its data. -/
def nextEvent (m : List (Int × TimelineData)) (after : Int) :
    Option (Int × TimelineData) :=
  succIncl m (after + 1)

/-! ## The System (`sched_model/system.py`, class `System`) -/

structure SysState where
  total : List Int
  curTime : Int
  jobs : List JobRec
  pending : List Nat
  reserved : List Nat
  finished : List Nat
  timeline : List (Int × TimelineData)
  dirty : Bool
deriving Repr, DecidableEq

/-- `System(resources)`: a fresh simulator. -/
def mkSystem (total : List Int) : SysState :=
  { total := total, curTime := 0, jobs := [], pending := [], reserved := [],
    finished := [], timeline := [], dirty := false }

def setJob (s : SysState) (j : Nat) (jr : JobRec) : SysState :=
  { s with jobs := s.jobs.set j jr }

/-- Result of `System.enqueue_job` on a `NEW` job: `ok`, `valueError`
(demand cannot be satisfied), or `invalid` (a `NEW` job with these
parameters cannot exist / dimension mismatch). -/
inductive EnqResult where
  | ok (s : SysState)
  | valueError
  | invalid
deriving Repr, DecidableEq

/-- `System.enqueue_job` of a `NEW` job with time limit `tl`, demand
`dem` and pinned actual runtime `rt`. -/
def enqueueJob (s : SysState) (tl : Int) (dem : List Int) (rt : Int) :
    EnqResult :=
  if 0 < tl ∧ dem.length = s.total.length then
    if allGeq s.total dem then
      EnqResult.ok
        { s with
          jobs := s.jobs ++
            [{ timelimit := tl, resources := dem, actualRuntime := rt,
               state := JState.pending }],
          pending := s.pending ++ [s.jobs.length],
          dirty := true }
    else EnqResult.valueError
  else EnqResult.invalid

/-- `System._start_job`: start a `PENDING` or `RESERVED` job at the
current timestep. -/
def startJob (s : SysState) (j : Nat) : Option SysState := do
  let jr ← s.jobs[j]?
  if jr.state = JState.reserved ∨ jr.state = JState.pending then
    let wasReserved := jr.state = JState.reserved
    if wasReserved ∧ ¬(jr.startTime = some s.curTime ∧ j ∈ s.reserved) then
      none
    else
      let s1 := if wasReserved then { s with reserved := s.reserved.erase j }
                else s
      let jr' :=
        { jr with
          startTime := some s.curTime,
          deadline := some (s.curTime + jr.timelimit),
          endTime := some (s.curTime + jr.actualRuntime),
          state := JState.started }
      let s2 := setJob s1 j jr'
      let tl1 :=
        if wasReserved then s2.timeline
        else addJobReservation s2.total s2.timeline j s.curTime
          (s.curTime + jr.timelimit) jr.resources
      let tl2 := insertEndEvent s2.total tl1 (s.curTime + jr.actualRuntime) j
      some { s2 with timeline := tl2, dirty := true }
  else none

/-- `System._end_job`: end a `STARTED` job at the current timestep. -/
def endJob (s : SysState) (j : Nat) : Option SysState := do
  let jr ← s.jobs[j]?
  match jr.startTime, jr.endTime, jr.deadline with
  | some st, some et, some dl =>
    if st ≤ s.curTime ∧ jr.state = JState.started then
      let tl' ← endJobReservation s.total s.timeline j et dl s.curTime
        jr.resources
      let jr' := { jr with endTime := some s.curTime,
                           state := JState.finished }
      some { setJob s j jr' with
             timeline := tl', finished := s.finished ++ [j], dirty := true }
    else none
  | _, _, _ => none

/-- `System._reserve_job`: reserve a `PENDING` job at time `t`. -/
def reserveJob (s : SysState) (j : Nat) (t : Int) : Option SysState := do
  let jr ← s.jobs[j]?
  if s.curTime < t ∧ jr.state = JState.pending then
    let jr' := { jr with startTime := some t,
                         deadline := some (t + jr.timelimit),
                         state := JState.reserved }
    let s1 := setJob s j jr'
    some { s1 with
           timeline := addJobReservation s1.total s1.timeline j t
             (t + jr.timelimit) jr.resources,
           reserved := s1.reserved ++ [j] }
  else none

/-- One iteration body of `System.unreserve_all_jobs`: remove the
reservation of job `j`, move it back to `PENDING`, prepend it to the
pending queue. -/
def unreserveOne (s : SysState) (j : Nat) : Option SysState := do
  let jr ← s.jobs[j]?
  match jr.startTime, jr.deadline with
  | some st, some dl =>
    if jr.state = JState.reserved then
      let tl' ← removeJobReservation s.timeline j st dl jr.resources
      let jr' := { jr with startTime := none, deadline := none,
                           state := JState.pending }
      some { setJob s j jr' with timeline := tl', pending := j :: s.pending }
    else none
  | _, _ => none

def unreserveFold : List Nat → SysState → Option SysState
  | [], s => some s
  | j :: rest, s => do unreserveFold rest (← unreserveOne s j)

/-- `System.unreserve_all_jobs`: clear all reservations, restoring the
previously reserved jobs to the head of the pending queue (sorted by
descending job id, each prepended). -/
def unreserveAllJobs (s : SysState) : Option SysState := do
  let sorted := List.insertionSort (fun a b => b ≤ a) s.reserved
  let s' ← unreserveFold sorted s
  some { s' with reserved := [] }

/-- `System.start_or_reserve_job`; returns the job's new state.  `none`
models the `RuntimeError` paths. -/
def startOrReserveJob (s : SysState) (j : Nat) (reserve : Bool) :
    Option (JState × SysState) := do
  let jr ← s.jobs[j]?
  match findSchedulableTime s.timeline jr.resources jr.timelimit s.curTime
      reserve with
  | none => none
  | some none => some (JState.pending, s)
  | some (some t) =>
    if s.curTime < t then do
      let s' ← reserveJob s j t
      some (JState.reserved, s')
    else if t = s.curTime then do
      let s' ← startJob s j
      some (JState.started, s')
    else none

/-- In `handle_events`, each job of the `start` snapshot is asserted to
be `RESERVED` and then started. -/
def startReservedJob (s : SysState) (j : Nat) : Option SysState := do
  let jr ← s.jobs[j]?
  if jr.state = JState.reserved then startJob s j else none

def foldStartJobs : List Nat → SysState → Option SysState
  | [], s => some s
  | j :: rest, s => do foldStartJobs rest (← startReservedJob s j)

def foldEndJobs : List Nat → SysState → Option SysState
  | [], s => some s
  | j :: rest, s => do foldEndJobs rest (← endJob s j)

def startSetAt (m : List (Int × TimelineData)) (k : Int) : List Nat :=
  ((lookupKey m k).map (·.start)).getD []

def endSetAt (m : List (Int × TimelineData)) (k : Int) : List Nat :=
  ((lookupKey m k).map (·.end_)).getD []

def expiredSetAt (m : List (Int × TimelineData)) (k : Int) : List Nat :=
  ((lookupKey m k).map (·.expired)).getD []

/-- `System.handle_events`: advance `cur_time` to the next timeline key,
then start / end / expire the jobs recorded there, working on snapshots
of the event sets taken at the start of each loop.  (The tree node that
Python holds by reference is read back here through its key; on states
satisfying the representation invariant the two coincide.) -/
def handleEvents (s : SysState) : Option (Bool × SysState) :=
  match nextEvent s.timeline s.curTime with
  | none => some (false, s)
  | some (k, _) => do
    let s0 := { s with curTime := k }
    let s1 ← foldStartJobs (startSetAt s0.timeline k) s0
    let s2 ← foldEndJobs (endSetAt s1.timeline k) s1
    let s3 ← foldEndJobs (expiredSetAt s2.timeline k) s2
    some (true, { s3 with dirty := true })

/-- `System.run_sched_loop`. -/
def runSchedLoop (policy : SysState → Option SysState) (s : SysState) :
    Option SysState :=
  if s.dirty then do
    let s' ← policy s
    some { s' with dirty := false }
  else some s

/-- `System.tick`. -/
def tick (policy : SysState → Option SysState) (s : SysState) :
    Option (Bool × SysState) := do
  let s1 ← runSchedLoop policy s
  match ← handleEvents s1 with
  | (false, s2) => some (false, s2)
  | (true, s2) => do
    let s3 ← runSchedLoop policy s2
    some (true, s3)

/-! ## Policies (`sched_model/policy.py`) -/

/-- The `fcfs` while-loop; the fuel is the pending-queue length at entry
(each continuing iteration pops the head). -/
def fcfsLoop : Nat → SysState → Option SysState
  | 0, s => if s.pending.isEmpty then some s else none
  | n + 1, s =>
    match s.pending with
    | [] => some s
    | j :: _ => do
      let (st, s') ← startOrReserveJob s j false
      if st = JState.started then
        fcfsLoop n { s' with pending := s'.pending.tail }
      else some s'

def fcfs (s : SysState) : Option SysState := fcfsLoop s.pending.length s

/-- The `_backfill_sched` while-loop: `cap = none` is conservative
backfill, `cap = some n` is hybrid-`n` (EASY is `some 1`).  `cnt` is the
running count of reservations; `acc` the carry-over queue. -/
def capAllows (cap : Option Nat) (cnt : Nat) : Bool :=
  match cap with
  | none => true
  | some c => cnt < c

def backfillLoop (cap : Option Nat) : Nat → Nat → List Nat → SysState →
    Option SysState
  | 0, _, acc, s =>
    if s.pending.isEmpty then some { s with pending := acc } else none
  | n + 1, cnt, acc, s =>
    match s.pending with
    | [] => some { s with pending := acc }
    | j :: rest =>
      let s0 := { s with pending := rest }
      if capAllows cap cnt then do
        let (st, s1) ← startOrReserveJob s0 j true
        if st = JState.pending then none
        else
          backfillLoop cap n (if st = JState.reserved then cnt + 1 else cnt) acc s1
      else do
        let (st, s1) ← startOrReserveJob s0 j false
        if st = JState.reserved then none
        else
          backfillLoop cap n cnt (if st = JState.pending then acc ++ [j] else acc) s1

def backfillSched (cap : Option Nat) (s : SysState) : Option SysState := do
  let s1 ← unreserveAllJobs s
  backfillLoop cap s1.pending.length 0 [] s1

def easyBackfill : SysState → Option SysState := backfillSched (some 1)

def conservativeBackfill : SysState → Option SysState := backfillSched none

/-! ## Representation predicate of the map -/

/-- The association list represents a tree state: keys strictly
ascending. -/
def SortedKeys {α : Type} (m : List (Int × α)) : Prop :=
  List.Pairwise (· < ·) (m.map Prod.fst)

instance {α : Type} (m : List (Int × α)) : Decidable (SortedKeys m) := by
  unfold SortedKeys; infer_instance

/-- The resource projection "at `t`", derived from the node at or
immediately before `t` (`total_resources` when none exists). -/
def projAt (total : List Int) (m : List (Int × TimelineData)) (t : Int) :
    List Int :=
  match predStrict m (t + 1) with
  | some e => e.2.resources
  | none => total

/-! ## Result shapes of the System operations

Explicit forms of the successful results of `_start_job`, `_end_job`
and `_reserve_job`, used to characterize the `Option`-valued
operations. -/

/-- `Job.start`: the record after the PENDING/RESERVED → STARTED
transition at time `cur`. -/
def jobStarted (jr : JobRec) (cur : Int) : JobRec :=
  { jr with startTime := some cur, deadline := some (cur + jr.timelimit),
            endTime := some (cur + jr.actualRuntime),
            state := JState.started }

/-- `Job.end`: the record after the STARTED → FINISHED transition. -/
def jobEnded (jr : JobRec) (cur : Int) : JobRec :=
  { jr with endTime := some cur, state := JState.finished }

/-- `Job.reserve`: the record after the PENDING → RESERVED transition. -/
def jobReserved (jr : JobRec) (t : Int) : JobRec :=
  { jr with startTime := some t, deadline := some (t + jr.timelimit),
            state := JState.reserved }

/-- `Job.unreserve`: the record after the RESERVED → PENDING transition. -/
def jobUnreserved (jr : JobRec) : JobRec :=
  { jr with startTime := none, deadline := none, state := JState.pending }

/-- Result of `_start_job` on a PENDING job. -/
def startJobP (s : SysState) (j : Nat) (jr : JobRec) : SysState :=
  let s2 := setJob s j (jobStarted jr s.curTime)
  { s2 with
    timeline := insertEndEvent s2.total
      (addJobReservation s2.total s2.timeline j s.curTime
        (s.curTime + jr.timelimit) jr.resources)
      (s.curTime + jr.actualRuntime) j,
    dirty := true }

/-- Result of `_start_job` on a RESERVED job. -/
def startJobR (s : SysState) (j : Nat) (jr : JobRec) : SysState :=
  let s1 := { s with reserved := s.reserved.erase j }
  let s2 := setJob s1 j (jobStarted jr s.curTime)
  { s2 with
    timeline := insertEndEvent s2.total s2.timeline
      (s.curTime + jr.actualRuntime) j,
    dirty := true }

/-- Result of `_end_job` once `end_job_reservation` produced the new
timeline `tl'`. -/
def endJobRes (s : SysState) (j : Nat) (jr : JobRec)
    (tl' : List (Int × TimelineData)) : SysState :=
  { setJob s j (jobEnded jr s.curTime) with
    timeline := tl', finished := s.finished ++ [j], dirty := true }

/-- Result of `_reserve_job` at time `t`. -/
def reserveJobRes (s : SysState) (j : Nat) (jr : JobRec) (t : Int) :
    SysState :=
  let s1 := setJob s j (jobReserved jr t)
  { s1 with
    timeline := addJobReservation s1.total s1.timeline j t
      (t + jr.timelimit) jr.resources,
    reserved := s1.reserved ++ [j] }

/-! ## Demand accounting and the timeline invariant -/

/-- Component `i` of a vector (0 outside). -/
def compAt (v : List Int) (i : Nat) : Int := v.getD i 0

/-- Whether job record `jr` is charged against the projection at time
`t`: a RESERVED or STARTED job over `[start_time, deadline)`, and a
FINISHED job over `[start_time, end_time)` (its reservation was trimmed
back to its actual end when it finished). -/
def countedAt (jr : JobRec) (t : Int) : Bool :=
  match jr.state, jr.startTime, jr.deadline, jr.endTime with
  | JState.reserved, some st, some dl, _ => decide (st ≤ t ∧ t < dl)
  | JState.started, some st, some dl, _ => decide (st ≤ t ∧ t < dl)
  | JState.finished, some st, _, some et => decide (st ≤ t ∧ t < et)
  | _, _, _, _ => false

/-- The claim's own notion: only RESERVED and STARTED jobs are charged,
over `[start_time, deadline)`. -/
def claimCountedAt (jr : JobRec) (t : Int) : Bool :=
  match jr.state, jr.startTime, jr.deadline with
  | JState.reserved, some st, some dl => decide (st ≤ t ∧ t < dl)
  | JState.started, some st, some dl => decide (st ≤ t ∧ t < dl)
  | _, _, _ => false

/-- Component `i` of the total demand charged at time `t`. -/
def demSumAt (jobs : List JobRec) (t : Int) (i : Nat) : Int :=
  (jobs.map (fun jr => if countedAt jr t then compAt jr.resources i else 0)).sum

/-- Component `i` of the claim's total demand at time `t` (RESERVED and
STARTED jobs only). -/
def claimDemSumAt (jobs : List JobRec) (t : Int) (i : Nat) : Int :=
  (jobs.map
    (fun jr => if claimCountedAt jr t then compAt jr.resources i else 0)).sum

/-- The total demand charged at `t`, as a vector of dimension `dim`. -/
def demVecAt (jobs : List JobRec) (t : Int) (dim : Nat) : List Int :=
  (List.range dim).map (fun i => demSumAt jobs t i)

/-- The claim's demand vector at `t`. -/
def claimDemVecAt (jobs : List JobRec) (t : Int) (dim : Nat) : List Int :=
  (List.range dim).map (fun i => claimDemSumAt jobs t i)

/-- Componentwise sum of the demands of all STARTED jobs. -/
def startedDemVec (jobs : List JobRec) (dim : Nat) : List Int :=
  (List.range dim).map (fun i =>
    (jobs.map (fun jr =>
      if jr.state = JState.started then compAt jr.resources i else 0)).sum)

/-- Shape of the timestamp fields in each job state
(`sched_model/job.py` transitions). -/
def JobWF (jr : JobRec) : Prop :=
  match jr.state, jr.startTime, jr.endTime, jr.deadline with
  | JState.pending, none, none, none => True
  | JState.reserved, some st, none, some dl => dl = st + jr.timelimit
  | JState.started, some st, some _, some dl => dl = st + jr.timelimit
  | JState.finished, some _, some _, some _ => True
  | _, _, _, _ => False

instance (jr : JobRec) : Decidable (JobWF jr) := by
  unfold JobWF
  rcases jr.state <;> rcases jr.startTime <;> rcases jr.endTime <;>
    rcases jr.deadline <;> infer_instance

/-- Membership of a time key. -/
def keyMem {α : Type} (m : List (Int × α)) (k : Int) : Prop :=
  (lookupKey m k).isSome = true

/-- (T2/T3, forward) every event-set member points back to a consistent
job record. -/
def eventsWF (jobs : List JobRec) (m : List (Int × TimelineData)) : Prop :=
  ∀ p ∈ m,
    (∀ j ∈ p.2.start,
      match jobs[j]? with
      | some jr => jr.startTime = some p.1 ∧
          (jr.state = JState.reserved ∨ jr.state = JState.started ∨
            jr.state = JState.finished)
      | none => False) ∧
    (∀ j ∈ p.2.expired,
      match jobs[j]? with
      | some jr => jr.deadline = some p.1 ∧
          (jr.state = JState.reserved ∨ jr.state = JState.started)
      | none => False) ∧
    (∀ j ∈ p.2.end_,
      match jobs[j]? with
      | some jr => jr.endTime = some p.1 ∧
          (jr.state = JState.started ∨ jr.state = JState.finished)
      | none => False)

/-- (T2/T3, existence) every job in a live state has its boundary events
present in the timeline. -/
def eventsExist (jobs : List JobRec) (m : List (Int × TimelineData)) : Prop :=
  ∀ j < jobs.length,
    match jobs[j]? with
    | some jr =>
      (match jr.startTime with
       | some st =>
         (jr.state = JState.reserved ∨ jr.state = JState.started ∨
           jr.state = JState.finished) →
         match lookupKey m st with
         | some d => j ∈ d.start
         | none => False
       | none => True) ∧
      (match jr.deadline with
       | some dl =>
         (jr.state = JState.reserved ∨ jr.state = JState.started) →
         match lookupKey m dl with
         | some d => j ∈ d.expired
         | none => False
       | none => True) ∧
      (match jr.endTime with
       | some et =>
         (jr.state = JState.started ∨ jr.state = JState.finished) →
         match lookupKey m et with
         | some d => j ∈ d.end_
         | none => False
       | none => True)
    | none => True

/-- Each event set is duplicate-free (Python sets). -/
def eventsNodup (m : List (Int × TimelineData)) : Prop :=
  ∀ p ∈ m, p.2.start.Nodup ∧ p.2.end_.Nodup ∧ p.2.expired.Nodup

/-- (T1, amended) the cached projection at every key. -/
def timelineResOK (total : List Int) (jobs : List JobRec)
    (m : List (Int × TimelineData)) : Prop :=
  ∀ p ∈ m, p.2.resources.length = total.length ∧
    ∀ i < total.length,
      compAt p.2.resources i = compAt total i - demSumAt jobs p.1 i

/-- The master representation invariant used for T1. -/
def Inv1 (s : SysState) : Prop :=
  SortedKeys s.timeline ∧
  (∀ jr ∈ s.jobs, jr.resources.length = s.total.length ∧ 0 < jr.timelimit) ∧
  (∀ jr ∈ s.jobs, JobWF jr) ∧
  eventsWF s.jobs s.timeline ∧
  eventsExist s.jobs s.timeline ∧
  eventsNodup s.timeline ∧
  timelineResOK s.total s.jobs s.timeline

/-! ## Reachability relations -/

/-- States reachable by any sequence of (successful) System operations:
enqueue, start, reserve, end, unreserve-all, handle-events. -/
inductive Reachable : SysState → Prop where
  | init (total : List Int) : Reachable (mkSystem total)
  | enqueue {s s' : SysState} {tl : Int} {dem : List Int} {rt : Int} :
      Reachable s → enqueueJob s tl dem rt = EnqResult.ok s' → Reachable s'
  | start {s s' : SysState} {j : Nat} :
      Reachable s → startJob s j = some s' → Reachable s'
  | reserve {s s' : SysState} {j : Nat} {t : Int} :
      Reachable s → reserveJob s j t = some s' → Reachable s'
  | end_ {s s' : SysState} {j : Nat} :
      Reachable s → endJob s j = some s' → Reachable s'
  | unreserveAll {s s' : SysState} :
      Reachable s → unreserveAllJobs s = some s' → Reachable s'
  | handle {s s' : SysState} {b : Bool} :
      Reachable s → handleEvents s = some (b, s') → Reachable s'

/-- The policies the specification quantifies over: FCFS and backfill
with any cap. -/
def PolicyOf (pol : SysState → Option SysState) : Prop :=
  pol = fcfs ∨ ∃ cap, pol = backfillSched cap

/-- States reached while `System.run` executes one of the specified
policies on a workload of valid jobs: the initial system (nonnegative
capacity), any number of accepted enqueues of jobs with valid demands
and runtimes, and any number of `tick`s. -/
inductive ReachableRun : SysState → Prop where
  | init (total : List Int) (h : rscValid total) :
      ReachableRun (mkSystem total)
  | enqueue {s s' : SysState} {tl : Int} {dem : List Int} {rt : Int} :
      ReachableRun s → rscValid dem → 0 < rt → rt ≤ tl →
      enqueueJob s tl dem rt = EnqResult.ok s' → ReachableRun s'
  | step {s s' : SysState} {pol : SysState → Option SysState} {b : Bool} :
      ReachableRun s → PolicyOf pol → tick pol s = some (b, s') →
      ReachableRun s'

/-- Result of one `unreserve_all_jobs` iteration on job `j`. -/
def unreserveOneRes (s : SysState) (j : Nat) (jr : JobRec)
    (tl' : List (Int × TimelineData)) : SysState :=
  { setJob s j (jobUnreserved jr) with
    timeline := tl', pending := j :: s.pending }

/-- Helper for building concrete states: the result of a successful
enqueue (the state itself if the enqueue failed). -/
def enqOk (s : SysState) (tl : Int) (dem : List Int) (rt : Int) : SysState :=
  match enqueueJob s tl dem rt with
  | EnqResult.ok s' => s'
  | _ => s

/-- Concrete states for witnesses. -/
def c10state : SysState := enqOk (mkSystem [1]) 1 [1] 1

def c10res : JState × SysState :=
  (startOrReserveJob c10state 0 false).getD (JState.pending, c10state)

def c5map : List (Int × TimelineData) :=
  [(0, { start := [0], end_ := [], expired := [], resources := [2] }),
   (3, { start := [], end_ := [], expired := [0], resources := [3] })]

/-- The half-open interval over which a job is charged in the
projection, if any. -/
def countedIv (jr : JobRec) : Option (Int × Int) :=
  match jr.state, jr.startTime, jr.deadline, jr.endTime with
  | JState.reserved, some st, some dl, _ => some (st, dl)
  | JState.started, some st, some dl, _ => some (st, dl)
  | JState.finished, some st, _, some et => some (st, et)
  | _, _, _, _ => none

/-- Both endpoints of every charged interval are timeline keys
(follows from T2/T3; the hypothesis that makes predecessor-derived
initialization of new keys sound). -/
def boundaryClosed (jobs : List JobRec) (m : List (Int × TimelineData)) :
    Prop :=
  ∀ jr ∈ jobs,
    match countedIv jr with
    | some e => keyMem m e.1 ∧ keyMem m e.2
    | none => True

/-- Timeline monotonicity: every key survives and every event set only
grows (holds for event insertion and range updates). -/
def tlGrows (m m' : List (Int × TimelineData)) : Prop :=
  ∀ k d, lookupKey m k = some d →
    ∃ d', lookupKey m' k = some d' ∧
      (∀ x ∈ d.start, x ∈ d'.start) ∧
      (∀ x ∈ d.end_, x ∈ d'.end_) ∧
      (∀ x ∈ d.expired, x ∈ d'.expired)

/-- Set-membership preservation by the event-removal passes targeting
job `j`: every `start` member survives, and `expired`/`end` members
other than `j` survive. -/
def keepsExcept (j : Nat) (m m' : List (Int × TimelineData)) : Prop :=
  ∀ k x,
    (x ∈ startSetAt m k → x ∈ startSetAt m' k) ∧
    (x ≠ j → x ∈ expiredSetAt m k → x ∈ expiredSetAt m' k) ∧
    (x ≠ j → x ∈ endSetAt m k → x ∈ endSetAt m' k)

/-- Weaker form: members other than `j` of every event set survive. -/
def keepsAllExcept (j : Nat) (m m' : List (Int × TimelineData)) : Prop :=
  ∀ k x, x ≠ j →
    (x ∈ startSetAt m k → x ∈ startSetAt m' k) ∧
    (x ∈ expiredSetAt m k → x ∈ expiredSetAt m' k) ∧
    (x ∈ endSetAt m k → x ∈ endSetAt m' k)

/-- The claim's reading of T1 at a state: at every key, the cached
vector is `total` minus the demand of RESERVED/STARTED jobs alone. -/
def claimT1 (s : SysState) : Prop :=
  ∀ p ∈ s.timeline, p.2.resources.length = s.total.length ∧
    ∀ i < s.total.length,
      compAt p.2.resources i =
        compAt s.total i - claimDemSumAt s.jobs p.1 i

instance (s : SysState) : Decidable (claimT1 s) := by
  unfold claimT1
  infer_instance

/-- Concrete run for T1: one unit job on a unit machine, started at 0
and ended by `handle_events` at time 1. -/
def c1s1 : SysState := enqOk (mkSystem [1]) 1 [1] 1

def c1s2 : SysState := (startJob c1s1 0).getD c1s1

def c1state : SysState := ((handleEvents c1s2).getD (false, c1s2)).2

instance : IsTotal Nat (fun a b => b ≤ a) := ⟨fun a b => le_total b a⟩

instance : IsTrans Nat (fun a b => b ≤ a) :=
  ⟨fun _ _ _ hab hbc => le_trans hbc hab⟩

/-- Every job on the reserved list is RESERVED (decidable form). -/
def allReserved (s : SysState) : Bool :=
  s.reserved.all (fun j =>
    match s.jobs[j]? with
    | some jr => jr.state == JState.reserved
    | none => false)

/-- Concrete run for C7: one job on a unit machine, reserved at time 1,
then unreserved. -/
def c7s1 : SysState := enqOk (mkSystem [1]) 2 [1] 1

def c7state : SysState := (reserveJob c7s1 0 1).getD c7s1

def c7res : SysState := (unreserveAllJobs c7state).getD c7state

/-! ## Binary search trees (`sched_model/tree/base.py`)

The node structure of `TreeNode` (key, value, left, right); the threaded
`_prev`/`_next` pointers enumerate the nodes in order, with the sentinel
closing the cycle, so a node's `_next`/`_prev` is its in-order
successor/predecessor (or the sentinel at the ends, modelled `none`). -/

inductive BT (α : Type) where
  | leaf
  | node (l : BT α) (k : Int) (v : α) (r : BT α)
deriving Repr, DecidableEq

def inorder {α : Type} : BT α → List (Int × α)
  | BT.leaf => []
  | BT.node l k v r => inorder l ++ (k, v) :: inorder r

/-- `TreeNode._lower_bound` (inclusive lower bound); `succ` is the
caller's `_next` of the subtree's root — returned where Python returns
`self._next` off the rightmost path. -/
def tlbAux {α : Type} : BT α → Int → Option (Int × α) → Option (Int × α)
  | BT.leaf, _, succ => succ
  | BT.node l k v r, b, succ =>
    if b = k then some (k, v)
    else if b < k then
      match l with
      | BT.leaf => some (k, v)
      | BT.node _ _ _ _ => tlbAux l b (some (k, v))
    else
      match r with
      | BT.leaf => succ
      | BT.node _ _ _ _ => tlbAux r b succ

/-- `TreeNode._upper_bound` (exclusive upper bound); `pred` is the
caller's `_prev` of the subtree's root. -/
def tubAux {α : Type} : BT α → Int → Option (Int × α) → Option (Int × α)
  | BT.leaf, _, pred => pred
  | BT.node l k v r, b, pred =>
    if b ≤ k then
      match l with
      | BT.leaf => pred
      | BT.node _ _ _ _ => tubAux l b pred
    else
      match r with
      | BT.leaf => some (k, v)
      | BT.node _ _ _ _ => tubAux r b (some (k, v))

/-- `Tree.lower_bound`. -/
def treeLowerBound {α : Type} (t : BT α) (b : Int) : Option (Int × α) :=
  match t with
  | BT.leaf => none
  | BT.node _ _ _ _ => tlbAux t b none

/-- `Tree.upper_bound`. -/
def treeUpperBound {α : Type} (t : BT α) (b : Int) : Option (Int × α) :=
  match t with
  | BT.leaf => none
  | BT.node _ _ _ _ => tubAux t b none

/-- The search-tree ordering invariant. -/
def BSTwf {α : Type} : BT α → Prop
  | BT.leaf => True
  | BT.node l k _ r =>
    (∀ p ∈ inorder l, p.1 < k) ∧ (∀ p ∈ inorder r, k < p.1) ∧
    BSTwf l ∧ BSTwf r

instance instBSTwfDec {α : Type} : (t : BT α) → Decidable (BSTwf t)
  | BT.leaf => isTrue trivial
  | BT.node l k v r => by
    have hl := instBSTwfDec l
    have hr := instBSTwfDec r
    unfold BSTwf
    infer_instance

/-- Concrete tree for the C3 witness. -/
def c3tree : BT Int :=
  BT.node (BT.node BT.leaf 1 10 BT.leaf) 2 20 (BT.node BT.leaf 3 30 BT.leaf)

/-! ## Threaded iteration (`sched_model/tree/iter.py`, `Tree._do_iter`)

Positions in the circular threaded list: `0 .. n-1` are the nodes in
in-order; `n` is the sentinel.  `_next`/`_prev` follow the cycle. -/

def posNext (n p : Nat) : Nat :=
  if p = n then (if n = 0 then n else 0)
  else (if p + 1 = n then n else p + 1)

def posPrev (n p : Nat) : Nat :=
  if p = n then (if n = 0 then n else n - 1)
  else (if p = 0 then n else p - 1)

/-- The forward `TreeIter.__next__` loop from `cur` to `end` inclusive:
yields the current node's entry and advances along `_next` until the end
node was yielded.  `none` models the `AttributeError` of reading
`key`/`value` off the sentinel, and fuel exhaustion (an endless loop);
neither occurs for the iterators `_do_iter` builds. -/
def walkFrom {α : Type} (xs : List (Int × α)) :
    Nat → Nat → Nat → Option (List (Int × α))
  | 0, _, _ => none
  | fuel + 1, cur, e =>
    match xs[cur]? with
    | none => none
    | some entry =>
      if cur = e then some [entry]
      else
        match walkFrom xs fuel (posNext xs.length cur) e with
        | none => none
        | some rest => some (entry :: rest)

/-- `TreeIter(ITEMS, lower, upper, rev := false)` run to completion: the
constructor guard `lower._prev != upper` decides emptiness. -/
def iterItemsFwd {α : Type} (xs : List (Int × α)) (lb rb : Nat) :
    Option (List (Int × α)) :=
  if posPrev xs.length lb ≠ rb then walkFrom xs (xs.length + 1) lb rb
  else some []

/-- The position of a bound query's result in the threaded order:
the node's in-order index, or the sentinel (`length`). -/
def lbPosOf {α : Type} (xs : List (Int × α)) (r : Option (Int × α)) : Nat :=
  match r with
  | some e => xs.findIdx (fun p => decide (p.1 = e.1))
  | none => xs.length

/-- `Tree._do_iter(ITEMS, lo, hi, reverse := false)` after the swap
test, with both bounds present. -/
def treeItemsRaw {α : Type} (t : BT α) (lo hi : Int) :
    Option (List (Int × α)) :=
  iterItemsFwd (inorder t) (lbPosOf (inorder t) (treeLowerBound t lo))
    (lbPosOf (inorder t) (treeUpperBound t hi))

/-- `Tree.items(lo, hi)`: `_do_iter` swaps the bounds when
`lo > hi`. -/
def treeItems {α : Type} (t : BT α) (lo hi : Int) :
    Option (List (Int × α)) :=
  if lo > hi then treeItemsRaw t hi lo else treeItemsRaw t lo hi

/-- Concrete tree for the C9 witness. -/
def c9tree : BT Int :=
  BT.node (BT.node BT.leaf 1 10 BT.leaf) 3 30
    (BT.node BT.leaf 5 50 (BT.node BT.leaf 7 70 BT.leaf))

/-! ## Run reachability and the run invariant (C2) -/

/-- States reached while `System.run` executes one of the specified
policies, under exactly the claim's own hypotheses: any capacity
vector, any accepted enqueues (so each job's demand is componentwise
`≤ total_resources`, which is what `enqueue_job` checks), and any
number of `tick`s.  Unlike `ReachableRun`, demand vectors are not
required to be nonnegative. -/
inductive ReachableRunW : SysState → Prop where
  | init (total : List Int) : ReachableRunW (mkSystem total)
  | enqueue {s s' : SysState} {tl : Int} {dem : List Int} {rt : Int} :
      ReachableRunW s → enqueueJob s tl dem rt = EnqResult.ok s' →
      ReachableRunW s'
  | step {s s' : SysState} {pol : SysState → Option SysState} {b : Bool} :
      ReachableRunW s → PolicyOf pol → tick pol s = some (b, s') →
      ReachableRunW s'

/-- Every cached projection on the timeline is componentwise
nonnegative (on the first `dim` components). -/
def timelineResValid (dim : Nat) (m : List (Int × TimelineData)) : Prop :=
  ∀ p ∈ m, ∀ i < dim, 0 ≤ compAt p.2.resources i

/-- Static validity of a job record in a valid workload: nonnegative
demand dominated by the capacity, positive actual runtime within the
time limit. -/
def jobValid (total : List Int) (jr : JobRec) : Prop :=
  rscValid jr.resources ∧ allGeq total jr.resources ∧
    0 < jr.actualRuntime ∧ jr.actualRuntime ≤ jr.timelimit

/-- Temporal placement of a job record relative to the current time,
at an operation boundary: reservations start strictly in the future,
started jobs run strictly past `cur`, finished jobs ended at or before
`cur`. -/
def jobTimesOK (jr : JobRec) (cur : Int) : Prop :=
  match jr.state with
  | JState.reserved => ∃ st, jr.startTime = some st ∧ cur < st
  | JState.started => ∃ st, jr.startTime = some st ∧ st ≤ cur ∧
      jr.endTime = some (st + jr.actualRuntime) ∧
      cur < st + jr.actualRuntime
  | JState.finished => ∃ et, jr.endTime = some et ∧ et ≤ cur
  | JState.pending => True

/-- Temporal placement in the middle of `handle_events`, after
`cur_time` has advanced to the key being processed but before its
events have been drained: the strict bounds become non-strict. -/
def jobTimesMid (jr : JobRec) (cur : Int) : Prop :=
  match jr.state with
  | JState.reserved => ∃ st, jr.startTime = some st ∧ cur ≤ st
  | JState.started => ∃ st, jr.startTime = some st ∧ st ≤ cur ∧
      jr.endTime = some (st + jr.actualRuntime) ∧
      cur ≤ st + jr.actualRuntime
  | JState.finished => ∃ et, jr.endTime = some et ∧ et ≤ cur
  | JState.pending => True

/-- The run invariant: the representation invariant, a nonnegative
capacity, nonnegative cached projections, valid job parameters, and
correct temporal placement of every job. -/
def Inv2 (s : SysState) : Prop :=
  Inv1 s ∧ rscValid s.total ∧
  timelineResValid s.total.length s.timeline ∧
  (∀ jr ∈ s.jobs, jobValid s.total jr) ∧
  (∀ jr ∈ s.jobs, jobTimesOK jr s.curTime)

/-- The run invariant in the middle of `handle_events` (non-strict
temporal placement). -/
def Inv2m (s : SysState) : Prop :=
  Inv1 s ∧ rscValid s.total ∧
  timelineResValid s.total.length s.timeline ∧
  (∀ jr ∈ s.jobs, jobValid s.total jr) ∧
  (∀ jr ∈ s.jobs, jobTimesMid jr s.curTime)

/-- Job `x` of state `s` exists and is in state `st`. -/
def jobStateIs (s : SysState) (x : Nat) (st : JState) : Prop :=
  ∃ jr, s.jobs[x]? = some jr ∧ jr.state = st

/-- Bookkeeping predicate for the intermediate timelines of the
operations: every cached vector has dimension `dim` and is
componentwise nonnegative. -/
def resGood (dim : Nat) (m : List (Int × TimelineData)) : Prop :=
  ∀ p ∈ m, p.2.resources.length = dim ∧
    ∀ i < dim, 0 ≤ compAt p.2.resources i

/-- Concrete run refuting the claim's unrestricted form of resource
safety: a machine of capacity `[1]`, one job with demand `[-1]`
(componentwise `≤ [1]`, so accepted) and runtime 5, and two unit jobs
of runtime 10 (time limit 10 each). -/
def c2s : SysState :=
  enqOk (enqOk (enqOk (mkSystem [1]) 10 [-1] 5) 10 [1] 10) 10 [1] 10

/-- After one FCFS tick all three jobs start at time 0; at time 5 the
negative-demand job finishes and its credit drives the projection
negative, leaving the two unit jobs STARTED with joint demand `[2]`
on capacity `[1]`. -/
def c2bad : SysState := ((tick fcfs c2s).getD (false, c2s)).2

/-! ## AVL trees (`sched_model/tree/avl.py` over `base.py`)

The parent-pointer retracing of `_repair_insert` / `_repair_delete` is
rendered bottom-up: the Boolean carried by each recursive call plays
the role of the repair method being invoked at the next level up, and
the per-level balance updates, stop conditions and rotations are the
method bodies verbatim.  `Option` models the `None`-dereference
crashes that valid trees never reach. -/

inductive AT (α : Type) where
  | leaf
  | node (l : AT α) (k : Int) (v : α) (bal : Int) (r : AT α)
deriving Repr, DecidableEq

def atInorder {α : Type} : AT α → List (Int × α)
  | .leaf => []
  | .node l k v _ r => atInorder l ++ (k, v) :: atInorder r

def sizeA {α : Type} : AT α → Nat
  | .leaf => 0
  | .node l _ _ _ r => sizeA l + sizeA r + 1

/-- `AVLNode._rotate` invoked on the left child of the root (a right
rotation), including its balance bookkeeping. -/
def avlRotL {α : Type} : AT α → Option (AT α)
  | .node (.node cl ck cv cbal cr) k v bal r =>
    let npb := bal + 1 + (if cbal < 0 then -cbal else 0)
    let ncb := cbal + 1 + (if npb > 0 then npb else 0)
    some (.node cl ck cv ncb (.node cr k v npb r))
  | _ => none

/-- `AVLNode._rotate` invoked on the right child of the root (a left
rotation). -/
def avlRotR {α : Type} : AT α → Option (AT α)
  | .node l k v bal (.node cl ck cv cbal cr) =>
    let npb := bal - 1 - (if cbal > 0 then cbal else 0)
    let ncb := cbal - 1 + (if npb < 0 then npb else 0)
    some (.node (.node l k v npb cl) ck cv ncb cr)
  | _ => none

/-- `AVLNode._rebalance`. -/
def avlRebalance {α : Type} : AT α → Option (AT α)
  | .leaf => none
  | .node l k v bal r =>
    if bal < 0 then
      match l with
      | .leaf => none
      | .node ll lk lv lbal lr =>
        if lbal > 0 then do
          let l2 ← avlRotR (.node ll lk lv lbal lr)
          avlRotL (.node l2 k v bal r)
        else avlRotL (.node l k v bal r)
    else
      match r with
      | .leaf => none
      | .node rl rk rv rbal rr =>
        if rbal < 0 then do
          let r2 ← avlRotL (.node rl rk rv rbal rr)
          avlRotR (.node l k v bal r2)
        else avlRotR (.node l k v bal r)

/-- The stored balance factor of a subtree root (0 for a leaf). -/
def balOf {α : Type} : AT α → Int
  | .leaf => 0
  | .node _ _ _ bal _ => 0 + bal

/-- One retracing step of `AVLNode._repair_delete` at a node whose
`isLeft`-side subtree just lost one level of height. -/
def avlAdjust {α : Type} (l : AT α) (k : Int) (v : α) (bal : Int)
    (r : AT α) (isLeft shrunk : Bool) : Option (AT α × Bool) :=
  if ¬shrunk then some (.node l k v bal r, false)
  else
    let nb := if isLeft then bal + 1 else bal - 1
    let sibling := if isLeft then r else l
    if nb = 0 then some (.node l k v nb r, true)
    else if (if isLeft then nb = 2 else nb = -2) then do
      let t2 ← avlRebalance (.node l k v nb r)
      some (t2, balOf sibling ≠ 0)
    else some (.node l k v nb r, false)

/-- `Tree.insert` on an AVL tree: `_insert_node` plus
`AVLNode._repair_insert`, returning the previous value, the new tree
and whether the subtree height grew. -/
def avlInsert {α : Type} : AT α → Int → α → Option (Option α × AT α × Bool)
  | .leaf, key, val => some (none, .node .leaf key val 0 .leaf, true)
  | .node l k v bal r, key, val =>
    if key = k then some (some v, .node l k val bal r, false)
    else if key < k then do
      let res ← avlInsert l key val
      if ¬res.2.2 then some (res.1, .node res.2.1 k v bal r, false)
      else if bal < 0 then do
        let t2 ← avlRebalance (.node res.2.1 k v (bal - 1) r)
        some (res.1, t2, false)
      else if bal > 0 then some (res.1, .node res.2.1 k v (bal - 1) r, false)
      else some (res.1, .node res.2.1 k v (bal - 1) r, true)
    else do
      let res ← avlInsert r key val
      if ¬res.2.2 then some (res.1, .node l k v bal res.2.1, false)
      else if bal > 0 then do
        let t2 ← avlRebalance (.node l k v (bal + 1) res.2.1)
        some (res.1, t2, false)
      else if bal < 0 then some (res.1, .node l k v (bal + 1) res.2.1, false)
      else some (res.1, .node l k v (bal + 1) res.2.1, true)

/-- The first (leftmost) entry: the data `_next` delivers for the
two-children case of `_delete_node`. -/
def firstE {α : Type} : AT α → Option (Int × α)
  | .leaf => none
  | .node .leaf k v _ _ => some (k, v)
  | .node (.node ll lk lv lb lr) _ _ _ _ => firstE (.node ll lk lv lb lr)

mutual

/-- `TreeNode._delete_node` (with the AVL repairs rendered
bottom-up): delete the root of `t`. -/
def avlDelNode {α : Type} : AT α → Option (AT α × Bool)
  | .leaf => none
  | .node (.node ll lk lv lb lr) k v bal (.node rl rk rv rb rr) =>
    match firstE (.node rl rk rv rb rr) with
    | none => none
    | some (sk, sv) => do
      let res ← avlDelLeftmost (.node rl rk rv rb rr)
      avlAdjust (.node ll lk lv lb lr) sk sv bal res.1 false res.2
  | .node l k v bal r => avlDelSingle l k v bal r
termination_by t => 2 * sizeA t
decreasing_by
  all_goals simp [sizeA]
  all_goals omega

/-- Delete the leftmost node of `t` (the `_delete_node` call on the
in-order successor). -/
def avlDelLeftmost {α : Type} : AT α → Option (AT α × Bool)
  | .leaf => none
  | .node .leaf k v bal r => avlDelSingle .leaf k v bal r
  | .node (.node ll lk lv lb lr) k v bal r => do
    let res ← avlDelLeftmost (.node ll lk lv lb lr)
    avlAdjust res.1 k v bal r true res.2
termination_by t => 2 * sizeA t
decreasing_by
  all_goals simp [sizeA]
  all_goals omega

/-- Base `TreeNode._delete_single_child` (with AVL repairs). -/
def avlDelSingle {α : Type} (l : AT α) (k : Int) (v : α) (bal : Int)
    (r : AT α) : Option (AT α × Bool) :=
  match l with
  | .node ll lk lv lb lr => do
    let res ← avlDelNode (.node ll lk lv lb lr)
    avlAdjust res.1 lk lv bal r true res.2
  | .leaf =>
    match r with
    | .node rl rk rv rb rr => do
      let res ← avlDelNode (.node rl rk rv rb rr)
      avlAdjust .leaf rk rv bal res.1 false res.2
    | .leaf => some (.leaf, true)
termination_by 2 * (sizeA l + sizeA r) + 1
decreasing_by
  all_goals simp [sizeA]
  all_goals omega

end

/-- `Tree.__delitem__` on an AVL tree: `_find_node` then
`_delete_node`, with the delete repairs retraced bottom-up.  The inner
`none` is the `KeyError`. -/
def avlDelete {α : Type} : AT α → Int → Option (Option (AT α × Bool))
  | .leaf, _ => some none
  | .node l k v bal r, key =>
    if key = k then
      match avlDelNode (.node l k v bal r) with
      | none => none
      | some res => some (some res)
    else if key < k then
      match avlDelete l key with
      | none => none
      | some none => some none
      | some (some res) =>
        match avlAdjust res.1 k v bal r true res.2 with
        | none => none
        | some res2 => some (some res2)
    else
      match avlDelete r key with
      | none => none
      | some none => some none
      | some (some res) =>
        match avlAdjust l k v bal res.1 false res.2 with
        | none => none
        | some res2 => some (some res2)

/-! ## Red-black trees (`sched_model/tree/rb.py` over `base.py`) -/

inductive RT (α : Type) where
  | leaf
  | node (l : RT α) (k : Int) (v : α) (red : Bool) (r : RT α)
deriving Repr, DecidableEq

def rtInorder {α : Type} : RT α → List (Int × α)
  | .leaf => []
  | .node l k v _ r => rtInorder l ++ (k, v) :: rtInorder r

def sizeR {α : Type} : RT α → Nat
  | .leaf => 0
  | .node l _ _ _ r => sizeR l + sizeR r + 1

/-- Plain `TreeNode._rotate` of the left child (no recoloring). -/
def rbRotL {α : Type} : RT α → Option (RT α)
  | .node (.node cl ck cv cred cr) k v red r =>
    some (.node cl ck cv cred (.node cr k v red r))
  | _ => none

/-- Plain `TreeNode._rotate` of the right child. -/
def rbRotR {α : Type} : RT α → Option (RT α)
  | .node l k v red (.node cl ck cv cred cr) =>
    some (.node (.node l k v red cl) ck cv cred cr)
  | _ => none

/-- Pending state of `RBNode._repair_insert`, rendered bottom-up:
`done` — no repair outstanding; `pend` — the returned subtree's root is
the (red) node the repair is about to inspect; `pend2L`/`pend2R` — the
returned subtree's root is the red parent, with the violating red
child on the indicated side. -/
inductive RStat where
  | done | pend | pend2L | pend2R
deriving Repr, DecidableEq

/-- One level of `RBNode._repair_insert`: the subtree root just had
its `isLeft`-side child returned with the given status. -/
def rbInsFix {α : Type} (l : RT α) (k : Int) (v : α) (red : Bool)
    (r : RT α) (isLeft : Bool) (st : RStat) : Option (RT α × RStat) :=
  match st with
  | RStat.done => some (.node l k v red r, RStat.done)
  | RStat.pend =>
    if ¬red then some (.node l k v red r, RStat.done)
    else some (.node l k v red r,
      if isLeft then RStat.pend2L else RStat.pend2R)
  | _ =>
    -- I am the grandparent; my `isLeft` child is the red parent.
    let cIsLeft := st = RStat.pend2L
    let uncle := if isLeft then r else l
    match uncle with
    | .node ul uk uv true ur =>
      -- red uncle: recolor parent and uncle black, me red, continue.
      (match (if isLeft then l else r) with
       | .node pl pk pv _ pr =>
         let p2 : RT α := .node pl pk pv false pr
         let u2 : RT α := .node ul uk uv false ur
         some (if isLeft then .node p2 k v true u2
               else .node u2 k v true p2, RStat.pend)
       | .leaf => none)
    | _ => do
      -- black (or absent) uncle: one or two rotations, then recolor.
      let t1 ←
        if cIsLeft ≠ isLeft then
          if isLeft then do
            let l2 ← (if cIsLeft then rbRotL l else rbRotR l)
            some (RT.node l2 k v red r)
          else do
            let r2 ← (if cIsLeft then rbRotL r else rbRotR r)
            some (RT.node l k v red r2)
        else some (RT.node l k v red r)
      let t2 ← if isLeft then rbRotL t1 else rbRotR t1
      match t2 with
      | .node nl nk nv _ nr =>
        if isLeft then
          match nr with
          | .node gl gk gv _ gr =>
            some (RT.node nl nk nv false (.node gl gk gv true gr),
              RStat.done)
          | .leaf => none
        else
          match nl with
          | .node gl gk gv _ gr =>
            some (RT.node (.node gl gk gv true gr) nk nv false nr,
              RStat.done)
          | .leaf => none
      | .leaf => none

/-- `_insert_node` plus `RBNode._repair_insert`, bottom-up. -/
def rbInsert {α : Type} : RT α → Int → α → Option (Option α × RT α × RStat)
  | .leaf, key, val => some (none, .node .leaf key val true .leaf, RStat.pend)
  | .node l k v red r, key, val =>
    if key = k then some (some v, .node l k val red r, RStat.done)
    else if key < k then do
      let res ← rbInsert l key val
      let fx ← rbInsFix res.2.1 k v red r true res.2.2
      some (res.1, fx.1, fx.2)
    else do
      let res ← rbInsert r key val
      let fx ← rbInsFix l k v red res.2.1 false res.2.2
      some (res.1, fx.1, fx.2)

/-- `Tree.insert` on a red-black tree: finish the pending repair at
the root (`_repair_insert` with no parent recolors the root black; a
red root with a pending red child would crash in `_rotate`). -/
def rbInsRoot {α : Type} (t : RT α) (key : Int) (val : α) :
    Option (Option α × RT α) :=
  match rbInsert t key val with
  | none => none
  | some (old, t2, RStat.done) => some (old, t2)
  | some (old, .node l k v _ r, RStat.pend) =>
    some (old, .node l k v false r)
  | some (_, .leaf, RStat.pend) => none
  | some (_, _, _) => none

/-- `RBNode._delete_single_child`. -/
def rbDelSingle {α : Type} (l : RT α) (k : Int) (v : α) (red : Bool)
    (r : RT α) : RT α × Bool :=
  if ¬red then
    match l with
    | .node ll lk lv _ lr => (.node ll lk lv false lr, false)
    | .leaf =>
      match r with
      | .node rl rk rv _ rr => (.node rl rk rv false rr, false)
      | .leaf => (.leaf, true)
  else (.leaf, false)

/-- Cases B-E of `RBNode._repair_delete` (the sibling is black when
these run). -/
def rbFixBCDE {α : Type} (l : RT α) (k : Int) (v : α) (red : Bool)
    (r : RT α) (isLeft : Bool) : Option (RT α × Bool) :=
  match (if isLeft then r else l) with
  | .leaf => none
  | .node sl sk sv sred sr =>
    let slb := (match sl with | .leaf => true | .node _ _ _ c _ => !c)
    let srb := (match sr with | .leaf => true | .node _ _ _ c _ => !c)
    if !red && !sred && slb && srb then
      -- case B: recolor the sibling red, stay one short, continue up.
      let sib2 : RT α := .node sl sk sv true sr
      some (if isLeft then .node l k v red sib2 else .node sib2 k v red r,
        true)
    else if red && !sred && slb && srb then
      -- case C
      let sib2 : RT α := .node sl sk sv true sr
      some (if isLeft then .node l k v false sib2
            else .node sib2 k v false r, false)
    else do
      -- optional case D, then case E.
      let t1 ←
        if !sred && isLeft && !slb && srb then
          match sl with
          | .node nl nk nv _ nr => do
            let sib2 ← rbRotL (.node (.node nl nk nv false nr) sk sv true sr)
            some (RT.node l k v red sib2)
          | .leaf => none
        else if !sred && !isLeft && slb && !srb then
          match sr with
          | .node nl nk nv _ nr => do
            let sib2 ← rbRotR (.node sl sk sv true (.node nl nk nv false nr))
            some (RT.node sib2 k v red r)
          | .leaf => none
        else some (RT.node l k v red r)
      match t1 with
      | .leaf => none
      | .node l2 k2 v2 red2 r2 =>
        if isLeft then
          match r2 with
          | .node el ek ev _ er =>
            match er with
            | .node fl fk fv _ fr => do
              let t3 ← rbRotR (.node l2 k2 v2 false
                (.node el ek ev red2 (.node fl fk fv false fr)))
              some (t3, false)
            | .leaf => none
          | .leaf => none
        else
          match l2 with
          | .node el ek ev _ er =>
            match el with
            | .node fl fk fv _ fr => do
              let t3 ← rbRotL (.node
                (.node (.node fl fk fv false fr) ek ev red2 er)
                k2 v2 false r2)
              some (t3, false)
            | .leaf => none
          | .leaf => none

/-- `RBNode._repair_delete`, one invocation at the parent of the node
that came up one black short on the `isLeft` side.  A red sibling
(case A) is recolored and rotated up and the repair continues at the
old parent, now one level down; the unreachable upward continuation
after that re-enters at the sibling's old far child. -/
def rbFix {α : Type} : RT α → Int → α → Bool → RT α → Bool →
    Option (RT α × Bool)
  | l, k, v, red, r, true =>
    match r with
    | .node sl sk sv true sr => do
      let res ← rbFixBCDE l k v true sl true
      if res.2 then rbFix res.1 sk sv false sr true
      else some (.node res.1 sk sv false sr, false)
    | _ => rbFixBCDE l k v red r true
  | l, k, v, red, r, false =>
    match l with
    | .node sl sk sv true sr => do
      let res ← rbFixBCDE sr k v true r false
      if res.2 then rbFix sl sk sv false res.1 false
      else some (.node sl sk sv false res.1, false)
    | _ => rbFixBCDE l k v red r false
termination_by l _ _ _ r isLeft => sizeR (if isLeft then r else l)
decreasing_by
  all_goals simp [sizeR]
  all_goals omega

/-- The first (leftmost) entry of a red-black subtree. -/
def firstER {α : Type} : RT α → Option (Int × α)
  | .leaf => none
  | .node .leaf k v _ _ => some (k, v)
  | .node (.node ll lk lv lb lr) _ _ _ _ => firstER (.node ll lk lv lb lr)

/-- Delete the leftmost node of a red-black subtree. -/
def rbDelLeftmost {α : Type} : RT α → Option (RT α × Bool)
  | .leaf => none
  | .node .leaf k v red r => some (rbDelSingle .leaf k v red r)
  | .node (.node ll lk lv lb lr) k v red r => do
    let res ← rbDelLeftmost (.node ll lk lv lb lr)
    if res.2 then rbFix res.1 k v red r true
    else some (.node res.1 k v red r, false)

/-- `TreeNode._delete_node` on a red-black tree: the two-children case
copies the successor's data and deletes the successor (which is why
the RB variant never chains), otherwise `RBNode._delete_single_child`
runs; a shortfall triggers `_repair_delete` at this node. -/
def rbDelNode {α : Type} : RT α → Option (RT α × Bool)
  | .leaf => none
  | .node (.node ll lk lv lb lr) k v red (.node rl rk rv rb rr) =>
    match firstER (.node rl rk rv rb rr) with
    | none => none
    | some (sk, sv) => do
      let res ← rbDelLeftmost (.node rl rk rv rb rr)
      if res.2 then rbFix (.node ll lk lv lb lr) sk sv red res.1 false
      else some (.node (.node ll lk lv lb lr) sk sv red res.1, false)
  | .node l k v red r => some (rbDelSingle l k v red r)

/-- `Tree.__delitem__` on a red-black tree; the inner `none` is the
`KeyError`. -/
def rbDelete {α : Type} : RT α → Int → Option (Option (RT α × Bool))
  | .leaf, _ => some none
  | .node l k v red r, key =>
    if key = k then
      match rbDelNode (.node l k v red r) with
      | none => none
      | some res => some (some res)
    else if key < k then
      match rbDelete l key with
      | none => none
      | some none => some none
      | some (some res) =>
        if res.2 then
          match rbFix res.1 k v red r true with
          | none => none
          | some res2 => some (some res2)
        else some (some (.node res.1 k v red r, false))
    else
      match rbDelete r key with
      | none => none
      | some none => some none
      | some (some res) =>
        if res.2 then
          match rbFix l k v red res.1 false with
          | none => none
          | some res2 => some (some res2)
        else some (some (.node l k v red res.1, false))

/-! ## Operation sequences and the reference map (C4) -/

/-- One operation of the conformance claim. -/
inductive TOp (α : Type) where
  | ins (k : Int) (v : α)
  | del (k : Int)
deriving Repr, DecidableEq

/-- Apply one operation to an AVL tree with its stored `_len`
(`Tree.insert` / `Tree.__delitem__`, the `KeyError` of a delete on an
absent key caught by the driver). -/
def avlApply {α : Type} (s : AT α × Nat) : TOp α → Option (AT α × Nat)
  | .ins k v =>
    match avlInsert s.1 k v with
    | none => none
    | some (old, t2, _) =>
      some (t2, if old.isNone then s.2 + 1 else s.2)
  | .del k =>
    match avlDelete s.1 k with
    | none => none
    | some none => some s
    | some (some res) => some (res.1, s.2 - 1)

def avlRunFrom {α : Type} (s : AT α × Nat) :
    List (TOp α) → Option (AT α × Nat)
  | [] => some s
  | op :: rest =>
    match avlApply s op with
    | none => none
    | some s2 => avlRunFrom s2 rest

/-- Run a sequence of operations on an initially empty AVL tree. -/
def avlRun {α : Type} (ops : List (TOp α)) : Option (AT α × Nat) :=
  avlRunFrom (.leaf, 0) ops

/-- Apply one operation to a red-black tree with its stored `_len`. -/
def rbApply {α : Type} (s : RT α × Nat) : TOp α → Option (RT α × Nat)
  | .ins k v =>
    match rbInsRoot s.1 k v with
    | none => none
    | some (old, t2) =>
      some (t2, if old.isNone then s.2 + 1 else s.2)
  | .del k =>
    match rbDelete s.1 k with
    | none => none
    | some none => some s
    | some (some res) => some (res.1, s.2 - 1)

def rbRunFrom {α : Type} (s : RT α × Nat) :
    List (TOp α) → Option (RT α × Nat)
  | [] => some s
  | op :: rest =>
    match rbApply s op with
    | none => none
    | some s2 => rbRunFrom s2 rest

/-- Run a sequence of operations on an initially empty red-black
tree. -/
def rbRun {α : Type} (ops : List (TOp α)) : Option (RT α × Nat) :=
  rbRunFrom (.leaf, 0) ops

/-- The reference sorted map of the claim, subjected to the same
sequence: insert overwrites, delete of an absent key is the caught
`KeyError` and leaves the map unchanged. -/
def modelApply {α : Type} (m : List (Int × α)) : TOp α → List (Int × α)
  | .ins k v => insertSorted m k v
  | .del k => eraseKey m k

def modelRunFrom {α : Type} (m : List (Int × α)) :
    List (TOp α) → List (Int × α)
  | [] => m
  | op :: rest => modelRunFrom (modelApply m op) rest

def modelRun {α : Type} (ops : List (TOp α)) : List (Int × α) :=
  modelRunFrom [] ops

/-- Height of an AVL subtree. -/
def hA {α : Type} : AT α → Nat
  | .leaf => 0
  | .node l _ _ _ r => max (hA l) (hA r) + 1

/-- The AVL representation invariant: each stored balance factor is
the height difference of the children, bounded by one. -/
def AvlOk {α : Type} : AT α → Prop
  | .leaf => True
  | .node l _ _ bal r => AvlOk l ∧ AvlOk r ∧
      bal = (hA r : Int) - (hA l : Int) ∧
      hA l ≤ hA r + 1 ∧ hA r ≤ hA l + 1

instance instAvlOkDec {α : Type} : (t : AT α) → Decidable (AvlOk t)
  | .leaf => isTrue trivial
  | .node l _ _ bal r =>
    have := instAvlOkDec l
    have := instAvlOkDec r
    inferInstanceAs (Decidable (_ ∧ _))

/-- The root of a red-black subtree is black (leaves are black). -/
def rootBlackR {α : Type} : RT α → Prop
  | .leaf => True
  | .node _ _ _ red _ => red = false

instance instRootBlackRDec {α : Type} : (t : RT α) → Decidable (rootBlackR t)
  | .leaf => isTrue trivial
  | .node _ _ _ red _ => inferInstanceAs (Decidable (red = false))

/-- Black height (counting the empty leaves as one black node). -/
def bhOf {α : Type} : RT α → Nat
  | .leaf => 1
  | .node l _ _ red r => bhOf l + (if red then 0 else 1)

/-- The red-black shape invariant: equal black heights on both sides
everywhere, and no red node with a red child. -/
def RBsh {α : Type} : RT α → Prop
  | .leaf => True
  | .node l _ _ red r => RBsh l ∧ RBsh r ∧ bhOf l = bhOf r ∧
      (red = true → rootBlackR l ∧ rootBlackR r)

instance instRBshDec {α : Type} : (t : RT α) → Decidable (RBsh t)
  | .leaf => isTrue trivial
  | .node l _ _ red r =>
    have := instRBshDec l
    have := instRBshDec r
    inferInstanceAs (Decidable (_ ∧ _))

/-! # Theorems

## Ordered-map lemmas -/

section MapLemmas

variable {α : Type}

theorem sortedKeys_cons {p : Int × α} {m : List (Int × α)}
    (h : SortedKeys (p :: m)) : SortedKeys m :=
  (List.pairwise_cons.mp h).2

theorem sortedKeys_head_lt {p : Int × α} {m : List (Int × α)}
    (h : SortedKeys (p :: m)) {q : Int × α} (hq : q ∈ m) : p.1 < q.1 :=
  (List.pairwise_cons.mp h).1 q.1 (List.mem_map_of_mem Prod.fst hq)

theorem lookupKey_eq_none_of_forall_lt {m : List (Int × α)} {k : Int}
    (h : ∀ p ∈ m, k < p.1) : lookupKey m k = none := by
  induction m with
  | nil => rfl
  | cons p rest ih =>
    have h1 : k ≠ p.1 := by
      have := h p (List.mem_cons_self _ _); omega
    simp only [lookupKey, if_neg h1]
    exact ih (fun q hq => h q (List.mem_cons_of_mem _ hq))

theorem lookupKey_eq_some_of_mem {m : List (Int × α)} (hs : SortedKeys m)
    {k : Int} {v : α} (h : (k, v) ∈ m) : lookupKey m k = some v := by
  induction m with
  | nil => cases h
  | cons p rest ih =>
    rcases List.mem_cons.mp h with h | h
    · subst h; simp [lookupKey]
    · have hlt : p.1 < k := sortedKeys_head_lt hs h
      have h2 : k ≠ p.1 := by omega
      simpa [lookupKey, h2] using ih (sortedKeys_cons hs) h

theorem mem_of_lookupKey_eq_some {m : List (Int × α)} {k : Int} {v : α}
    (h : lookupKey m k = some v) : (k, v) ∈ m := by
  induction m with
  | nil => simp [lookupKey] at h
  | cons p rest ih =>
    by_cases hk : k = p.1
    · subst hk
      simp [lookupKey] at h
      subst h
      exact List.mem_cons_self p rest
    · simp only [lookupKey, if_neg hk] at h
      exact List.mem_cons_of_mem _ (ih h)

theorem lookupKey_mem_iff {m : List (Int × α)} (hs : SortedKeys m)
    {k : Int} {v : α} : lookupKey m k = some v ↔ (k, v) ∈ m :=
  ⟨mem_of_lookupKey_eq_some, lookupKey_eq_some_of_mem hs⟩

theorem mem_keys_iff_lookup {m : List (Int × α)} {k : Int} :
    k ∈ m.map Prod.fst ↔ lookupKey m k ≠ none := by
  induction m with
  | nil => simp [lookupKey]
  | cons p rest ih =>
    by_cases hk : k = p.1
    · subst hk; simp [lookupKey]
    · simp [lookupKey, hk, ih]

/-- `lookupKey` after `insertSorted`. -/
theorem lookupKey_insertSorted (m : List (Int × α)) (k : Int) (v : α)
    (k' : Int) :
    lookupKey (insertSorted m k v) k' =
      if k' = k then some v else lookupKey m k' := by
  induction m with
  | nil => simp [insertSorted, lookupKey]
  | cons p rest ih =>
    rcases lt_trichotomy k p.1 with h1 | h1 | h1
    · simp only [insertSorted, if_pos h1]
      by_cases h2 : k' = k <;> simp [lookupKey, h2]
    · simp only [insertSorted, if_neg (by omega : ¬k < p.1), if_pos h1]
      by_cases h2 : k' = k
      · subst h2; simp [lookupKey, h1]
      · have h3 : k' ≠ p.1 := by rw [← h1]; exact h2
        simp [lookupKey, h2, h3]
    · simp only [insertSorted, if_neg (by omega : ¬k < p.1),
        if_neg (by omega : ¬k = p.1)]
      by_cases h2 : k' = p.1
      · simp [lookupKey, h2, (show ¬p.1 = k by omega)]
      · simp [lookupKey, h2, ih]

/-- Keys after insertion. -/
theorem mem_keys_insertSorted (m : List (Int × α)) (k : Int) (v : α)
    (k' : Int) :
    k' ∈ (insertSorted m k v).map Prod.fst ↔
      k' = k ∨ k' ∈ m.map Prod.fst := by
  induction m with
  | nil => simp [insertSorted]
  | cons p rest ih =>
    rcases lt_trichotomy k p.1 with h1 | h1 | h1
    · simp [insertSorted, if_pos h1]
    · simp only [insertSorted, if_neg (by omega : ¬k < p.1), if_pos h1]
      subst h1
      simp only [List.map_cons, List.mem_cons]
      tauto
    · simp only [insertSorted, if_neg (by omega : ¬k < p.1),
        if_neg (by omega : ¬k = p.1), List.map_cons, List.mem_cons, ih]
      tauto

theorem sortedKeys_insertSorted {m : List (Int × α)} (hs : SortedKeys m)
    (k : Int) (v : α) : SortedKeys (insertSorted m k v) := by
  induction m with
  | nil => simp [insertSorted, SortedKeys]
  | cons p rest ih =>
    rcases lt_trichotomy k p.1 with h1 | h1 | h1
    · simp only [insertSorted, if_pos h1]
      refine List.pairwise_cons.mpr ⟨?_, hs⟩
      intro x hx
      simp only [List.map_cons, List.mem_cons] at hx
      rcases hx with hx | hx
      · omega
      · have := (List.pairwise_cons.mp hs).1 x hx
        omega
    · simp only [insertSorted, if_neg (by omega : ¬k < p.1), if_pos h1]
      subst h1
      refine List.pairwise_cons.mpr ⟨?_, sortedKeys_cons hs⟩
      exact (List.pairwise_cons.mp hs).1
    · simp only [insertSorted, if_neg (by omega : ¬k < p.1),
        if_neg (by omega : ¬k = p.1)]
      refine List.pairwise_cons.mpr ⟨?_, ih (sortedKeys_cons hs)⟩
      intro x hx
      rcases (mem_keys_insertSorted rest k v x).mp hx with hx | hx
      · omega
      · exact (List.pairwise_cons.mp hs).1 x hx

/-- `eraseKey` produces a sublist, hence preserves sortedness. -/
theorem eraseKey_sublist (m : List (Int × α)) (k : Int) :
    List.Sublist (eraseKey m k) m := by
  induction m with
  | nil => simp [eraseKey]
  | cons p rest ih =>
    by_cases h : k = p.1
    · simpa [eraseKey, h] using List.sublist_cons_self p rest
    · simpa [eraseKey, h] using List.Sublist.cons₂ p ih

theorem sortedKeys_eraseKey {m : List (Int × α)} (hs : SortedKeys m)
    (k : Int) : SortedKeys (eraseKey m k) :=
  List.Pairwise.sublist (List.Sublist.map Prod.fst (eraseKey_sublist m k)) hs

theorem lookupKey_eraseKey {m : List (Int × α)} (hs : SortedKeys m)
    (k k' : Int) :
    lookupKey (eraseKey m k) k' =
      if k' = k then none else lookupKey m k' := by
  induction m with
  | nil => simp [eraseKey, lookupKey]
  | cons p rest ih =>
    by_cases h1 : k = p.1
    · subst h1
      simp only [eraseKey, if_pos rfl]
      by_cases h2 : k' = p.1
      · subst h2
        simp only [if_pos rfl]
        exact lookupKey_eq_none_of_forall_lt
          (fun q hq => sortedKeys_head_lt hs hq)
      · simp [lookupKey, h2]
    · simp only [eraseKey, if_neg h1]
      by_cases h2 : k' = p.1
      · subst h2
        have h3 : ¬p.1 = k := fun hh => h1 hh.symm
        simp [lookupKey, h3]
      · simp [lookupKey, h2, ih (sortedKeys_cons hs)]

theorem mem_keys_eraseKey {m : List (Int × α)} (hs : SortedKeys m)
    (k k' : Int) :
    k' ∈ (eraseKey m k).map Prod.fst ↔ k' ≠ k ∧ k' ∈ m.map Prod.fst := by
  rw [mem_keys_iff_lookup, mem_keys_iff_lookup, lookupKey_eraseKey hs]
  by_cases h : k' = k <;> simp [h]

/-- Keys (and their order) are unchanged by `mapRange`. -/
theorem keys_mapRange (m : List (Int × α)) (lo hi : Int) (f : α → α) :
    (mapRange m lo hi f).map Prod.fst = m.map Prod.fst := by
  induction m with
  | nil => rfl
  | cons p rest ih =>
    simp only [mapRange, List.map_cons] at *
    by_cases h : lo ≤ p.1 ∧ p.1 < hi
    · simp only [if_pos h, List.map_cons]
      rw [ih]
    · simp only [if_neg h, List.map_cons]
      rw [ih]

theorem sortedKeys_mapRange {m : List (Int × α)} (hs : SortedKeys m)
    (lo hi : Int) (f : α → α) : SortedKeys (mapRange m lo hi f) := by
  unfold SortedKeys
  rw [keys_mapRange]
  exact hs

theorem lookupKey_mapRange (m : List (Int × α)) (lo hi : Int) (f : α → α)
    (k : Int) :
    lookupKey (mapRange m lo hi f) k =
      (lookupKey m k).map (fun d => if lo ≤ k ∧ k < hi then f d else d) := by
  induction m with
  | nil => rfl
  | cons p rest ih =>
    simp only [mapRange, List.map_cons]
    by_cases h2 : lo ≤ p.1 ∧ p.1 < hi
    · rw [if_pos h2]
      by_cases h1 : k = p.1
      · subst h1
        simp [lookupKey, h2]
      · simp only [lookupKey, if_neg h1]
        simpa [mapRange] using ih
    · rw [if_neg h2]
      by_cases h1 : k = p.1
      · subst h1
        simp [lookupKey, h2]
      · simp only [lookupKey, if_neg h1]
        simpa [mapRange] using ih

/-- Specification of `predStrict`: `none` iff no key lies below the
bound. -/
theorem predStrict_eq_none_iff {m : List (Int × α)} (hs : SortedKeys m)
    {b : Int} : predStrict m b = none ↔ ∀ p ∈ m, b ≤ p.1 := by
  induction m with
  | nil => simp [predStrict]
  | cons p rest ih =>
    by_cases h1 : p.1 < b
    · simp only [predStrict, if_pos h1]
      constructor
      · intro h
        cases hh : predStrict rest b <;> simp [hh] at h
      · intro h
        exact absurd (h p (List.mem_cons_self _ _)) (by omega)
    · simp only [predStrict, if_neg h1]
      constructor
      · intro _ q hq
        rcases List.mem_cons.mp hq with hq | hq
        · subst hq; omega
        · have := sortedKeys_head_lt hs hq
          omega
      · intro _; trivial

/-- Specification of `predStrict`: the returned entry is a member, lies
below the bound, and dominates every other key below the bound. -/
theorem predStrict_eq_some_spec {m : List (Int × α)} (hs : SortedKeys m)
    {b : Int} {e : Int × α} (h : predStrict m b = some e) :
    e ∈ m ∧ e.1 < b ∧ ∀ p ∈ m, p.1 < b → p.1 ≤ e.1 := by
  induction m with
  | nil => simp [predStrict] at h
  | cons p rest ih =>
    by_cases h1 : p.1 < b
    · simp only [predStrict, if_pos h1] at h
      cases hh : predStrict rest b with
      | none =>
        rw [hh] at h
        simp only [Option.some.injEq] at h
        subst h
        refine ⟨List.mem_cons_self _ _, h1, ?_⟩
        intro q hq _
        rcases List.mem_cons.mp hq with hq | hq
        · subst hq; omega
        · have h2 := (predStrict_eq_none_iff (sortedKeys_cons hs)).mp hh q hq
          have h3 := sortedKeys_head_lt hs hq
          omega
      | some e' =>
        rw [hh] at h
        simp only [Option.some.injEq] at h
        subst h
        obtain ⟨hm, hlt, hmax⟩ := ih (sortedKeys_cons hs) hh
        refine ⟨List.mem_cons_of_mem _ hm, hlt, ?_⟩
        intro q hq hqb
        rcases List.mem_cons.mp hq with hq | hq
        · subst hq
          have := sortedKeys_head_lt hs hm
          omega
        · exact hmax q hq hqb
    · simp [predStrict, if_neg h1] at h

/-- Specification of `succIncl`: `none` iff every key lies below the
bound. -/
theorem succIncl_eq_none_iff {m : List (Int × α)} {b : Int} :
    succIncl m b = none ↔ ∀ p ∈ m, p.1 < b := by
  induction m with
  | nil => simp [succIncl]
  | cons p rest ih =>
    by_cases h1 : b ≤ p.1
    · simp only [succIncl, if_pos h1]
      constructor
      · intro h; cases h
      · intro h
        exact absurd (h p (List.mem_cons_self _ _)) (by omega)
    · simp only [succIncl, if_neg h1, ih]
      constructor
      · intro h q hq
        rcases List.mem_cons.mp hq with hq | hq
        · subst hq; omega
        · exact h q hq
      · intro h q hq
        exact h q (List.mem_cons_of_mem _ hq)

/-- Specification of `succIncl`: the returned entry is a member at or
above the bound, and is below every other key at or above the bound. -/
theorem succIncl_eq_some_spec {m : List (Int × α)} (hs : SortedKeys m)
    {b : Int} {e : Int × α} (h : succIncl m b = some e) :
    e ∈ m ∧ b ≤ e.1 ∧ ∀ p ∈ m, b ≤ p.1 → e.1 ≤ p.1 := by
  induction m with
  | nil => simp [succIncl] at h
  | cons p rest ih =>
    by_cases h1 : b ≤ p.1
    · simp only [succIncl, if_pos h1, Option.some.injEq] at h
      subst h
      refine ⟨List.mem_cons_self _ _, h1, ?_⟩
      intro q hq _
      rcases List.mem_cons.mp hq with hq | hq
      · subst hq; omega
      · have := sortedKeys_head_lt hs hq
        omega
    · simp only [succIncl, if_neg h1] at h
      obtain ⟨hm, hge, hmin⟩ := ih (sortedKeys_cons hs) h
      refine ⟨List.mem_cons_of_mem _ hm, hge, ?_⟩
      intro q hq hqb
      rcases List.mem_cons.mp hq with hq | hq
      · subst hq; omega
      · exact hmin q hq hqb

/-- Converse direction: a member that is the greatest key below the
bound is what `predStrict` returns. -/
theorem predStrict_eq_some_of {m : List (Int × α)} (hs : SortedKeys m)
    {b : Int} {e : Int × α} (he : e ∈ m) (hlt : e.1 < b)
    (hmax : ∀ p ∈ m, p.1 < b → p.1 ≤ e.1) : predStrict m b = some e := by
  cases hh : predStrict m b with
  | none =>
    have := (predStrict_eq_none_iff hs).mp hh e he
    omega
  | some e' =>
    obtain ⟨hm', hlt', hmax'⟩ := predStrict_eq_some_spec hs hh
    have h1 : e'.1 ≤ e.1 := hmax e' hm' hlt'
    have h2 : e.1 ≤ e'.1 := hmax' e he hlt
    have hk : e.1 = e'.1 := le_antisymm h2 h1
    have hveq : e = e' := by
      have hl1 : lookupKey m e.1 = some e.2 :=
        lookupKey_eq_some_of_mem hs (by simpa using he)
      have hl2 : lookupKey m e'.1 = some e'.2 :=
        lookupKey_eq_some_of_mem hs (by simpa using hm')
      rw [← hk] at hl2
      rw [hl1] at hl2
      simp only [Option.some.injEq] at hl2
      exact Prod.ext hk hl2
    rw [hveq]

theorem succIncl_eq_some_of {m : List (Int × α)} (hs : SortedKeys m)
    {b : Int} {e : Int × α} (he : e ∈ m) (hge : b ≤ e.1)
    (hmin : ∀ p ∈ m, b ≤ p.1 → e.1 ≤ p.1) : succIncl m b = some e := by
  cases hh : succIncl m b with
  | none =>
    have := succIncl_eq_none_iff.mp hh e he
    omega
  | some e' =>
    obtain ⟨hm', hge', hmin'⟩ := succIncl_eq_some_spec hs hh
    have h1 : e.1 ≤ e'.1 := hmin e' hm' hge'
    have h2 : e'.1 ≤ e.1 := hmin' e he hge
    have hk : e.1 = e'.1 := le_antisymm h1 h2
    have hveq : e = e' := by
      have hl1 : lookupKey m e.1 = some e.2 :=
        lookupKey_eq_some_of_mem hs (by simpa using he)
      have hl2 : lookupKey m e'.1 = some e'.2 :=
        lookupKey_eq_some_of_mem hs (by simpa using hm')
      rw [← hk] at hl2
      rw [hl1] at hl2
      simp only [Option.some.injEq] at hl2
      exact Prod.ext hk hl2
    rw [hveq]

/-- Membership in `itemsBetween`. -/
theorem mem_itemsBetween {m : List (Int × α)} {lob hib : Option Int}
    {p : Int × α} :
    p ∈ itemsBetween m lob hib ↔
      p ∈ m ∧ (∀ lo, lob = some lo → lo ≤ p.1) ∧
        (∀ hi, hib = some hi → p.1 < hi) := by
  simp only [itemsBetween, List.mem_filter, Bool.and_eq_true]
  constructor
  · rintro ⟨hm, h1, h2⟩
    refine ⟨hm, ?_, ?_⟩
    · intro lo hlo
      subst hlo
      simpa using h1
    · intro hi hhi
      subst hhi
      simpa using h2
  · rintro ⟨hm, h1, h2⟩
    refine ⟨hm, ?_, ?_⟩
    · cases lob with
      | none => rfl
      | some lo => simpa using h1 lo rfl
    · cases hib with
      | none => rfl
      | some hi => simpa using h2 hi rfl

end MapLemmas

/-! ## C8: enqueue_job -/

/-- The record of a freshly enqueued job. -/
def freshJob (tl : Int) (dem : List Int) (rt : Int) : JobRec :=
  { timelimit := tl, resources := dem, actualRuntime := rt,
    state := JState.pending }

/-- C8.  `enqueue_job` on a NEW job (time limit positive, demand of the
system's dimension) raises `ValueError` exactly when the demand is not
componentwise ≤ `total_resources`, leaving the state untouched;
otherwise it assigns the next job id (the count of jobs enqueued so
far, hence ids are 0, 1, 2, …), makes the job PENDING, appends it to
the tail of the pending queue, sets the dirty bit, and changes nothing
else. -/
theorem enqueueJob_spec (s : SysState) (tl : Int) (dem : List Int) (rt : Int)
    (htl : 0 < tl) (hlen : dem.length = s.total.length) :
    (¬allGeq s.total dem → enqueueJob s tl dem rt = EnqResult.valueError) ∧
    (allGeq s.total dem →
      enqueueJob s tl dem rt = EnqResult.ok
        { s with jobs := s.jobs ++ [freshJob tl dem rt],
                 pending := s.pending ++ [s.jobs.length],
                 dirty := true }) := by
  constructor
  · intro hng
    simp [enqueueJob, htl, hlen, hng]
  · intro hg
    simp [enqueueJob, htl, hlen, hg, freshJob]

/-- Witness for C8 at a concrete input. -/
theorem enqueueJob_spec_witness :
    (¬allGeq [2] [3] → enqueueJob (mkSystem [2]) 1 [3] 1 = EnqResult.valueError) ∧
    (allGeq [2] [3] →
      enqueueJob (mkSystem [2]) 1 [3] 1 = EnqResult.ok
        { mkSystem [2] with jobs := (mkSystem [2]).jobs ++ [freshJob 1 [3] 1],
                            pending := (mkSystem [2]).pending ++ [(mkSystem [2]).jobs.length],
                            dirty := true }) :=
  enqueueJob_spec (mkSystem [2]) 1 [3] 1 (by decide) (by decide)

/-! ## C10: find_schedulable_time with reserve = False -/

theorem findSchedLoop_noReserve {m : List (Int × TimelineData)}
    {dem : List Int} {L startT : Int} {ct : Int}
    (cands : List (Int × TimelineData))
    (h : findSchedLoop m dem L startT false cands = some (some ct)) :
    ct = startT := by
  induction cands with
  | nil => simp [findSchedLoop] at h
  | cons p rest ih =>
    by_cases h1 : startT < p.1
    · simp [findSchedLoop, h1] at h
    · simp only [findSchedLoop, not_false_eq_true, true_and, if_pos,
        if_neg (by omega : ¬startT < p.1)] at h
      rw [if_neg (by omega : ¬(¬false = true ∧ startT < p.1))] at h
      by_cases h2 : (m.filter
          (fun q => decide (p.1 ≤ q.1) && decide (q.1 < max startT p.1 + L))).all
          (fun q => decide (allGeq q.2.resources dem)) = true
      · rw [if_pos h2] at h
        simp only [Option.some.injEq] at h
        omega
      · rw [if_neg h2] at h
        exact ih h

theorem findSchedulableTime_noReserve {m : List (Int × TimelineData)}
    {dem : List Int} {L startT ct : Int}
    (h : findSchedulableTime m dem L startT false = some (some ct)) :
    ct = startT := by
  unfold findSchedulableTime at h
  by_cases hm : m.isEmpty
  · rw [if_pos hm] at h
    simp only [Option.some.injEq] at h
    omega
  · rw [if_neg hm] at h
    exact findSchedLoop_noReserve _ h

/-- Characterization of a successful `_start_job`. -/
theorem startJob_elim {s : SysState} {j : Nat} {s' : SysState}
    (h : startJob s j = some s') :
    ∃ jr, s.jobs[j]? = some jr ∧
      ((jr.state = JState.reserved ∧ jr.startTime = some s.curTime ∧
          j ∈ s.reserved ∧ s' = startJobR s j jr) ∨
       (jr.state = JState.pending ∧ s' = startJobP s j jr)) := by
  unfold startJob at h
  cases hj : s.jobs[j]? with
  | none => rw [hj] at h; cases h
  | some jr =>
    rw [hj] at h
    simp only [Option.bind_eq_bind, Option.some_bind] at h
    split at h
    case isFalse h1 => cases h
    case isTrue h1 =>
      split at h
      case isTrue h2 => cases h
      case isFalse h2 =>
        injection h with h
        refine ⟨jr, rfl, ?_⟩
        rcases h1 with hres | hpend
        · rw [not_and, not_not] at h2
          have h3 := h2 hres
          refine Or.inl ⟨hres, h3.1, h3.2, ?_⟩
          rw [← h]
          simp [startJobR, hres, jobStarted]
        · have hnres : ¬jr.state = JState.reserved := by
            rw [hpend]; intro hc; cases hc
          refine Or.inr ⟨hpend, ?_⟩
          rw [← h]
          simp [startJobP, hnres, jobStarted]

theorem startJob_reserved_subset {s s' : SysState} {j : Nat}
    (h : startJob s j = some s') : ∀ i ∈ s'.reserved, i ∈ s.reserved := by
  rcases startJob_elim h with ⟨jr, hj, hcase⟩
  rcases hcase with ⟨_, _, _, rfl⟩ | ⟨_, rfl⟩
  · intro i hi
    exact List.mem_of_mem_erase hi
  · intro i hi
    exact hi

/-- Characterization of a successful `_end_job`. -/
theorem endJob_elim {s : SysState} {j : Nat} {s' : SysState}
    (h : endJob s j = some s') :
    ∃ jr st et dl tl', s.jobs[j]? = some jr ∧ jr.startTime = some st ∧
      jr.endTime = some et ∧ jr.deadline = some dl ∧ st ≤ s.curTime ∧
      jr.state = JState.started ∧
      endJobReservation s.total s.timeline j et dl s.curTime jr.resources =
        some tl' ∧
      s' = endJobRes s j jr tl' := by
  unfold endJob at h
  cases hj : s.jobs[j]? with
  | none => rw [hj] at h; cases h
  | some jr =>
    rw [hj] at h
    simp only [Option.bind_eq_bind, Option.some_bind] at h
    cases hst : jr.startTime with
    | none => rw [hst] at h; cases h
    | some st =>
      cases het : jr.endTime with
      | none => rw [hst, het] at h; cases h
      | some et =>
        cases hdl : jr.deadline with
        | none => rw [hst, het, hdl] at h; cases h
        | some dl =>
          rw [hst, het, hdl] at h
          dsimp only at h
          split at h
          case isFalse h1 => cases h
          case isTrue h1 =>
            cases htl : endJobReservation s.total s.timeline j et dl
                s.curTime jr.resources with
            | none => rw [htl] at h; cases h
            | some tl' =>
              rw [htl] at h
              simp only [Option.some_bind, Option.some.injEq] at h
              refine ⟨jr, st, et, dl, tl', rfl, hst, het, hdl, h1.1, h1.2,
                htl, ?_⟩
              rw [← h]
              simp [endJobRes, jobEnded, setJob, hst, het, hdl]

/-- Characterization of a successful `_reserve_job`. -/
theorem reserveJob_elim {s : SysState} {j : Nat} {t : Int} {s' : SysState}
    (h : reserveJob s j t = some s') :
    ∃ jr, s.jobs[j]? = some jr ∧ s.curTime < t ∧
      jr.state = JState.pending ∧ s' = reserveJobRes s j jr t := by
  unfold reserveJob at h
  cases hj : s.jobs[j]? with
  | none => rw [hj] at h; cases h
  | some jr =>
    rw [hj] at h
    simp only [Option.bind_eq_bind, Option.some_bind] at h
    split at h
    case isFalse h1 => cases h
    case isTrue h1 =>
      injection h with h
      exact ⟨jr, rfl, h1.1, h1.2, by rw [← h]; rfl⟩

/-- Characterization of a successful single unreserve step. -/
theorem unreserveOne_elim {s : SysState} {j : Nat} {s' : SysState}
    (h : unreserveOne s j = some s') :
    ∃ jr st dl tl', s.jobs[j]? = some jr ∧ jr.startTime = some st ∧
      jr.deadline = some dl ∧ jr.state = JState.reserved ∧
      removeJobReservation s.timeline j st dl jr.resources = some tl' ∧
      s' = unreserveOneRes s j jr tl' := by
  unfold unreserveOne at h
  cases hj : s.jobs[j]? with
  | none => rw [hj] at h; cases h
  | some jr =>
    rw [hj] at h
    simp only [Option.bind_eq_bind, Option.some_bind] at h
    cases hst : jr.startTime with
    | none => rw [hst] at h; cases h
    | some st =>
      cases hdl : jr.deadline with
      | none => rw [hst, hdl] at h; cases h
      | some dl =>
        rw [hst, hdl] at h
        dsimp only at h
        split at h
        case isFalse h1 => cases h
        case isTrue h1 =>
          cases htl : removeJobReservation s.timeline j st dl jr.resources with
          | none => rw [htl] at h; cases h
          | some tl' =>
            rw [htl] at h
            simp only [Option.some_bind, Option.some.injEq] at h
            refine ⟨jr, st, dl, tl', rfl, hst, hdl, h1, htl, ?_⟩
            rw [← h]
            simp [unreserveOneRes, jobUnreserved, setJob, hst, hdl]

/-- Characterization of a successful `start_or_reserve_job`. -/
theorem startOrReserveJob_elim {s : SysState} {j : Nat} {reserve : Bool}
    {st : JState} {s' : SysState}
    (h : startOrReserveJob s j reserve = some (st, s')) :
    ∃ jr, s.jobs[j]? = some jr ∧
      ((st = JState.pending ∧ s' = s ∧
          findSchedulableTime s.timeline jr.resources jr.timelimit s.curTime
            reserve = some none) ∨
       (∃ t, findSchedulableTime s.timeline jr.resources jr.timelimit
            s.curTime reserve = some (some t) ∧ s.curTime < t ∧
          st = JState.reserved ∧ reserveJob s j t = some s') ∨
       (findSchedulableTime s.timeline jr.resources jr.timelimit s.curTime
          reserve = some (some s.curTime) ∧ st = JState.started ∧
          startJob s j = some s')) := by
  unfold startOrReserveJob at h
  cases hj : s.jobs[j]? with
  | none => rw [hj] at h; cases h
  | some jr =>
    rw [hj] at h
    simp only [Option.bind_eq_bind, Option.some_bind] at h
    refine ⟨jr, rfl, ?_⟩
    cases hf : findSchedulableTime s.timeline jr.resources jr.timelimit
        s.curTime reserve with
    | none => rw [hf] at h; cases h
    | some o =>
      rw [hf] at h
      cases o with
      | none =>
        dsimp only at h
        injection h with h
        rw [Prod.ext_iff] at h
        exact Or.inl ⟨h.1.symm, h.2.symm, rfl⟩
      | some t =>
        dsimp only at h
        by_cases h1 : s.curTime < t
        · rw [if_pos h1] at h
          cases hr : reserveJob s j t with
          | none => rw [hr] at h; cases h
          | some s1 =>
            rw [hr] at h
            simp only [Option.some_bind, Option.some.injEq, Prod.mk.injEq] at h
            exact Or.inr (Or.inl ⟨t, rfl, h1, h.1.symm, by rw [h.2] at hr; exact hr⟩)
        · rw [if_neg h1] at h
          by_cases h2 : t = s.curTime
          · rw [if_pos h2] at h
            cases hr : startJob s j with
            | none => rw [hr] at h; cases h
            | some s1 =>
              rw [hr] at h
              simp only [Option.some_bind, Option.some.injEq, Prod.mk.injEq] at h
              subst h2
              obtain ⟨hst2, hs2⟩ := h
              exact Or.inr (Or.inr ⟨rfl, hst2.symm, congrArg some hs2⟩)
          · rw [if_neg h2] at h; cases h

/-- C10.  `find_schedulable_time(j, t, reserve=False)` never returns a
time other than `t` itself, and consequently
`start_or_reserve_job(j, False)` only returns STARTED or PENDING: in
the PENDING case the state is unchanged, and in no case is a new
reservation created. -/
theorem noReserve_never_future :
    (∀ (m : List (Int × TimelineData)) (dem : List Int) (L startT ct : Int),
      findSchedulableTime m dem L startT false = some (some ct) →
        ct = startT) ∧
    (∀ (s : SysState) (j : Nat) (st : JState) (s' : SysState),
      startOrReserveJob s j false = some (st, s') →
        (st = JState.started ∨ st = JState.pending) ∧
        (st = JState.pending → s' = s) ∧
        (∀ i ∈ s'.reserved, i ∈ s.reserved)) := by
  constructor
  · intro m dem L startT ct h
    exact findSchedulableTime_noReserve h
  · intro s j st s' h
    rcases startOrReserveJob_elim h with ⟨jr, hj, hc⟩
    rcases hc with ⟨hst, hss, _⟩ | ⟨t, hf, hlt, _, _⟩ | ⟨hf, hst, hstart⟩
    · subst hst
      subst hss
      exact ⟨Or.inr rfl, fun _ => rfl, fun i hi => hi⟩
    · have := findSchedulableTime_noReserve hf
      omega
    · subst hst
      refine ⟨Or.inl rfl, ?_, startJob_reserved_subset hstart⟩
      intro hc
      exact absurd hc (by decide)

/-- Witness for C10 at a concrete input: a one-job system where the job
starts immediately. -/
theorem noReserve_never_future_witness :
    (c10res.1 = JState.started ∨ c10res.1 = JState.pending) ∧
    (c10res.1 = JState.pending → c10res.2 = c10state) ∧
    (∀ i ∈ c10res.2.reserved, i ∈ c10state.reserved) :=
  noReserve_never_future.2 c10state 0 c10res.1 c10res.2 (by decide)

/-! ## C5: can_schedule -/

theorem entry_unique {α : Type} {m : List (Int × α)} (hs : SortedKeys m)
    {p q : Int × α} (hp : p ∈ m) (hq : q ∈ m) (hk : p.1 = q.1) : p = q := by
  have h1 : lookupKey m p.1 = some p.2 :=
    lookupKey_eq_some_of_mem hs (by simpa using hp)
  have h2 : lookupKey m q.1 = some q.2 :=
    lookupKey_eq_some_of_mem hs (by simpa using hq)
  rw [← hk] at h2
  rw [h1] at h2
  simp only [Option.some.injEq] at h2
  exact Prod.ext hk h2

theorem all_map_eq_true {α β : Type} (l : List α) (f : α → β)
    (g : β → Bool) : ((l.map f).all g) = true ↔ ∀ x ∈ l, g (f x) = true := by
  induction l with
  | nil => simp
  | cons a rest ih => simp [ih]

/-- C5.  `can_schedule(j, t)` (for a job whose demand is ≤
total_resources, with a positive time limit) is true exactly when the
cached projection dominates the demand at every time key in
`[t, t + time_limit)` and the projection extended at `t` itself —
derived from the node at or immediately before `t`, or
`total_resources` when none exists — also dominates the demand. -/
theorem canSchedule_iff (total : List Int) (m : List (Int × TimelineData))
    (dem : List Int) (L t : Int) (hs : SortedKeys m)
    (htot : allGeq total dem) (hL : 0 < L) :
    canSchedule total m dem L t = true ↔
      ((∀ p ∈ m, t ≤ p.1 → p.1 < t + L → allGeq p.2.resources dem) ∧
        allGeq (projAt total m t) dem) := by
  unfold canSchedule iterResources projAt
  by_cases hm : m.isEmpty
  · have hm' : m = [] := by rwa [List.isEmpty_iff] at hm
    subst hm'
    simp [predStrict, htot]
  · rw [if_neg hm, if_neg hm]
    rw [all_map_eq_true]
    cases hpred : predStrict m (t + 1) with
    | none =>
      simp only [hpred, Option.map_none']
      have hall : ∀ p ∈ m, t + 1 ≤ p.1 := (predStrict_eq_none_iff hs).mp hpred
      constructor
      · intro hl
        refine ⟨fun p hp h1 h2 => ?_, htot⟩
        have hmem : p ∈ itemsBetween m none (some (t + L)) := by
          rw [mem_itemsBetween]
          refine ⟨hp, ?_, ?_⟩
          · intro lo hlo; cases hlo
          · intro hi hhi; injection hhi with hh; omega
        have := hl p hmem
        simpa using this
      · rintro ⟨h1, _⟩ x hx
        rcases mem_itemsBetween.mp hx with ⟨hxm, _, hhi⟩
        have hxlt : x.1 < t + L := hhi (t + L) rfl
        have hxge := hall x hxm
        simpa using h1 x hxm (by omega) hxlt
    | some e =>
      simp only [hpred, Option.map_some']
      obtain ⟨hem, helt, hemax⟩ := predStrict_eq_some_spec hs hpred
      constructor
      · intro hl
        constructor
        · intro p hp h1 h2
          have hmem : p ∈ itemsBetween m (some e.1) (some (t + L)) := by
            rw [mem_itemsBetween]
            refine ⟨hp, ?_, ?_⟩
            · intro lo hlo; injection hlo with hh; omega
            · intro hi hhi; injection hhi with hh; omega
          simpa using hl p hmem
        · have hmem : e ∈ itemsBetween m (some e.1) (some (t + L)) :=
            mem_itemsBetween.mpr ⟨hem,
              fun lo hlo => by injection hlo with hh; omega,
              fun hi hhi => by injection hhi with hh; omega⟩
          simpa using hl e hmem
      · rintro ⟨h1, h2⟩ x hx
        rcases mem_itemsBetween.mp hx with ⟨hxm, hlo, hhi⟩
        have hxlo : e.1 ≤ x.1 := hlo e.1 rfl
        have hxhi : x.1 < t + L := hhi (t + L) rfl
        by_cases hxt : t ≤ x.1
        · simpa using h1 x hxm hxt hxhi
        · have hle : x.1 ≤ e.1 := hemax x hxm (by omega)
          have hxe : x = e := entry_unique hs hxm hem (by omega)
          rw [hxe]
          simpa using h2

/-- Witness for C5 at a concrete timeline. -/
theorem canSchedule_iff_witness :
    canSchedule [3] c5map [1] 2 1 = true ↔
      ((∀ p ∈ c5map, 1 ≤ p.1 → p.1 < 1 + 2 → allGeq p.2.resources [1]) ∧
        allGeq (projAt [3] c5map 1) [1]) :=
  canSchedule_iff [3] c5map [1] 2 1 (by decide) (by decide) (by decide)

/-! ## C6: handle_events -/

/-- C6.  `handle_events` advances `cur_time` to the smallest timeline
key strictly greater than the current one and returns true — or
returns false leaving the state untouched exactly when no such key
exists.  On success it processes, working on snapshots of that key's
event sets, first the `start` set (each job must be RESERVED and is
started), then the `end` set, then the `expired` set (both ended via
the same `_end_job` path), and sets the dirty bit. -/
theorem handleEvents_spec (s : SysState) (hs : SortedKeys s.timeline) :
    (handleEvents s = some (false, s) ↔ ∀ p ∈ s.timeline, p.1 ≤ s.curTime) ∧
    (∀ s', handleEvents s = some (true, s') →
      ∃ k d s1 s2 s3,
        nextEvent s.timeline s.curTime = some (k, d) ∧
        s.curTime < k ∧ keyMem s.timeline k ∧
        (∀ p ∈ s.timeline, s.curTime < p.1 → k ≤ p.1) ∧
        foldStartJobs (startSetAt s.timeline k) { s with curTime := k } =
          some s1 ∧
        foldEndJobs (endSetAt s1.timeline k) s1 = some s2 ∧
        foldEndJobs (expiredSetAt s2.timeline k) s2 = some s3 ∧
        s' = { s3 with dirty := true }) := by
  unfold handleEvents
  cases hne : nextEvent s.timeline s.curTime with
  | none =>
    unfold nextEvent at hne
    constructor
    · simp only [true_iff]
      intro p hp
      have := succIncl_eq_none_iff.mp hne p hp
      omega
    · intro s' h
      cases h
  | some e =>
    obtain ⟨k, d⟩ := e
    unfold nextEvent at hne
    obtain ⟨hkm, hkge, hkmin⟩ := succIncl_eq_some_spec hs hne
    dsimp only
    constructor
    · constructor
      · intro h
        cases f1 : foldStartJobs (startSetAt s.timeline k)
            { s with curTime := k } with
        | none => rw [f1] at h; cases h
        | some s1 =>
          rw [f1] at h
          simp only [Option.bind_eq_bind, Option.some_bind] at h
          cases f2 : foldEndJobs (endSetAt s1.timeline k) s1 with
          | none => rw [f2] at h; cases h
          | some s2 =>
            rw [f2] at h
            simp only [Option.bind_eq_bind, Option.some_bind] at h
            cases f3 : foldEndJobs (expiredSetAt s2.timeline k) s2 with
            | none => rw [f3] at h; cases h
            | some s3 =>
              rw [f3] at h
              simp only [Option.some_bind, Option.some.injEq,
                Prod.mk.injEq] at h
              cases h.1
      · intro h
        have := h (k, d) hkm
        omega
    · intro s' h
      cases f1 : foldStartJobs (startSetAt s.timeline k)
          { s with curTime := k } with
      | none => rw [f1] at h; cases h
      | some s1 =>
        rw [f1] at h
        simp only [Option.bind_eq_bind, Option.some_bind] at h
        cases f2 : foldEndJobs (endSetAt s1.timeline k) s1 with
        | none => rw [f2] at h; cases h
        | some s2 =>
          rw [f2] at h
          simp only [Option.bind_eq_bind, Option.some_bind] at h
          cases f3 : foldEndJobs (expiredSetAt s2.timeline k) s2 with
          | none => rw [f3] at h; cases h
          | some s3 =>
            rw [f3] at h
            simp only [Option.some_bind, Option.some.injEq,
              Prod.mk.injEq] at h
            refine ⟨k, d, s1, s2, s3, rfl, by omega, ?_, ?_, f1, f2, f3,
              h.2.symm⟩
            · have := lookupKey_eq_some_of_mem hs (k := k) (v := d)
                (by simpa using hkm)
              unfold keyMem
              rw [this]
              rfl
            · intro p hp hgt
              exact hkmin p hp (by omega)

/-- Witness for C6 on a concrete system (fresh system: no events). -/
theorem handleEvents_spec_witness :
    (handleEvents (mkSystem [1]) = some (false, mkSystem [1]) ↔
      ∀ p ∈ (mkSystem [1]).timeline, p.1 ≤ (mkSystem [1]).curTime) ∧
    (∀ s', handleEvents (mkSystem [1]) = some (true, s') →
      ∃ k d s1 s2 s3,
        nextEvent (mkSystem [1]).timeline (mkSystem [1]).curTime =
          some (k, d) ∧
        (mkSystem [1]).curTime < k ∧ keyMem (mkSystem [1]).timeline k ∧
        (∀ p ∈ (mkSystem [1]).timeline,
          (mkSystem [1]).curTime < p.1 → k ≤ p.1) ∧
        foldStartJobs (startSetAt (mkSystem [1]).timeline k)
          { mkSystem [1] with curTime := k } = some s1 ∧
        foldEndJobs (endSetAt s1.timeline k) s1 = some s2 ∧
        foldEndJobs (expiredSetAt s2.timeline k) s2 = some s3 ∧
        s' = { s3 with dirty := true }) :=
  handleEvents_spec (mkSystem [1]) (by decide)

/-! ## Componentwise vector lemmas -/

theorem compAt_rscSub {a b : List Int} (h : a.length = b.length)
    {i : Nat} (hi : i < a.length) :
    compAt (rscSub a b) i = compAt a i - compAt b i := by
  induction a generalizing b i with
  | nil => simp at hi
  | cons x xs ih =>
    cases b with
    | nil => simp at h
    | cons y ys =>
      cases i with
      | zero => simp [rscSub, compAt]
      | succ n =>
        simp only [rscSub, List.zipWith_cons_cons, compAt, List.getD_cons_succ]
        exact ih (by simpa using h) (by simpa using hi)

theorem compAt_rscAdd {a b : List Int} (h : a.length = b.length)
    {i : Nat} (hi : i < a.length) :
    compAt (rscAdd a b) i = compAt a i + compAt b i := by
  induction a generalizing b i with
  | nil => simp at hi
  | cons x xs ih =>
    cases b with
    | nil => simp at h
    | cons y ys =>
      cases i with
      | zero => simp [rscAdd, compAt]
      | succ n =>
        simp only [rscAdd, List.zipWith_cons_cons, compAt, List.getD_cons_succ]
        exact ih (by simpa using h) (by simpa using hi)

theorem rscSub_length {a b : List Int} (h : a.length = b.length) :
    (rscSub a b).length = a.length := by
  simp [rscSub, h]

theorem rscAdd_length {a b : List Int} (h : a.length = b.length) :
    (rscAdd a b).length = a.length := by
  simp [rscAdd, h]

theorem rscValid_iff_compAt {a : List Int} :
    rscValid a ↔ ∀ i < a.length, 0 ≤ compAt a i := by
  constructor
  · intro h i hi
    unfold compAt
    rw [List.getD_eq_getElem a 0 hi]
    exact h _ (List.getElem_mem hi)
  · intro h x hx
    rcases List.mem_iff_getElem.mp hx with ⟨i, hi, rfl⟩
    have := h i hi
    unfold compAt at this
    rwa [List.getD_eq_getElem a 0 hi] at this

theorem allGeq_iff_compAt {a b : List Int} :
    allGeq a b ↔ a.length = b.length ∧ ∀ i < a.length, compAt b i ≤ compAt a i := by
  unfold allGeq
  constructor
  · rintro ⟨hl, h⟩
    refine ⟨hl, fun i hi => ?_⟩
    have hib : i < b.length := by omega
    have hmem : (a[i], b[i]) ∈ a.zip b := by
      rw [List.mem_iff_getElem]
      exact ⟨i, by simp [List.length_zip]; omega, by simp⟩
    have := h _ hmem
    unfold compAt
    rw [List.getD_eq_getElem a 0 hi, List.getD_eq_getElem b 0 hib]
    exact this
  · rintro ⟨hl, h⟩
    refine ⟨hl, fun p hp => ?_⟩
    rcases List.mem_iff_getElem.mp hp with ⟨i, hi, hpi⟩
    rw [List.length_zip] at hi
    have hia : i < a.length := by omega
    have hib : i < b.length := by omega
    have := h i hia
    unfold compAt at this
    rw [List.getD_eq_getElem a 0 hia, List.getD_eq_getElem b 0 hib] at this
    have hz : p = (a[i], b[i]) := by
      rw [← hpi]
      simp
    rw [hz]
    exact this

/-- Two vectors with equal components and lengths are equal. -/
theorem listEq_of_compAt {a b : List Int} (hl : a.length = b.length)
    (h : ∀ i < a.length, compAt a i = compAt b i) : a = b := by
  apply List.ext_getElem hl
  intro i hia hib
  have := h i hia
  unfold compAt at this
  rwa [List.getD_eq_getElem a 0 hia, List.getD_eq_getElem b 0 hib] at this

/-! ## Demand-sum lemmas -/

theorem demSumAt_congr {jobs : List JobRec} {t t' : Int}
    (h : ∀ jr ∈ jobs, countedAt jr t = countedAt jr t') (i : Nat) :
    demSumAt jobs t i = demSumAt jobs t' i := by
  unfold demSumAt
  congr 1
  apply List.map_congr_left
  intro jr hjr
  rw [h jr hjr]

theorem demSumAt_eq_zero {jobs : List JobRec} {t : Int}
    (h : ∀ jr ∈ jobs, countedAt jr t = false) (i : Nat) :
    demSumAt jobs t i = 0 := by
  unfold demSumAt
  apply List.sum_eq_zero
  intro x hx
  rcases List.mem_map.mp hx with ⟨jr, hjr, rfl⟩
  simp [h jr hjr]

theorem demSumAt_set {jobs : List JobRec} {j : Nat} {jr jr' : JobRec}
    (hj : jobs[j]? = some jr) (t : Int) (i : Nat) :
    demSumAt (jobs.set j jr') t i =
      demSumAt jobs t i -
        (if countedAt jr t then compAt jr.resources i else 0) +
        (if countedAt jr' t then compAt jr'.resources i else 0) := by
  induction jobs generalizing j with
  | nil => simp at hj
  | cons a rest ih =>
    cases j with
    | zero =>
      simp only [List.getElem?_cons_zero, Option.some.injEq] at hj
      subst hj
      simp only [List.set_cons_zero]
      unfold demSumAt
      simp only [List.map_cons, List.sum_cons]
      ring
    | succ n =>
      simp only [List.getElem?_cons_succ] at hj
      have := ih hj
      simp only [List.set_cons_succ]
      unfold demSumAt at *
      simp only [List.map_cons, List.sum_cons]
      rw [this]
      ring

theorem demSumAt_append_one {jobs : List JobRec} {jr : JobRec}
    (t : Int) (i : Nat) :
    demSumAt (jobs ++ [jr]) t i =
      demSumAt jobs t i +
        (if countedAt jr t then compAt jr.resources i else 0) := by
  unfold demSumAt
  simp

/-! ## Boundary-transfer: new keys inherit the correct projection -/

theorem countedAt_via_iv (jr : JobRec) (t : Int) :
    countedAt jr t =
      match countedIv jr with
      | some e => decide (e.1 ≤ t ∧ t < e.2)
      | none => false := by
  unfold countedAt countedIv
  rcases jr.state <;> rcases hst : jr.startTime <;>
    rcases hdl : jr.deadline <;> rcases het : jr.endTime <;> simp

theorem keyMem_mono {m m' : List (Int × TimelineData)}
    (h : ∀ k, keyMem m k → keyMem m' k) {jobs : List JobRec}
    (hbc : boundaryClosed jobs m) : boundaryClosed jobs m' := by
  intro jr hjr
  have := hbc jr hjr
  cases hiv : countedIv jr with
  | none => trivial
  | some e =>
    rw [hiv] at this
    exact ⟨h _ this.1, h _ this.2⟩

/-- If `t` is not a key, each job is charged at `t` exactly as it is
charged at the greatest key below `t` — and not at all when there is no
key below `t`.  (The endpoints of charged intervals are keys.) -/
theorem countedAt_transfer {jobs : List JobRec}
    {m : List (Int × TimelineData)} (hs : SortedKeys m)
    (hbc : boundaryClosed jobs m) {t : Int} (ht : lookupKey m t = none) :
    (∀ e, predStrict m t = some e →
      ∀ jr ∈ jobs, countedAt jr t = countedAt jr e.1) ∧
    (predStrict m t = none → ∀ jr ∈ jobs, countedAt jr t = false) := by
  constructor
  · intro e hpred jr hjr
    obtain ⟨hem, helt, hemax⟩ := predStrict_eq_some_spec hs hpred
    rw [countedAt_via_iv, countedAt_via_iv]
    cases hiv : countedIv jr with
    | none => rfl
    | some ab =>
      have hb := hbc jr hjr
      rw [hiv] at hb
      obtain ⟨ha, hb2⟩ := hb
      -- endpoints are keys, t is not, e.1 is the greatest key < t
      rcases Option.isSome_iff_exists.mp ha with ⟨da, hda⟩
      rcases Option.isSome_iff_exists.mp hb2 with ⟨db, hdb⟩
      have hma : (ab.1, da) ∈ m := mem_of_lookupKey_eq_some hda
      have hmb : (ab.2, db) ∈ m := mem_of_lookupKey_eq_some hdb
      have hat : ab.1 ≠ t := by
        intro hc; rw [hc] at hda; rw [ht] at hda; cases hda
      have hbt : ab.2 ≠ t := by
        intro hc; rw [hc] at hdb; rw [ht] at hdb; cases hdb
      simp only [decide_eq_decide]
      constructor
      · rintro ⟨h1, h2⟩
        have h3 : ab.1 < t := by omega
        have h4 := hemax (ab.1, da) hma h3
        constructor
        · exact h4
        · omega
      · rintro ⟨h1, h2⟩
        have h3 : e.1 < t := helt
        constructor
        · omega
        · -- ab.2 > e.1; if ab.2 ≤ t then ab.2 < t, so ab.2 ≤ e.1: contra
          by_contra hcon
          push_neg at hcon
          have h5 : ab.2 < t := by omega
          have h6 := hemax (ab.2, db) hmb h5
          omega
  · intro hpred jr hjr
    have hall := (predStrict_eq_none_iff hs).mp hpred
    rw [countedAt_via_iv]
    cases hiv : countedIv jr with
    | none => rfl
    | some ab =>
      have hb := hbc jr hjr
      rw [hiv] at hb
      rcases Option.isSome_iff_exists.mp hb.1 with ⟨da, hda⟩
      have hma : (ab.1, da) ∈ m := mem_of_lookupKey_eq_some hda
      have h1 := hall (ab.1, da) hma
      have hat : ab.1 ≠ t := by
        intro hc; rw [hc] at hda; rw [ht] at hda; cases hda
      simp only [decide_eq_false_iff_not]
      rintro ⟨h2, h3⟩
      omega

/-- The fresh value created by `_get_data` at a non-key `t` satisfies
the projection equation at `t`. -/
theorem getData_res_ok {total : List Int} {jobs : List JobRec}
    {m : List (Int × TimelineData)} (hs : SortedKeys m)
    (hres : timelineResOK total jobs m) (hbc : boundaryClosed jobs m)
    (t : Int) :
    (getData total m t).resources.length = total.length ∧
    ∀ i < total.length,
      compAt (getData total m t).resources i =
        compAt total i - demSumAt jobs t i := by
  unfold getData
  cases ht : lookupKey m t with
  | some d =>
    have hmem : (t, d) ∈ m := mem_of_lookupKey_eq_some ht
    exact hres (t, d) hmem
  | none =>
    cases hpred : predStrict m t with
    | none =>
      dsimp only
      refine ⟨rfl, fun i hi => ?_⟩
      have := (countedAt_transfer hs hbc ht).2 hpred
      rw [demSumAt_eq_zero this]
      omega
    | some e =>
      dsimp only
      obtain ⟨hem, _, _⟩ := predStrict_eq_some_spec hs hpred
      obtain ⟨hlen, heq⟩ := hres e hem
      refine ⟨hlen, fun i hi => ?_⟩
      have htr := (countedAt_transfer hs hbc ht).1 e hpred
      rw [demSumAt_congr htr i]
      exact heq i hi

/-! ## Timeline op bookkeeping -/

theorem lookup_cleanupPut {m : List (Int × TimelineData)}
    (hs : SortedKeys m) (t : Int) (d : TimelineData) (k : Int) :
    lookupKey (cleanupPut m t d) k =
      if k = t then
        (if d.start = [] ∧ d.end_ = [] ∧ d.expired = [] then none else some d)
      else lookupKey m k := by
  unfold cleanupPut
  by_cases he : d.start = [] ∧ d.end_ = [] ∧ d.expired = []
  · rw [if_pos he, lookupKey_eraseKey hs]
    by_cases hk : k = t <;> simp [hk, he]
  · rw [if_neg he, lookupKey_insertSorted]
    by_cases hk : k = t <;> simp [hk, he]

theorem sorted_cleanupPut {m : List (Int × TimelineData)}
    (hs : SortedKeys m) (t : Int) (d : TimelineData) :
    SortedKeys (cleanupPut m t d) := by
  unfold cleanupPut
  split
  · exact sortedKeys_eraseKey hs t
  · exact sortedKeys_insertSorted hs t d

/-- Putting a value with the `_get_data`-derived resources at any key
preserves the projection equation. -/
theorem resOK_put {total : List Int} {jobs : List JobRec}
    {m : List (Int × TimelineData)} (hs : SortedKeys m)
    (hres : timelineResOK total jobs m) (hbc : boundaryClosed jobs m)
    (t : Int) (d' : TimelineData)
    (hd' : d'.resources = (getData total m t).resources) :
    timelineResOK total jobs (insertSorted m t d') := by
  intro p hp
  have hs' := sortedKeys_insertSorted hs t d'
  have hl : lookupKey (insertSorted m t d') p.1 = some p.2 :=
    lookupKey_eq_some_of_mem hs' (by simpa using hp)
  rw [lookupKey_insertSorted] at hl
  by_cases hk : p.1 = t
  · rw [if_pos hk] at hl
    injection hl with hl
    rw [← hl, hd', hk]
    exact getData_res_ok hs hres hbc t
  · rw [if_neg hk] at hl
    exact hres (p.1, p.2) (mem_of_lookupKey_eq_some hl)

theorem tlGrows_refl (m : List (Int × TimelineData)) : tlGrows m m :=
  fun k d h => ⟨d, h, fun _ hx => hx, fun _ hx => hx, fun _ hx => hx⟩

theorem tlGrows_trans {m1 m2 m3 : List (Int × TimelineData)}
    (h1 : tlGrows m1 m2) (h2 : tlGrows m2 m3) : tlGrows m1 m3 := by
  intro k d h
  rcases h1 k d h with ⟨d2, hl2, a2, b2, c2⟩
  rcases h2 k d2 hl2 with ⟨d3, hl3, a3, b3, c3⟩
  exact ⟨d3, hl3, fun x hx => a3 x (a2 x hx), fun x hx => b3 x (b2 x hx),
    fun x hx => c3 x (c2 x hx)⟩

theorem mem_addElem (l : List Nat) (j x : Nat) :
    x ∈ addElem l j ↔ x ∈ l ∨ x = j := by
  unfold addElem
  by_cases h : j ∈ l
  · simp only [if_pos h]
    constructor
    · exact Or.inl
    · rintro (hx | rfl)
      · exact hx
      · exact h
  · simp [if_neg h]

theorem nodup_addElem {l : List Nat} (h : l.Nodup) (j : Nat) :
    (addElem l j).Nodup := by
  unfold addElem
  by_cases hj : j ∈ l
  · simpa [hj]
  · simp only [if_neg hj]
    rw [List.nodup_append]
    exact ⟨h, List.nodup_singleton j, by simpa using hj⟩

theorem tlGrows_insertStartEvent (total : List Int)
    {m : List (Int × TimelineData)} (t : Int) (j : Nat) :
    tlGrows m (insertStartEvent total m t j) := by
  intro k d h
  unfold insertStartEvent
  rw [lookupKey_insertSorted]
  by_cases hk : k = t
  · subst hk
    refine ⟨_, if_pos rfl, ?_, ?_, ?_⟩ <;>
      simp only [getData, h] <;> intro x hx
    · rw [mem_addElem]; exact Or.inl hx
    · exact hx
    · exact hx
  · exact ⟨d, by rw [if_neg hk]; exact h, fun _ hx => hx, fun _ hx => hx,
      fun _ hx => hx⟩

theorem tlGrows_insertExpireEvent (total : List Int)
    {m : List (Int × TimelineData)} (t : Int) (j : Nat) :
    tlGrows m (insertExpireEvent total m t j) := by
  intro k d h
  unfold insertExpireEvent
  rw [lookupKey_insertSorted]
  by_cases hk : k = t
  · subst hk
    refine ⟨_, if_pos rfl, ?_, ?_, ?_⟩ <;>
      simp only [getData, h] <;> intro x hx
    · exact hx
    · exact hx
    · rw [mem_addElem]; exact Or.inl hx
  · exact ⟨d, by rw [if_neg hk]; exact h, fun _ hx => hx, fun _ hx => hx,
      fun _ hx => hx⟩

theorem tlGrows_insertEndEvent (total : List Int)
    {m : List (Int × TimelineData)} (t : Int) (j : Nat) :
    tlGrows m (insertEndEvent total m t j) := by
  intro k d h
  unfold insertEndEvent
  rw [lookupKey_insertSorted]
  by_cases hk : k = t
  · subst hk
    refine ⟨_, if_pos rfl, ?_, ?_, ?_⟩ <;>
      simp only [getData, h] <;> intro x hx
    · exact hx
    · rw [mem_addElem]; exact Or.inl hx
    · exact hx
  · exact ⟨d, by rw [if_neg hk]; exact h, fun _ hx => hx, fun _ hx => hx,
      fun _ hx => hx⟩

theorem tlGrows_mapRange (m : List (Int × TimelineData)) (lo hi : Int)
    (g : List Int → List Int) :
    tlGrows m (mapRange m lo hi
      (fun d => { d with resources := g d.resources })) := by
  intro k d h
  rw [lookupKey_mapRange, h]
  by_cases hk : lo ≤ k ∧ k < hi
  · refine ⟨{ d with resources := g d.resources }, by simp [hk],
      fun _ hx => hx, fun _ hx => hx, fun _ hx => hx⟩
  · refine ⟨d, by simp [hk], fun _ hx => hx, fun _ hx => hx, fun _ hx => hx⟩

theorem eventsExist_mono {jobs : List JobRec}
    {m m' : List (Int × TimelineData)} (hex : eventsExist jobs m)
    (hg : tlGrows m m') : eventsExist jobs m' := by
  intro j hj
  have h := hex j hj
  cases hjr : jobs[j]? with
  | none => trivial
  | some jr =>
    rw [hjr] at h
    dsimp only at h
    refine ⟨?_, ?_, ?_⟩
    · cases hst : jr.startTime with
      | none => trivial
      | some st =>
        rw [hst] at h
        intro hstate
        have h1 := h.1 hstate
        cases hl : lookupKey m st with
        | none => rw [hl] at h1; cases h1
        | some d =>
          rw [hl] at h1
          rcases hg st d hl with ⟨d', hl', ha, _, _⟩
          rw [hl']
          exact ha j h1
    · cases hdl : jr.deadline with
      | none => trivial
      | some dl =>
        rw [hdl] at h
        intro hstate
        have h1 := h.2.1 hstate
        cases hl : lookupKey m dl with
        | none => rw [hl] at h1; cases h1
        | some d =>
          rw [hl] at h1
          rcases hg dl d hl with ⟨d', hl', _, _, hc⟩
          rw [hl']
          exact hc j h1
    · cases het : jr.endTime with
      | none => trivial
      | some et =>
        rw [het] at h
        intro hstate
        have h1 := h.2.2 hstate
        cases hl : lookupKey m et with
        | none => rw [hl] at h1; cases h1
        | some d =>
          rw [hl] at h1
          rcases hg et d hl with ⟨d', hl', _, hb, _⟩
          rw [hl']
          exact hb j h1

/-- Boundary closure follows from event existence. -/
theorem boundaryClosed_of_exists {jobs : List JobRec}
    {m : List (Int × TimelineData)} (hex : eventsExist jobs m) :
    boundaryClosed jobs m := by
  intro jr hjr
  rcases List.mem_iff_getElem.mp hjr with ⟨j, hj, hget⟩
  have hj? : jobs[j]? = some jr := by
    rw [List.getElem?_eq_getElem hj, hget]
  have h := hex j hj
  rw [hj?] at h
  dsimp only at h
  unfold countedIv
  rcases hstate : jr.state with _ | _ | _ | _ <;>
    rcases hst : jr.startTime with _ | st <;>
      rcases hdl : jr.deadline with _ | dl <;>
        rcases het : jr.endTime with _ | et <;> try trivial
  all_goals {
    rw [hst, hdl, het] at h
    dsimp only
    constructor
    all_goals {
      unfold keyMem
      first
      | (cases hl : lookupKey m st with
         | none =>
           exfalso
           have h1 := h.1 (by simp [hstate])
           rw [hl] at h1
           exact h1
         | some d => rfl)
      | (cases hl : lookupKey m dl with
         | none =>
           exfalso
           have h1 := h.2.1 (by simp [hstate])
           rw [hl] at h1
           exact h1
         | some d => rfl)
      | (cases hl : lookupKey m et with
         | none =>
           exfalso
           have h1 := h.2.2 (by simp [hstate])
           rw [hl] at h1
           exact h1
         | some d => rfl)
    }
  }

/-! ## add_job_reservation -/

theorem keyMem_insertSorted {α : Type} (m : List (Int × α)) (t : Int)
    (v : α) (k : Int) : keyMem (insertSorted m t v) k ↔ k = t ∨ keyMem m k := by
  unfold keyMem
  rw [lookupKey_insertSorted]
  by_cases hk : k = t <;> simp [hk]

theorem keyMem_mapRange {α : Type} (m : List (Int × α)) (lo hi : Int)
    (f : α → α) (k : Int) : keyMem (mapRange m lo hi f) k ↔ keyMem m k := by
  unfold keyMem
  rw [lookupKey_mapRange]
  cases lookupKey m k <;> simp

theorem sorted_addJobReservation {m : List (Int × TimelineData)}
    (hs : SortedKeys m) (total : List Int) (j : Nat) (st dl : Int)
    (dem : List Int) : SortedKeys (addJobReservation total m j st dl dem) := by
  unfold addJobReservation debitRange insertStartEvent insertExpireEvent
  exact sortedKeys_mapRange
    (sortedKeys_insertSorted (sortedKeys_insertSorted hs _ _) _ _) _ _ _

theorem keyMem_addJobReservation {m : List (Int × TimelineData)}
    (total : List Int) (j : Nat) (st dl : Int) (dem : List Int) (k : Int) :
    keyMem (addJobReservation total m j st dl dem) k ↔
      k = st ∨ k = dl ∨ keyMem m k := by
  unfold addJobReservation debitRange insertStartEvent insertExpireEvent
  rw [keyMem_mapRange, keyMem_insertSorted, keyMem_insertSorted]
  tauto

theorem tlGrows_addJobReservation (total : List Int)
    (m : List (Int × TimelineData)) (j : Nat) (st dl : Int)
    (dem : List Int) : tlGrows m (addJobReservation total m j st dl dem) := by
  unfold addJobReservation debitRange
  exact tlGrows_trans (tlGrows_insertStartEvent total st j)
    (tlGrows_trans (tlGrows_insertExpireEvent total dl j)
      (tlGrows_mapRange _ st dl (fun v => rscSub v dem)))

/-- The projection equation after `add_job_reservation`, relative to the
job list where job `jx` has been moved from an uncharged record to one
charged exactly on `[st, dl)` with demand `dem`. -/
theorem addJobReservation_resOK {total : List Int} {jobs : List JobRec}
    {m : List (Int × TimelineData)} {jx : Nat} {jrOld jrNew : JobRec}
    {st dl : Int} {dem : List Int}
    (hs : SortedKeys m) (hres : timelineResOK total jobs m)
    (hbc : boundaryClosed jobs m)
    (hjx : jobs[jx]? = some jrOld)
    (hOldNC : ∀ t, countedAt jrOld t = false)
    (hNewC : ∀ t, countedAt jrNew t = decide (st ≤ t ∧ t < dl))
    (hNewDem : jrNew.resources = dem)
    (hdemlen : dem.length = total.length) :
    timelineResOK total (jobs.set jx jrNew)
      (addJobReservation total m jx st dl dem) := by
  have hs1 : SortedKeys (insertStartEvent total m st jx) :=
    sortedKeys_insertSorted hs _ _
  have hres1 : timelineResOK total jobs (insertStartEvent total m st jx) :=
    resOK_put hs hres hbc st _ rfl
  have hbc1 : boundaryClosed jobs (insertStartEvent total m st jx) := by
    refine keyMem_mono (fun k hk => ?_) hbc
    unfold insertStartEvent
    rw [keyMem_insertSorted]
    exact Or.inr hk
  have hres2 : timelineResOK total jobs
      (insertExpireEvent total (insertStartEvent total m st jx) dl jx) :=
    resOK_put hs1 hres1 hbc1 dl _ rfl
  have hs2 : SortedKeys
      (insertExpireEvent total (insertStartEvent total m st jx) dl jx) :=
    sortedKeys_insertSorted hs1 _ _
  -- the final debit pass
  intro p hp
  have hsf : SortedKeys (addJobReservation total m jx st dl dem) :=
    sorted_addJobReservation hs total jx st dl dem
  have hl : lookupKey (addJobReservation total m jx st dl dem) p.1 =
      some p.2 := lookupKey_eq_some_of_mem hsf (by simpa using hp)
  unfold addJobReservation debitRange at hl
  rw [lookupKey_mapRange] at hl
  set m2 := insertExpireEvent total (insertStartEvent total m st jx) dl jx
    with hm2
  cases hl2 : lookupKey m2 p.1 with
  | none => rw [hl2] at hl; cases hl
  | some d2 =>
    rw [hl2] at hl
    simp only [Option.map_some', Option.some.injEq] at hl
    obtain ⟨hlen2, heq2⟩ := hres2 (p.1, d2) (mem_of_lookupKey_eq_some hl2)
    dsimp only at hlen2 heq2
    have hsum : ∀ i, demSumAt (jobs.set jx jrNew) p.1 i =
        demSumAt jobs p.1 i +
          (if st ≤ p.1 ∧ p.1 < dl then compAt dem i else 0) := by
      intro i
      rw [demSumAt_set hjx, hOldNC, hNewC]
      by_cases hr : st ≤ p.1 ∧ p.1 < dl <;> simp [hr, hNewDem]
    by_cases hr : st ≤ p.1 ∧ p.1 < dl
    · rw [if_pos hr] at hl
      rw [← hl]
      dsimp only
      constructor
      · rw [rscSub_length (by omega : d2.resources.length = dem.length)]
        exact hlen2
      · intro i hi
        rw [compAt_rscSub (by omega : d2.resources.length = dem.length)
          (by omega), heq2 i hi, hsum i, if_pos hr]
        ring
    · rw [if_neg hr] at hl
      rw [← hl]
      refine ⟨hlen2, fun i hi => ?_⟩
      rw [heq2 i hi, hsum i, if_neg hr]
      ring

/-- Event sets after `add_job_reservation`: the `start` set at `st` and
`expired` set at `dl` gain `jx`; everything else is unchanged. -/
theorem sets_addJobReservation {total : List Int}
    {m : List (Int × TimelineData)} {jx : Nat} {st dl : Int}
    {dem : List Int} (hstdl : st < dl) :
    ∀ k d', lookupKey (addJobReservation total m jx st dl dem) k = some d' →
      (∀ x ∈ d'.start, x ∈ startSetAt m k ∨ (x = jx ∧ k = st)) ∧
      (∀ x ∈ d'.expired, x ∈ expiredSetAt m k ∨ (x = jx ∧ k = dl)) ∧
      (∀ x ∈ d'.end_, x ∈ endSetAt m k) ∧
      (eventsNodup m → d'.start.Nodup ∧ d'.end_.Nodup ∧ d'.expired.Nodup) := by
  intro k d' hl
  unfold addJobReservation debitRange at hl
  rw [lookupKey_mapRange] at hl
  cases hl2 : lookupKey (insertExpireEvent total
      (insertStartEvent total m st jx) dl jx) k with
  | none => rw [hl2] at hl; cases hl
  | some d2 =>
    rw [hl2] at hl
    simp only [Option.map_some', Option.some.injEq] at hl
    have hsets : d'.start = d2.start ∧ d'.expired = d2.expired ∧
        d'.end_ = d2.end_ := by
      by_cases hr : st ≤ k ∧ k < dl
      · rw [if_pos hr] at hl; rw [← hl]; exact ⟨rfl, rfl, rfl⟩
      · rw [if_neg hr] at hl; rw [← hl]; exact ⟨rfl, rfl, rfl⟩
    obtain ⟨hds, hde, hdn⟩ := hsets
    rw [hds, hde, hdn]
    clear hds hde hdn hl
    unfold insertExpireEvent at hl2
    rw [lookupKey_insertSorted] at hl2
    by_cases hk2 : k = dl
    · rw [if_pos hk2] at hl2
      injection hl2 with hl2
      rw [← hl2]
      dsimp only
      unfold getData insertStartEvent
      rw [lookupKey_insertSorted]
      have hk3 : ¬dl = st := by omega
      rw [if_neg hk3]
      cases hl3 : lookupKey m dl with
      | none =>
        dsimp only
        refine ⟨fun x hx => absurd hx (List.not_mem_nil x), ?_,
          fun x hx => absurd hx (List.not_mem_nil x), ?_⟩
        · intro x hx
          rw [mem_addElem] at hx
          rcases hx with hx | hx
          · exact absurd hx (List.not_mem_nil x)
          · exact Or.inr ⟨hx, hk2⟩
        · intro _
          exact ⟨List.nodup_nil, List.nodup_nil, nodup_addElem List.nodup_nil jx⟩
      | some dOld =>
        dsimp only
        refine ⟨?_, ?_, ?_, ?_⟩
        · intro x hx
          rw [hk2]
          unfold startSetAt
          rw [hl3]
          exact Or.inl hx
        · intro x hx
          rw [mem_addElem] at hx
          rcases hx with hx | hx
          · rw [hk2]
            unfold expiredSetAt
            rw [hl3]
            exact Or.inl hx
          · exact Or.inr ⟨hx, hk2⟩
        · intro x hx
          rw [hk2]
          unfold endSetAt
          rw [hl3]
          exact hx
        · intro hnd
          obtain ⟨h1, h2, h3⟩ := hnd (dl, dOld) (mem_of_lookupKey_eq_some hl3)
          exact ⟨h1, h2, nodup_addElem h3 jx⟩
    · rw [if_neg hk2] at hl2
      unfold insertStartEvent at hl2
      rw [lookupKey_insertSorted] at hl2
      by_cases hk1 : k = st
      · rw [if_pos hk1] at hl2
        injection hl2 with hl2
        rw [← hl2]
        dsimp only
        unfold getData
        cases hl3 : lookupKey m st with
        | none =>
          dsimp only
          refine ⟨?_, fun x hx => absurd hx (List.not_mem_nil x),
            fun x hx => absurd hx (List.not_mem_nil x), ?_⟩
          · intro x hx
            rw [mem_addElem] at hx
            rcases hx with hx | hx
            · exact absurd hx (List.not_mem_nil x)
            · exact Or.inr ⟨hx, hk1⟩
          · intro _
            exact ⟨nodup_addElem List.nodup_nil jx, List.nodup_nil,
              List.nodup_nil⟩
        | some dOld =>
          dsimp only
          refine ⟨?_, ?_, ?_, ?_⟩
          · intro x hx
            rw [mem_addElem] at hx
            rcases hx with hx | hx
            · rw [hk1]
              unfold startSetAt
              rw [hl3]
              exact Or.inl hx
            · exact Or.inr ⟨hx, hk1⟩
          · intro x hx
            rw [hk1]
            unfold expiredSetAt
            rw [hl3]
            exact Or.inl hx
          · intro x hx
            rw [hk1]
            unfold endSetAt
            rw [hl3]
            exact hx
          · intro hnd
            obtain ⟨h1, h2, h3⟩ := hnd (st, dOld) (mem_of_lookupKey_eq_some hl3)
            exact ⟨nodup_addElem h1 jx, h2, h3⟩
      · rw [if_neg hk1] at hl2
        refine ⟨?_, ?_, ?_, ?_⟩
        · intro x hx
          unfold startSetAt
          rw [hl2]
          exact Or.inl hx
        · intro x hx
          unfold expiredSetAt
          rw [hl2]
          exact Or.inl hx
        · intro x hx
          unfold endSetAt
          rw [hl2]
          exact hx
        · intro hnd
          exact hnd (k, d2) (mem_of_lookupKey_eq_some hl2)

/-- `jx` is recorded in the `start` set at `st` after
`add_job_reservation`. -/
theorem jx_start_addJobReservation {c : List Int}
    {m : List (Int × TimelineData)} {x : Nat} {st dl : Int}
    {e : List Int} (hstdl : st < dl) :
    ∃ d, lookupKey (addJobReservation c m x st dl e) st = some d ∧
      x ∈ d.start := by
  unfold addJobReservation debitRange
  rw [lookupKey_mapRange]
  unfold insertExpireEvent
  rw [lookupKey_insertSorted, if_neg (by omega : ¬st = dl)]
  unfold insertStartEvent
  rw [lookupKey_insertSorted, if_pos rfl]
  simp only [Option.map_some']
  refine ⟨_, rfl, ?_⟩
  by_cases hr : st ≤ st ∧ st < dl
  · rw [if_pos hr]
    dsimp only
    rw [mem_addElem]
    exact Or.inr rfl
  · omega

/-- `jx` is recorded in the `expired` set at `dl` after
`add_job_reservation`. -/
theorem jx_expired_addJobReservation {c : List Int}
    {m : List (Int × TimelineData)} {x : Nat} {st dl : Int}
    {e : List Int} (hstdl : st < dl) :
    ∃ d, lookupKey (addJobReservation c m x st dl e) dl = some d ∧
      x ∈ d.expired := by
  unfold addJobReservation debitRange
  rw [lookupKey_mapRange]
  unfold insertExpireEvent
  rw [lookupKey_insertSorted, if_pos rfl]
  simp only [Option.map_some']
  refine ⟨_, rfl, ?_⟩
  rw [if_neg (by omega : ¬(st ≤ dl ∧ dl < dl))]
  dsimp only
  rw [mem_addElem]
  exact Or.inr rfl

/-! ## countedAt on the job-transition records -/

theorem countedAt_pending {jr : JobRec} (h : jr.state = JState.pending)
    (u : Int) : countedAt jr u = false := by
  unfold countedAt
  rw [h]

theorem countedAt_jobReserved (jr : JobRec) (t u : Int) :
    countedAt (jobReserved jr t) u =
      decide (t ≤ u ∧ u < t + jr.timelimit) := by
  unfold countedAt jobReserved
  rcases jr.endTime <;> rfl

theorem countedAt_jobStarted (jr : JobRec) (c u : Int) :
    countedAt (jobStarted jr c) u =
      decide (c ≤ u ∧ u < c + jr.timelimit) := by
  rfl

theorem countedAt_jobUnreserved (jr : JobRec) (u : Int) :
    countedAt (jobUnreserved jr) u = false := by
  unfold countedAt jobUnreserved
  rfl

theorem countedAt_jobEnded {jr : JobRec} {st : Int}
    (hst : jr.startTime = some st) (c u : Int) :
    countedAt (jobEnded jr c) u = decide (st ≤ u ∧ u < c) := by
  unfold countedAt jobEnded
  rw [hst]

theorem countedAt_reserved_eq {jr : JobRec} {st dl : Int}
    (hr : jr.state = JState.reserved) (hst : jr.startTime = some st)
    (hdl : jr.deadline = some dl) (u : Int) :
    countedAt jr u = decide (st ≤ u ∧ u < dl) := by
  unfold countedAt
  rw [hr, hst, hdl]

theorem countedAt_started_eq {jr : JobRec} {st dl : Int}
    (hr : jr.state = JState.started) (hst : jr.startTime = some st)
    (hdl : jr.deadline = some dl) (u : Int) :
    countedAt jr u = decide (st ≤ u ∧ u < dl) := by
  unfold countedAt
  rw [hr, hst, hdl]

/-- `JobWF` facts for a PENDING record. -/
theorem jobWF_pending {jr : JobRec} (hwf : JobWF jr)
    (h : jr.state = JState.pending) :
    jr.startTime = none ∧ jr.endTime = none ∧ jr.deadline = none := by
  unfold JobWF at hwf
  rw [h] at hwf
  rcases hst : jr.startTime <;> rcases het : jr.endTime <;>
    rcases hdl : jr.deadline <;> rw [hst, het, hdl] at hwf <;>
    first
    | exact ⟨rfl, rfl, rfl⟩
    | cases hwf

/-- `JobWF` facts for a RESERVED record. -/
theorem jobWF_reserved {jr : JobRec} (hwf : JobWF jr)
    (h : jr.state = JState.reserved) :
    ∃ st, jr.startTime = some st ∧ jr.endTime = none ∧
      jr.deadline = some (st + jr.timelimit) := by
  unfold JobWF at hwf
  rw [h] at hwf
  rcases hst : jr.startTime with _ | st <;> rcases het : jr.endTime <;>
    rcases hdl : jr.deadline with _ | dl <;>
    rw [hst, het, hdl] at hwf <;> try cases hwf
  exact ⟨st, rfl, rfl, rfl⟩

/-- `JobWF` facts for a STARTED record. -/
theorem jobWF_started {jr : JobRec} (hwf : JobWF jr)
    (h : jr.state = JState.started) :
    ∃ st et, jr.startTime = some st ∧ jr.endTime = some et ∧
      jr.deadline = some (st + jr.timelimit) := by
  unfold JobWF at hwf
  rw [h] at hwf
  rcases hst : jr.startTime with _ | st <;>
    rcases het : jr.endTime with _ | et <;>
    rcases hdl : jr.deadline with _ | dl <;>
    rw [hst, het, hdl] at hwf <;> try cases hwf
  exact ⟨st, et, rfl, rfl, rfl⟩

/-- `JobWF` facts for a FINISHED record. -/
theorem jobWF_finished {jr : JobRec} (hwf : JobWF jr)
    (h : jr.state = JState.finished) :
    ∃ st et dl, jr.startTime = some st ∧ jr.endTime = some et ∧
      jr.deadline = some dl := by
  unfold JobWF at hwf
  rw [h] at hwf
  rcases hst : jr.startTime with _ | st <;>
    rcases het : jr.endTime with _ | et <;>
    rcases hdl : jr.deadline with _ | dl <;>
    rw [hst, het, hdl] at hwf <;> try cases hwf
  exact ⟨st, et, dl, rfl, rfl, rfl⟩

/-! ## Exact descriptions of single event operations -/

theorem insertEndEvent_spec (total : List Int)
    (m : List (Int × TimelineData)) (t : Int) (j : Nat) :
    ∀ k, match lookupKey (insertEndEvent total m t j) k, lookupKey m k with
      | some d', some d => d'.start = d.start ∧ d'.expired = d.expired ∧
          d'.end_ = (if k = t then addElem d.end_ j else d.end_) ∧
          d'.resources = d.resources
      | some d', none => k = t ∧ d'.start = [] ∧ d'.expired = [] ∧
          d'.end_ = [j] ∧ d'.resources = (getData total m t).resources
      | none, some _ => False
      | none, none => True := by
  intro k
  unfold insertEndEvent
  rw [lookupKey_insertSorted]
  by_cases hk : k = t
  · rw [if_pos hk]
    subst hk
    unfold getData
    cases hl : lookupKey m k with
    | none =>
      dsimp only
      exact ⟨rfl, rfl, rfl, rfl, rfl⟩
    | some d =>
      dsimp only
      rw [if_pos rfl]
      exact ⟨rfl, rfl, rfl, rfl⟩
  · rw [if_neg hk]
    cases hl : lookupKey m k with
    | none => trivial
    | some d =>
      dsimp only
      rw [if_neg hk]
      exact ⟨rfl, rfl, rfl, rfl⟩

theorem removeStartEvent_spec {m m' : List (Int × TimelineData)} {t : Int}
    {j : Nat} (hs : SortedKeys m) (h : removeStartEvent m t j = some m') :
    SortedKeys m' ∧
    (∃ d0, lookupKey m t = some d0 ∧ j ∈ d0.start) ∧
    ∀ k, match lookupKey m' k, lookupKey m k with
      | some d', some d =>
          d'.start = (if k = t then d.start.erase j else d.start) ∧
          d'.end_ = d.end_ ∧ d'.expired = d.expired ∧
          d'.resources = d.resources
      | none, some d => k = t ∧ d.start.erase j = [] ∧ d.end_ = [] ∧
          d.expired = []
      | some _, none => False
      | none, none => True := by
  unfold removeStartEvent at h
  cases hl : lookupKey m t with
  | none => rw [hl] at h; cases h
  | some d0 =>
    rw [hl] at h
    dsimp only at h
    split at h
    case isTrue h1 =>
      injection h with h
      subst h
      refine ⟨sorted_cleanupPut hs t _, ⟨d0, rfl, h1⟩, ?_⟩
      intro k
      rw [lookup_cleanupPut hs]
      by_cases hk : k = t
      · subst hk
        by_cases he : ({ d0 with start := d0.start.erase j } :
            TimelineData).start = [] ∧
            ({ d0 with start := d0.start.erase j } : TimelineData).end_ = [] ∧
            ({ d0 with start := d0.start.erase j } : TimelineData).expired = []
        · rw [if_pos rfl, if_pos he, hl]
          exact ⟨rfl, he.1, he.2.1, he.2.2⟩
        · rw [if_pos rfl, if_neg he, hl]
          exact ⟨by rw [if_pos rfl], rfl, rfl, rfl⟩
      · rw [if_neg hk]
        cases hlk : lookupKey m k with
        | none => trivial
        | some d =>
          exact ⟨by rw [if_neg hk], rfl, rfl, rfl⟩
    case isFalse h1 => cases h

theorem removeExpireEvent_spec {m m' : List (Int × TimelineData)} {t : Int}
    {j : Nat} (hs : SortedKeys m) (h : removeExpireEvent m t j = some m') :
    SortedKeys m' ∧
    (∃ d0, lookupKey m t = some d0 ∧ j ∈ d0.expired) ∧
    ∀ k, match lookupKey m' k, lookupKey m k with
      | some d', some d =>
          d'.expired = (if k = t then d.expired.erase j else d.expired) ∧
          d'.end_ = d.end_ ∧ d'.start = d.start ∧
          d'.resources = d.resources
      | none, some d => k = t ∧ d.expired.erase j = [] ∧ d.end_ = [] ∧
          d.start = []
      | some _, none => False
      | none, none => True := by
  unfold removeExpireEvent at h
  cases hl : lookupKey m t with
  | none => rw [hl] at h; cases h
  | some d0 =>
    rw [hl] at h
    dsimp only at h
    split at h
    case isTrue h1 =>
      injection h with h
      subst h
      refine ⟨sorted_cleanupPut hs t _, ⟨d0, rfl, h1⟩, ?_⟩
      intro k
      rw [lookup_cleanupPut hs]
      by_cases hk : k = t
      · subst hk
        by_cases he : ({ d0 with expired := d0.expired.erase j } :
            TimelineData).start = [] ∧
            ({ d0 with expired := d0.expired.erase j } :
              TimelineData).end_ = [] ∧
            ({ d0 with expired := d0.expired.erase j } :
              TimelineData).expired = []
        · rw [if_pos rfl, if_pos he, hl]
          exact ⟨rfl, he.2.2, he.2.1, he.1⟩
        · rw [if_pos rfl, if_neg he, hl]
          exact ⟨by rw [if_pos rfl], rfl, rfl, rfl⟩
      · rw [if_neg hk]
        cases hlk : lookupKey m k with
        | none => trivial
        | some d =>
          exact ⟨by rw [if_neg hk], rfl, rfl, rfl⟩
    case isFalse h1 => cases h

theorem removeEndEvent_spec {m m' : List (Int × TimelineData)} {t : Int}
    {j : Nat} (hs : SortedKeys m) (h : removeEndEvent m t j = some m') :
    SortedKeys m' ∧
    (∃ d0, lookupKey m t = some d0 ∧ j ∈ d0.end_) ∧
    ∀ k, match lookupKey m' k, lookupKey m k with
      | some d', some d =>
          d'.end_ = (if k = t then d.end_.erase j else d.end_) ∧
          d'.start = d.start ∧ d'.expired = d.expired ∧
          d'.resources = d.resources
      | none, some d => k = t ∧ d.end_.erase j = [] ∧ d.start = [] ∧
          d.expired = []
      | some _, none => False
      | none, none => True := by
  unfold removeEndEvent at h
  cases hl : lookupKey m t with
  | none => rw [hl] at h; cases h
  | some d0 =>
    rw [hl] at h
    dsimp only at h
    split at h
    case isTrue h1 =>
      injection h with h
      subst h
      refine ⟨sorted_cleanupPut hs t _, ⟨d0, rfl, h1⟩, ?_⟩
      intro k
      rw [lookup_cleanupPut hs]
      by_cases hk : k = t
      · subst hk
        by_cases he : ({ d0 with end_ := d0.end_.erase j } :
            TimelineData).start = [] ∧
            ({ d0 with end_ := d0.end_.erase j } : TimelineData).end_ = [] ∧
            ({ d0 with end_ := d0.end_.erase j } : TimelineData).expired = []
        · rw [if_pos rfl, if_pos he, hl]
          exact ⟨rfl, he.2.1, he.1, he.2.2⟩
        · rw [if_pos rfl, if_neg he, hl]
          exact ⟨by rw [if_pos rfl], rfl, rfl, rfl⟩
      · rw [if_neg hk]
        cases hlk : lookupKey m k with
        | none => trivial
        | some d =>
          exact ⟨by rw [if_neg hk], rfl, rfl, rfl⟩
    case isFalse h1 => cases h

/-! ## Invariant preservation: _reserve_job -/

theorem reserveJob_inv1 {s s' : SysState} {j : Nat} {t : Int}
    (hinv : Inv1 s) (h : reserveJob s j t = some s') : Inv1 s' := by
  obtain ⟨jr, hj, hlt, hpend, rfl⟩ := reserveJob_elim h
  obtain ⟨hs, hlen, hwf, hew, hex, hnd, hres⟩ := hinv
  have hjlt : j < s.jobs.length := (List.getElem?_eq_some_iff.mp hj).1
  have hjmem : jr ∈ s.jobs := List.getElem?_mem hj
  have hwfj := hwf jr hjmem
  obtain ⟨hstn, hetn, hdln⟩ := jobWF_pending hwfj hpend
  have htl : 0 < jr.timelimit := (hlen jr hjmem).2
  have hstdl : t < t + jr.timelimit := by omega
  have hsf : SortedKeys (addJobReservation s.total s.timeline j t
      (t + jr.timelimit) jr.resources) :=
    sorted_addJobReservation hs s.total j t (t + jr.timelimit) jr.resources
  -- members of the old event sets are never the pending job j
  have hnotj : ∀ (k : Int) (d : TimelineData), lookupKey s.timeline k = some d →
      ∀ x, (x ∈ d.start ∨ x ∈ d.expired ∨ x ∈ d.end_) → x ≠ j := by
    intro k d hl x hx hxj
    subst hxj
    have hmem := mem_of_lookupKey_eq_some hl
    obtain ⟨hws, hwe, hwn⟩ := hew (k, d) hmem
    rcases hx with hx | hx | hx
    · have := hws x hx
      rw [hj] at this
      rcases this.2 with h1 | h1 | h1 <;> rw [hpend] at h1 <;> cases h1
    · have := hwe x hx
      rw [hj] at this
      rcases this.2 with h1 | h1 <;> rw [hpend] at h1 <;> cases h1
    · have := hwn x hx
      rw [hj] at this
      rcases this.2 with h1 | h1 <;> rw [hpend] at h1 <;> cases h1
  unfold Inv1 reserveJobRes setJob
  dsimp only
  refine ⟨hsf, ?_, ?_, ?_, ?_, ?_, ?_⟩
  · -- lengths and time limits
    intro jr' hjr'
    rcases List.mem_or_eq_of_mem_set hjr' with hmem | rfl
    · exact hlen jr' hmem
    · exact ⟨(hlen jr hjmem).1, htl⟩
  · -- JobWF
    intro jr' hjr'
    rcases List.mem_or_eq_of_mem_set hjr' with hmem | rfl
    · exact hwf jr' hmem
    · unfold JobWF jobReserved
      rw [hetn]
  · -- eventsWF
    intro p hp
    have hlp : lookupKey (addJobReservation s.total s.timeline j t
        (t + jr.timelimit) jr.resources) p.1 = some p.2 :=
      lookupKey_eq_some_of_mem hsf (by simpa using hp)
    obtain ⟨hstart', hexp', hend', _⟩ :=
      sets_addJobReservation hstdl p.1 p.2 hlp
    refine ⟨?_, ?_, ?_⟩
    · intro x hx
      rcases hstart' x hx with hxold | ⟨rfl, hpt⟩
      · unfold startSetAt at hxold
        cases hl0 : lookupKey s.timeline p.1 with
        | none => rw [hl0] at hxold; cases hxold
        | some dOld =>
          rw [hl0] at hxold
          simp only [Option.map_some', Option.getD_some] at hxold
          have hxne : x ≠ j := hnotj p.1 dOld hl0 x (Or.inl hxold)
          have := (hew (p.1, dOld) (mem_of_lookupKey_eq_some hl0)).1 x hxold
          rw [List.getElem?_set_ne (fun hc => hxne hc.symm)]
          exact this
      · rw [hpt, List.getElem?_set_eq hjlt]
        exact ⟨rfl, Or.inl rfl⟩
    · intro x hx
      rcases hexp' x hx with hxold | ⟨rfl, hpt⟩
      · unfold expiredSetAt at hxold
        cases hl0 : lookupKey s.timeline p.1 with
        | none => rw [hl0] at hxold; cases hxold
        | some dOld =>
          rw [hl0] at hxold
          simp only [Option.map_some', Option.getD_some] at hxold
          have hxne : x ≠ j := hnotj p.1 dOld hl0 x (Or.inr (Or.inl hxold))
          have := (hew (p.1, dOld) (mem_of_lookupKey_eq_some hl0)).2.1 x hxold
          rw [List.getElem?_set_ne (fun hc => hxne hc.symm)]
          exact this
      · rw [hpt, List.getElem?_set_eq hjlt]
        exact ⟨rfl, Or.inl rfl⟩
    · intro x hx
      have hxold := hend' x hx
      unfold endSetAt at hxold
      cases hl0 : lookupKey s.timeline p.1 with
      | none => rw [hl0] at hxold; cases hxold
      | some dOld =>
        rw [hl0] at hxold
        simp only [Option.map_some', Option.getD_some] at hxold
        have hxne : x ≠ j := hnotj p.1 dOld hl0 x (Or.inr (Or.inr hxold))
        have := (hew (p.1, dOld) (mem_of_lookupKey_eq_some hl0)).2.2 x hxold
        rw [List.getElem?_set_ne (fun hc => hxne hc.symm)]
        exact this
  · -- eventsExist
    have hex1 : eventsExist s.jobs (addJobReservation s.total s.timeline j t
        (t + jr.timelimit) jr.resources) :=
      eventsExist_mono hex (tlGrows_addJobReservation _ _ _ _ _ _)
    intro j0 hj0
    rw [List.length_set] at hj0
    by_cases hj0j : j0 = j
    · subst hj0j
      rw [List.getElem?_set_eq hjlt]
      refine ⟨?_, ?_, ?_⟩
      · intro _
        rcases jx_start_addJobReservation (c := s.total)
            (m := s.timeline) (x := j0) (e := jr.resources) hstdl with
          ⟨d, hd, hmem⟩
        rw [hd]
        exact hmem
      · intro _
        rcases jx_expired_addJobReservation (c := s.total)
            (m := s.timeline) (x := j0) (e := jr.resources) hstdl with
          ⟨d, hd, hmem⟩
        rw [hd]
        exact hmem
      · simp only [jobReserved]
        rw [hetn]
        trivial
    · rw [List.getElem?_set_ne (fun hc => hj0j hc.symm)]
      have := hex1 j0 hj0
      exact this
  · -- nodups
    intro p hp
    have hlp : lookupKey (addJobReservation s.total s.timeline j t
        (t + jr.timelimit) jr.resources) p.1 = some p.2 :=
      lookupKey_eq_some_of_mem hsf (by simpa using hp)
    exact (sets_addJobReservation hstdl p.1 p.2 hlp).2.2.2 hnd
  · -- projection equation
    exact addJobReservation_resOK hs hres (boundaryClosed_of_exists hex) hj
      (countedAt_pending hpend) (countedAt_jobReserved jr t) rfl
      (hlen jr hjmem).1

/-! ## More invariant-preservation helpers -/

theorem resOK_congr {total : List Int} {jobs jobs' : List JobRec}
    {m : List (Int × TimelineData)} (hres : timelineResOK total jobs m)
    (hsum : ∀ t i, demSumAt jobs' t i = demSumAt jobs t i) :
    timelineResOK total jobs' m := by
  intro p hp
  obtain ⟨hl, he⟩ := hres p hp
  exact ⟨hl, fun i hi => by rw [hsum p.1 i]; exact he i hi⟩

theorem resOK_creditRange {total : List Int} {jobs jobs' : List JobRec}
    {m : List (Int × TimelineData)} {lo hi : Int} {dem : List Int}
    (hres : timelineResOK total jobs m)
    (hsum : ∀ t i, demSumAt jobs' t i =
      demSumAt jobs t i - (if lo ≤ t ∧ t < hi then compAt dem i else 0))
    (hlen : dem.length = total.length) :
    timelineResOK total jobs' (creditRange m lo hi dem) := by
  intro p hp
  unfold creditRange mapRange at hp
  rcases List.mem_map.mp hp with ⟨q, hq, hfq⟩
  obtain ⟨hlq, heq⟩ := hres q hq
  by_cases hr : lo ≤ q.1 ∧ q.1 < hi
  · rw [if_pos hr] at hfq
    rw [← hfq]
    dsimp only
    constructor
    · rw [rscAdd_length (by omega : q.2.resources.length = dem.length)]
      exact hlq
    · intro i hi2
      rw [compAt_rscAdd (by omega : q.2.resources.length = dem.length)
        (by omega), heq i hi2, hsum q.1 i, if_pos hr]
      ring
  · rw [if_neg hr] at hfq
    rw [← hfq]
    refine ⟨hlq, fun i hi2 => ?_⟩
    rw [heq i hi2, hsum q.1 i, if_neg hr]
    ring

/-! ## Invariant preservation: enqueue_job -/

theorem enqueueJob_inv1 {s s' : SysState} {tl : Int} {dem : List Int}
    {rt : Int} (hinv : Inv1 s)
    (h : enqueueJob s tl dem rt = EnqResult.ok s') : Inv1 s' := by
  obtain ⟨hs, hlen, hwf, hew, hex, hnd, hres⟩ := hinv
  unfold enqueueJob at h
  split at h
  case isFalse h1 => cases h
  case isTrue h1 =>
    split at h
    case isFalse h2 => cases h
    case isTrue h2 =>
      injection h with h
      subst h
      refine ⟨hs, ?_, ?_, ?_, ?_, hnd, ?_⟩
      · intro jr' hjr'
        rcases List.mem_append.mp hjr' with hmem | hmem
        · exact hlen jr' hmem
        · rw [List.mem_singleton] at hmem
          subst hmem
          exact ⟨h1.2, h1.1⟩
      · intro jr' hjr'
        rcases List.mem_append.mp hjr' with hmem | hmem
        · exact hwf jr' hmem
        · rw [List.mem_singleton] at hmem
          subst hmem
          trivial
      · -- eventsWF: references to old jobs unchanged
        intro p hp
        obtain ⟨hws, hwe, hwn⟩ := hew p hp
        refine ⟨?_, ?_, ?_⟩
        · intro x hx
          have := hws x hx
          cases hjx : s.jobs[x]? with
          | none => rw [hjx] at this; cases this
          | some jrx =>
            rw [hjx] at this
            have hxlt : x < s.jobs.length :=
              (List.getElem?_eq_some_iff.mp hjx).1
            rw [List.getElem?_append_left hxlt, hjx]
            exact this
        · intro x hx
          have := hwe x hx
          cases hjx : s.jobs[x]? with
          | none => rw [hjx] at this; cases this
          | some jrx =>
            rw [hjx] at this
            have hxlt : x < s.jobs.length :=
              (List.getElem?_eq_some_iff.mp hjx).1
            rw [List.getElem?_append_left hxlt, hjx]
            exact this
        · intro x hx
          have := hwn x hx
          cases hjx : s.jobs[x]? with
          | none => rw [hjx] at this; cases this
          | some jrx =>
            rw [hjx] at this
            have hxlt : x < s.jobs.length :=
              (List.getElem?_eq_some_iff.mp hjx).1
            rw [List.getElem?_append_left hxlt, hjx]
            exact this
      · -- eventsExist
        intro j0 hj0
        rw [List.length_append, List.length_singleton] at hj0
        by_cases hj0l : j0 < s.jobs.length
        · rw [List.getElem?_append_left hj0l]
          exact hex j0 hj0l
        · have hj0e : j0 = s.jobs.length := by omega
          subst hj0e
          rw [List.getElem?_append_right (le_refl _)]
          simp
      · -- projection: the new PENDING job is never charged
        refine resOK_congr hres ?_
        intro t i
        rw [demSumAt_append_one]
        have : countedAt
            { timelimit := tl, resources := dem, actualRuntime := rt,
              state := JState.pending } t = false := by
          apply countedAt_pending
          rfl
        rw [this]
        simp

theorem sorted_insertEndEvent {m : List (Int × TimelineData)}
    (hs : SortedKeys m) (total : List Int) (t : Int) (j : Nat) :
    SortedKeys (insertEndEvent total m t j) := by
  unfold insertEndEvent
  exact sortedKeys_insertSorted hs _ _

theorem j_end_insertEndEvent (total : List Int)
    (m : List (Int × TimelineData)) (t : Int) (j : Nat) :
    ∃ d, lookupKey (insertEndEvent total m t j) t = some d ∧ j ∈ d.end_ := by
  unfold insertEndEvent
  rw [lookupKey_insertSorted, if_pos rfl]
  refine ⟨_, rfl, ?_⟩
  dsimp only
  rw [mem_addElem]
  exact Or.inr rfl

/-! ## Invariant preservation: _start_job -/

theorem startJob_inv1 {s s' : SysState} {j : Nat}
    (hinv : Inv1 s) (h : startJob s j = some s') : Inv1 s' := by
  obtain ⟨jr, hj, hcase⟩ := startJob_elim h
  obtain ⟨hs, hlen, hwf, hew, hex, hnd, hres⟩ := hinv
  have hjlt : j < s.jobs.length := (List.getElem?_eq_some_iff.mp hj).1
  have hjmem : jr ∈ s.jobs := List.getElem?_mem hj
  have hwfj := hwf jr hjmem
  have htl : 0 < jr.timelimit := (hlen jr hjmem).2
  rcases hcase with ⟨hrsv, hstt, hjres, rfl⟩ | ⟨hpend, rfl⟩
  · -- RESERVED job: only the end event is inserted
    obtain ⟨st0, hst0, het0, hdl0⟩ := jobWF_reserved hwfj hrsv
    have hinj : st0 = s.curTime := by
      rw [hst0] at hstt
      injection hstt
    subst hinj
    have hsF : SortedKeys (insertEndEvent s.total s.timeline
        (s.curTime + jr.actualRuntime) j) := sorted_insertEndEvent hs _ _ _
    have hdemEq : ∀ t i,
        demSumAt (s.jobs.set j (jobStarted jr s.curTime)) t i =
          demSumAt s.jobs t i := by
      intro t i
      rw [demSumAt_set hj, countedAt_reserved_eq hrsv hst0 hdl0,
        countedAt_jobStarted]
      have hr : (jobStarted jr s.curTime).resources = jr.resources := rfl
      rw [hr]
      ring
    have hres2 : timelineResOK s.total
        (s.jobs.set j (jobStarted jr s.curTime)) s.timeline :=
      resOK_congr hres hdemEq
    have hbc2 : boundaryClosed (s.jobs.set j (jobStarted jr s.curTime))
        s.timeline := by
      intro jr' hjr'
      rcases List.mem_or_eq_of_mem_set hjr' with hmem | rfl
      · exact boundaryClosed_of_exists hex jr' hmem
      · have hexj := hex j hjlt
        rw [hj] at hexj
        have hiv : countedIv (jobStarted jr s.curTime) =
            some (s.curTime, s.curTime + jr.timelimit) := rfl
        rw [hiv]
        refine ⟨?_, ?_⟩
        · have h1 := hexj.1
          rw [hst0] at h1
          have h2 := h1 (Or.inl hrsv)
          cases hl : lookupKey s.timeline s.curTime with
          | none => rw [hl] at h2; cases h2
          | some d =>
            unfold keyMem
            rw [hl]
            rfl
        · have h1 := hexj.2.1
          rw [hdl0] at h1
          have h2 := h1 (Or.inl hrsv)
          cases hl : lookupKey s.timeline (s.curTime + jr.timelimit) with
          | none => rw [hl] at h2; cases h2
          | some d =>
            unfold keyMem
            rw [hl]
            rfl
    have hewF : eventsWF (s.jobs.set j (jobStarted jr s.curTime))
        (insertEndEvent s.total s.timeline (s.curTime + jr.actualRuntime)
          j) := by
      intro p hp
      have hlp : lookupKey (insertEndEvent s.total s.timeline
          (s.curTime + jr.actualRuntime) j) p.1 = some p.2 :=
        lookupKey_eq_some_of_mem hsF (by simpa using hp)
      have hspec := insertEndEvent_spec s.total s.timeline
        (s.curTime + jr.actualRuntime) j p.1
      rw [hlp] at hspec
      cases hl0 : lookupKey s.timeline p.1 with
      | some d =>
        rw [hl0] at hspec
        obtain ⟨hds, hdexp, hdend, _⟩ := hspec
        have hold := hew (p.1, d) (mem_of_lookupKey_eq_some hl0)
        refine ⟨?_, ?_, ?_⟩
        · intro x hx
          rw [hds] at hx
          have hofact := hold.1 x hx
          by_cases hxj : x = j
          · subst hxj
            rw [hj] at hofact
            rw [List.getElem?_set_eq hjlt]
            refine ⟨?_, Or.inr (Or.inl rfl)⟩
            show some s.curTime = some p.1
            rw [← hst0]
            exact hofact.1
          · rw [List.getElem?_set_ne (fun hc => hxj hc.symm)]
            exact hofact
        · intro x hx
          rw [hdexp] at hx
          have hofact := hold.2.1 x hx
          by_cases hxj : x = j
          · subst hxj
            rw [hj] at hofact
            rw [List.getElem?_set_eq hjlt]
            refine ⟨?_, Or.inr rfl⟩
            show some (s.curTime + jr.timelimit) = some p.1
            rw [← hdl0]
            exact hofact.1
          · rw [List.getElem?_set_ne (fun hc => hxj hc.symm)]
            exact hofact
        · intro x hx
          rw [hdend] at hx
          by_cases hpt : p.1 = s.curTime + jr.actualRuntime
          · rw [if_pos hpt] at hx
            rw [mem_addElem] at hx
            rcases hx with hx | rfl
            · have hofact := hold.2.2 x hx
              by_cases hxj : x = j
              · subst hxj
                rw [hj] at hofact
                dsimp only at hofact
                rw [het0] at hofact
                exact absurd hofact.1 (by simp)
              · rw [List.getElem?_set_ne (fun hc => hxj hc.symm)]
                exact hofact
            · rw [List.getElem?_set_eq hjlt]
              refine ⟨?_, Or.inl rfl⟩
              show some (s.curTime + jr.actualRuntime) = some p.1
              rw [hpt]
          · rw [if_neg hpt] at hx
            have hofact := hold.2.2 x hx
            by_cases hxj : x = j
            · subst hxj
              rw [hj] at hofact
              dsimp only at hofact
              rw [het0] at hofact
              exact absurd hofact.1 (by simp)
            · rw [List.getElem?_set_ne (fun hc => hxj hc.symm)]
              exact hofact
      | none =>
        rw [hl0] at hspec
        obtain ⟨hpt, hds, hdexp, hdend, _⟩ := hspec
        refine ⟨?_, ?_, ?_⟩
        · intro x hx
          rw [hds] at hx
          cases hx
        · intro x hx
          rw [hdexp] at hx
          cases hx
        · intro x hx
          rw [hdend] at hx
          rw [List.mem_singleton] at hx
          subst hx
          rw [List.getElem?_set_eq hjlt]
          refine ⟨?_, Or.inl rfl⟩
          show some (s.curTime + jr.actualRuntime) = some p.1
          rw [hpt]
    have hexF : eventsExist (s.jobs.set j (jobStarted jr s.curTime))
        (insertEndEvent s.total s.timeline (s.curTime + jr.actualRuntime)
          j) := by
      have hex1 : eventsExist s.jobs (insertEndEvent s.total s.timeline
          (s.curTime + jr.actualRuntime) j) :=
        eventsExist_mono hex (tlGrows_insertEndEvent s.total _ j)
      intro j0 hj0
      rw [List.length_set] at hj0
      by_cases hj0j : j0 = j
      · subst hj0j
        rw [List.getElem?_set_eq hjlt]
        have hexj := hex1 j0 hj0
        rw [hj] at hexj
        refine ⟨?_, ?_, ?_⟩
        · intro _
          have h1 := hexj.1
          rw [hst0] at h1
          exact h1 (Or.inl hrsv)
        · intro _
          have h1 := hexj.2.1
          rw [hdl0] at h1
          exact h1 (Or.inl hrsv)
        · intro _
          rcases j_end_insertEndEvent s.total s.timeline
              (s.curTime + jr.actualRuntime) j0 with ⟨d, hd, hmem⟩
          rw [hd]
          exact hmem
      · rw [List.getElem?_set_ne (fun hc => hj0j hc.symm)]
        exact hex1 j0 hj0
    have hndF : eventsNodup (insertEndEvent s.total s.timeline
        (s.curTime + jr.actualRuntime) j) := by
      intro p hp
      have hlp : lookupKey (insertEndEvent s.total s.timeline
          (s.curTime + jr.actualRuntime) j) p.1 = some p.2 :=
        lookupKey_eq_some_of_mem hsF (by simpa using hp)
      have hspec := insertEndEvent_spec s.total s.timeline
        (s.curTime + jr.actualRuntime) j p.1
      rw [hlp] at hspec
      cases hl0 : lookupKey s.timeline p.1 with
      | some d =>
        rw [hl0] at hspec
        obtain ⟨hds, hdexp, hdend, _⟩ := hspec
        obtain ⟨h1, h2, h3⟩ := hnd (p.1, d) (mem_of_lookupKey_eq_some hl0)
        rw [hds, hdexp, hdend]
        refine ⟨h1, ?_, h3⟩
        by_cases hpt : p.1 = s.curTime + jr.actualRuntime
        · rw [if_pos hpt]
          exact nodup_addElem h2 j
        · rw [if_neg hpt]
          exact h2
      | none =>
        rw [hl0] at hspec
        obtain ⟨hpt, hds, hdexp, hdend, _⟩ := hspec
        rw [hds, hdexp, hdend]
        exact ⟨List.nodup_nil, List.nodup_singleton j, List.nodup_nil⟩
    have hlenF : ∀ jr' ∈ s.jobs.set j (jobStarted jr s.curTime),
        jr'.resources.length = s.total.length ∧ 0 < jr'.timelimit := by
      intro jr' hjr'
      rcases List.mem_or_eq_of_mem_set hjr' with hmem | rfl
      · exact hlen jr' hmem
      · exact ⟨(hlen jr hjmem).1, htl⟩
    have hwfF : ∀ jr' ∈ s.jobs.set j (jobStarted jr s.curTime), JobWF jr' := by
      intro jr' hjr'
      rcases List.mem_or_eq_of_mem_set hjr' with hmem | rfl
      · exact hwf jr' hmem
      · show JobWF (jobStarted jr s.curTime)
        unfold JobWF jobStarted
        exact rfl
    exact ⟨hsF, hlenF, hwfF, hewF, hexF, hndF,
      resOK_put hs hres2 hbc2 (s.curTime + jr.actualRuntime) _ rfl⟩
  · -- PENDING job: full reservation plus the end event
    obtain ⟨hstn, hetn, hdln⟩ := jobWF_pending hwfj hpend
    have hstdl : s.curTime < s.curTime + jr.timelimit := by omega
    -- members of the old event sets are never the pending job j
    have hnotj : ∀ (k : Int) (d : TimelineData),
        lookupKey s.timeline k = some d →
        ∀ x, (x ∈ d.start ∨ x ∈ d.expired ∨ x ∈ d.end_) → x ≠ j := by
      intro k d hl x hx hxj
      subst hxj
      have hmem := mem_of_lookupKey_eq_some hl
      obtain ⟨hws, hwe, hwn⟩ := hew (k, d) hmem
      rcases hx with hx | hx | hx
      · have := hws x hx
        rw [hj] at this
        rcases this.2 with h1 | h1 | h1 <;> rw [hpend] at h1 <;> cases h1
      · have := hwe x hx
        rw [hj] at this
        rcases this.2 with h1 | h1 <;> rw [hpend] at h1 <;> cases h1
      · have := hwn x hx
        rw [hj] at this
        rcases this.2 with h1 | h1 <;> rw [hpend] at h1 <;> cases h1
    set mA := addJobReservation s.total s.timeline j s.curTime
      (s.curTime + jr.timelimit) jr.resources with hmAdef
    have hsA : SortedKeys mA :=
      sorted_addJobReservation hs s.total j s.curTime
        (s.curTime + jr.timelimit) jr.resources
    have hsF : SortedKeys (insertEndEvent s.total mA
        (s.curTime + jr.actualRuntime) j) := sorted_insertEndEvent hsA _ _ _
    have hresA : timelineResOK s.total
        (s.jobs.set j (jobStarted jr s.curTime)) mA :=
      addJobReservation_resOK hs hres (boundaryClosed_of_exists hex) hj
        (countedAt_pending hpend) (countedAt_jobStarted jr s.curTime) rfl
        (hlen jr hjmem).1
    have hbcA : boundaryClosed (s.jobs.set j (jobStarted jr s.curTime))
        mA := by
      intro jr' hjr'
      rcases List.mem_or_eq_of_mem_set hjr' with hmem | rfl
      · have hbcm : boundaryClosed s.jobs mA :=
          keyMem_mono (fun k hk =>
            (keyMem_addJobReservation s.total j s.curTime
              (s.curTime + jr.timelimit) jr.resources k).mpr
              (Or.inr (Or.inr hk)))
            (boundaryClosed_of_exists hex)
        exact hbcm jr' hmem
      · have hiv : countedIv (jobStarted jr s.curTime) =
            some (s.curTime, s.curTime + jr.timelimit) := rfl
        rw [hiv]
        exact ⟨(keyMem_addJobReservation s.total j s.curTime
            (s.curTime + jr.timelimit) jr.resources s.curTime).mpr
            (Or.inl rfl),
          (keyMem_addJobReservation s.total j s.curTime
            (s.curTime + jr.timelimit) jr.resources
            (s.curTime + jr.timelimit)).mpr (Or.inr (Or.inl rfl))⟩
    have hewF : eventsWF (s.jobs.set j (jobStarted jr s.curTime))
        (insertEndEvent s.total mA (s.curTime + jr.actualRuntime) j) := by
      intro p hp
      have hlp : lookupKey (insertEndEvent s.total mA
          (s.curTime + jr.actualRuntime) j) p.1 = some p.2 :=
        lookupKey_eq_some_of_mem hsF (by simpa using hp)
      have hspec := insertEndEvent_spec s.total mA
        (s.curTime + jr.actualRuntime) j p.1
      rw [hlp] at hspec
      cases hlA : lookupKey mA p.1 with
      | some dA =>
        rw [hlA] at hspec
        obtain ⟨hds, hdexp, hdend, _⟩ := hspec
        obtain ⟨hsetS, hsetE, hsetN, _⟩ :=
          sets_addJobReservation hstdl p.1 dA hlA
        refine ⟨?_, ?_, ?_⟩
        · intro x hx
          rw [hds] at hx
          rcases hsetS x hx with hxold | ⟨rfl, hpt⟩
          · unfold startSetAt at hxold
            cases hl0 : lookupKey s.timeline p.1 with
            | none => rw [hl0] at hxold; cases hxold
            | some dOld =>
              rw [hl0] at hxold
              simp only [Option.map_some', Option.getD_some] at hxold
              have hxne : x ≠ j := hnotj p.1 dOld hl0 x (Or.inl hxold)
              have := (hew (p.1, dOld) (mem_of_lookupKey_eq_some hl0)).1 x
                hxold
              rw [List.getElem?_set_ne (fun hc => hxne hc.symm)]
              exact this
          · rw [List.getElem?_set_eq hjlt]
            refine ⟨?_, Or.inr (Or.inl rfl)⟩
            show some s.curTime = some p.1
            rw [hpt]
        · intro x hx
          rw [hdexp] at hx
          rcases hsetE x hx with hxold | ⟨rfl, hpt⟩
          · unfold expiredSetAt at hxold
            cases hl0 : lookupKey s.timeline p.1 with
            | none => rw [hl0] at hxold; cases hxold
            | some dOld =>
              rw [hl0] at hxold
              simp only [Option.map_some', Option.getD_some] at hxold
              have hxne : x ≠ j := hnotj p.1 dOld hl0 x (Or.inr (Or.inl hxold))
              have := (hew (p.1, dOld) (mem_of_lookupKey_eq_some hl0)).2.1 x
                hxold
              rw [List.getElem?_set_ne (fun hc => hxne hc.symm)]
              exact this
          · rw [List.getElem?_set_eq hjlt]
            refine ⟨?_, Or.inr rfl⟩
            show some (s.curTime + jr.timelimit) = some p.1
            rw [hpt]
        · intro x hx
          rw [hdend] at hx
          have hfromA : ∀ x, x ∈ dA.end_ →
              match (s.jobs.set j (jobStarted jr s.curTime))[x]? with
              | some jrx => jrx.endTime = some p.1 ∧
                  (jrx.state = JState.started ∨ jrx.state = JState.finished)
              | none => False := by
            intro y hy
            have hyold := hsetN y hy
            unfold endSetAt at hyold
            cases hl0 : lookupKey s.timeline p.1 with
            | none => rw [hl0] at hyold; cases hyold
            | some dOld =>
              rw [hl0] at hyold
              simp only [Option.map_some', Option.getD_some] at hyold
              have hyne : y ≠ j := hnotj p.1 dOld hl0 y (Or.inr (Or.inr hyold))
              have := (hew (p.1, dOld) (mem_of_lookupKey_eq_some hl0)).2.2 y
                hyold
              rw [List.getElem?_set_ne (fun hc => hyne hc.symm)]
              exact this
          by_cases hpt : p.1 = s.curTime + jr.actualRuntime
          · rw [if_pos hpt] at hx
            rw [mem_addElem] at hx
            rcases hx with hx | rfl
            · exact hfromA x hx
            · rw [List.getElem?_set_eq hjlt]
              refine ⟨?_, Or.inl rfl⟩
              show some (s.curTime + jr.actualRuntime) = some p.1
              rw [hpt]
          · rw [if_neg hpt] at hx
            exact hfromA x hx
      | none =>
        rw [hlA] at hspec
        obtain ⟨hpt, hds, hdexp, hdend, _⟩ := hspec
        refine ⟨?_, ?_, ?_⟩
        · intro x hx
          rw [hds] at hx
          cases hx
        · intro x hx
          rw [hdexp] at hx
          cases hx
        · intro x hx
          rw [hdend] at hx
          rw [List.mem_singleton] at hx
          subst hx
          rw [List.getElem?_set_eq hjlt]
          refine ⟨?_, Or.inl rfl⟩
          show some (s.curTime + jr.actualRuntime) = some p.1
          rw [hpt]
    have hexF : eventsExist (s.jobs.set j (jobStarted jr s.curTime))
        (insertEndEvent s.total mA (s.curTime + jr.actualRuntime) j) := by
      have hex1 : eventsExist s.jobs
          (insertEndEvent s.total mA (s.curTime + jr.actualRuntime) j) :=
        eventsExist_mono hex
          (tlGrows_trans
            (tlGrows_addJobReservation s.total s.timeline j s.curTime
              (s.curTime + jr.timelimit) jr.resources)
            (tlGrows_insertEndEvent s.total _ j))
      intro j0 hj0
      rw [List.length_set] at hj0
      by_cases hj0j : j0 = j
      · subst hj0j
        rw [List.getElem?_set_eq hjlt]
        refine ⟨?_, ?_, ?_⟩
        · intro _
          rcases jx_start_addJobReservation (c := s.total)
              (m := s.timeline) (x := j0) (e := jr.resources) hstdl with
            ⟨d, hd, hmem⟩
          rcases tlGrows_insertEndEvent s.total
              (s.curTime + jr.actualRuntime) j0 s.curTime d hd with
            ⟨d2, hd2, ha, _, _⟩
          rw [hd2]
          exact ha j0 hmem
        · intro _
          rcases jx_expired_addJobReservation (c := s.total)
              (m := s.timeline) (x := j0) (e := jr.resources) hstdl with
            ⟨d, hd, hmem⟩
          rcases tlGrows_insertEndEvent s.total
              (s.curTime + jr.actualRuntime) j0 (s.curTime + jr.timelimit) d
              hd with ⟨d2, hd2, _, _, hc⟩
          rw [hd2]
          exact hc j0 hmem
        · intro _
          rcases j_end_insertEndEvent s.total mA
              (s.curTime + jr.actualRuntime) j0 with ⟨d, hd, hmem⟩
          rw [hd]
          exact hmem
      · rw [List.getElem?_set_ne (fun hc => hj0j hc.symm)]
        exact hex1 j0 hj0
    have hndF : eventsNodup (insertEndEvent s.total mA
        (s.curTime + jr.actualRuntime) j) := by
      intro p hp
      have hlp : lookupKey (insertEndEvent s.total mA
          (s.curTime + jr.actualRuntime) j) p.1 = some p.2 :=
        lookupKey_eq_some_of_mem hsF (by simpa using hp)
      have hspec := insertEndEvent_spec s.total mA
        (s.curTime + jr.actualRuntime) j p.1
      rw [hlp] at hspec
      cases hlA : lookupKey mA p.1 with
      | some dA =>
        rw [hlA] at hspec
        obtain ⟨hds, hdexp, hdend, _⟩ := hspec
        obtain ⟨h1, h2, h3⟩ :=
          (sets_addJobReservation hstdl p.1 dA hlA).2.2.2 hnd
        rw [hds, hdexp, hdend]
        refine ⟨h1, ?_, h3⟩
        by_cases hpt : p.1 = s.curTime + jr.actualRuntime
        · rw [if_pos hpt]
          exact nodup_addElem h2 j
        · rw [if_neg hpt]
          exact h2
      | none =>
        rw [hlA] at hspec
        obtain ⟨hpt, hds, hdexp, hdend, _⟩ := hspec
        rw [hds, hdexp, hdend]
        exact ⟨List.nodup_nil, List.nodup_singleton j, List.nodup_nil⟩
    have hlenF : ∀ jr' ∈ s.jobs.set j (jobStarted jr s.curTime),
        jr'.resources.length = s.total.length ∧ 0 < jr'.timelimit := by
      intro jr' hjr'
      rcases List.mem_or_eq_of_mem_set hjr' with hmem | rfl
      · exact hlen jr' hmem
      · exact ⟨(hlen jr hjmem).1, htl⟩
    have hwfF : ∀ jr' ∈ s.jobs.set j (jobStarted jr s.curTime), JobWF jr' := by
      intro jr' hjr'
      rcases List.mem_or_eq_of_mem_set hjr' with hmem | rfl
      · exact hwf jr' hmem
      · show JobWF (jobStarted jr s.curTime)
        unfold JobWF jobStarted
        exact rfl
    exact ⟨hsF, hlenF, hwfF, hewF, hexF, hndF,
      resOK_put hsA hresA hbcA (s.curTime + jr.actualRuntime) _ rfl⟩

/-! ## end_job_reservation and its pieces -/

theorem endJobReservation_elim {total : List Int}
    {m : List (Int × TimelineData)} {j : Nat} {et dl newEnd : Int}
    {dem : List Int} {m' : List (Int × TimelineData)}
    (h : endJobReservation total m j et dl newEnd dem = some m') :
    newEnd ≤ dl ∧ newEnd ≤ et ∧
    ∃ m1, ((newEnd < et ∧
        removeEndEvent (insertEndEvent total m newEnd j) et j = some m1) ∨
      (newEnd = et ∧ m1 = m)) ∧
      removeExpireEvent
        (if newEnd < dl then creditRange m1 newEnd dl dem else m1) dl j =
        some m' := by
  unfold endJobReservation at h
  split at h
  case isFalse h1 => cases h
  case isTrue h1 =>
    by_cases h2 : newEnd < et
    · rw [if_pos h2] at h
      cases hA : removeEndEvent (insertEndEvent total m newEnd j) et j with
      | none =>
        rw [hA] at h
        simp only [Option.bind_eq_bind, Option.none_bind] at h
        cases h
      | some m1 =>
        rw [hA] at h
        simp only [Option.bind_eq_bind, Option.some_bind] at h
        exact ⟨h1.1, h1.2, m1, Or.inl ⟨h2, rfl⟩, h⟩
    · rw [if_neg h2] at h
      simp only [Option.bind_eq_bind, Option.some_bind] at h
      exact ⟨h1.1, h1.2, m, Or.inr ⟨by omega, rfl⟩, h⟩

theorem mem_startSetAt {m : List (Int × TimelineData)} {k : Int} {x : Nat} :
    x ∈ startSetAt m k ↔ ∃ d, lookupKey m k = some d ∧ x ∈ d.start := by
  unfold startSetAt
  cases hl : lookupKey m k <;> simp

theorem mem_expiredSetAt {m : List (Int × TimelineData)} {k : Int}
    {x : Nat} :
    x ∈ expiredSetAt m k ↔ ∃ d, lookupKey m k = some d ∧ x ∈ d.expired := by
  unfold expiredSetAt
  cases hl : lookupKey m k <;> simp

theorem mem_endSetAt {m : List (Int × TimelineData)} {k : Int} {x : Nat} :
    x ∈ endSetAt m k ↔ ∃ d, lookupKey m k = some d ∧ x ∈ d.end_ := by
  unfold endSetAt
  cases hl : lookupKey m k <;> simp

theorem keepsExcept_trans {j : Nat} {m1 m2 m3 : List (Int × TimelineData)}
    (h1 : keepsExcept j m1 m2) (h2 : keepsExcept j m2 m3) :
    keepsExcept j m1 m3 := by
  intro k x
  refine ⟨fun hx => (h2 k x).1 ((h1 k x).1 hx),
    fun hne hx => (h2 k x).2.1 hne ((h1 k x).2.1 hne hx),
    fun hne hx => (h2 k x).2.2 hne ((h1 k x).2.2 hne hx)⟩

theorem keepsExcept_of_tlGrows {j : Nat} {m m' : List (Int × TimelineData)}
    (h : tlGrows m m') : keepsExcept j m m' := by
  intro k x
  refine ⟨fun hx => ?_, fun _ hx => ?_, fun _ hx => ?_⟩
  · rcases mem_startSetAt.mp hx with ⟨d, hl, hm⟩
    rcases h k d hl with ⟨d', hl', ha, _, _⟩
    exact mem_startSetAt.mpr ⟨d', hl', ha x hm⟩
  · rcases mem_expiredSetAt.mp hx with ⟨d, hl, hm⟩
    rcases h k d hl with ⟨d', hl', _, _, hc⟩
    exact mem_expiredSetAt.mpr ⟨d', hl', hc x hm⟩
  · rcases mem_endSetAt.mp hx with ⟨d, hl, hm⟩
    rcases h k d hl with ⟨d', hl', _, hb, _⟩
    exact mem_endSetAt.mpr ⟨d', hl', hb x hm⟩

theorem keepsExcept_removeEnd {m m' : List (Int × TimelineData)} {t : Int}
    {j : Nat} (hs : SortedKeys m) (h : removeEndEvent m t j = some m') :
    keepsExcept j m m' := by
  obtain ⟨hs', _, hspec⟩ := removeEndEvent_spec hs h
  intro k x
  have hk := hspec k
  refine ⟨fun hx => ?_, fun hne hx => ?_, fun hne hx => ?_⟩
  · rcases mem_startSetAt.mp hx with ⟨d, hl, hm⟩
    rw [hl] at hk
    cases hl' : lookupKey m' k with
    | none =>
      rw [hl'] at hk
      rw [hk.2.2.1] at hm
      cases hm
    | some d' =>
      rw [hl'] at hk
      exact mem_startSetAt.mpr ⟨d', hl', by rw [hk.2.1]; exact hm⟩
  · rcases mem_expiredSetAt.mp hx with ⟨d, hl, hm⟩
    rw [hl] at hk
    cases hl' : lookupKey m' k with
    | none =>
      rw [hl'] at hk
      rw [hk.2.2.2] at hm
      cases hm
    | some d' =>
      rw [hl'] at hk
      exact mem_expiredSetAt.mpr ⟨d', hl', by rw [hk.2.2.1]; exact hm⟩
  · rcases mem_endSetAt.mp hx with ⟨d, hl, hm⟩
    rw [hl] at hk
    cases hl' : lookupKey m' k with
    | none =>
      rw [hl'] at hk
      have : x ∈ d.end_.erase j := (List.mem_erase_of_ne hne).mpr hm
      rw [hk.2.1] at this
      cases this
    | some d' =>
      rw [hl'] at hk
      refine mem_endSetAt.mpr ⟨d', hl', ?_⟩
      rw [hk.1]
      by_cases hkt : k = t
      · rw [if_pos hkt]
        exact (List.mem_erase_of_ne hne).mpr hm
      · rw [if_neg hkt]
        exact hm

theorem keepsExcept_removeExpire {m m' : List (Int × TimelineData)}
    {t : Int} {j : Nat} (hs : SortedKeys m)
    (h : removeExpireEvent m t j = some m') : keepsExcept j m m' := by
  obtain ⟨hs', _, hspec⟩ := removeExpireEvent_spec hs h
  intro k x
  have hk := hspec k
  refine ⟨fun hx => ?_, fun hne hx => ?_, fun hne hx => ?_⟩
  · rcases mem_startSetAt.mp hx with ⟨d, hl, hm⟩
    rw [hl] at hk
    cases hl' : lookupKey m' k with
    | none =>
      rw [hl'] at hk
      rw [hk.2.2.2] at hm
      cases hm
    | some d' =>
      rw [hl'] at hk
      exact mem_startSetAt.mpr ⟨d', hl', by rw [hk.2.2.1]; exact hm⟩
  · rcases mem_expiredSetAt.mp hx with ⟨d, hl, hm⟩
    rw [hl] at hk
    cases hl' : lookupKey m' k with
    | none =>
      rw [hl'] at hk
      have : x ∈ d.expired.erase j := (List.mem_erase_of_ne hne).mpr hm
      rw [hk.2.1] at this
      cases this
    | some d' =>
      rw [hl'] at hk
      refine mem_expiredSetAt.mpr ⟨d', hl', ?_⟩
      rw [hk.1]
      by_cases hkt : k = t
      · rw [if_pos hkt]
        exact (List.mem_erase_of_ne hne).mpr hm
      · rw [if_neg hkt]
        exact hm
  · rcases mem_endSetAt.mp hx with ⟨d, hl, hm⟩
    rw [hl] at hk
    cases hl' : lookupKey m' k with
    | none =>
      rw [hl'] at hk
      rw [hk.2.2.1] at hm
      cases hm
    | some d' =>
      rw [hl'] at hk
      exact mem_endSetAt.mpr ⟨d', hl', by rw [hk.2.1]; exact hm⟩

theorem resOK_transfer {total : List Int} {jobs : List JobRec}
    {m m' : List (Int × TimelineData)} (hs' : SortedKeys m')
    (hres : timelineResOK total jobs m)
    (hproj : ∀ k d', lookupKey m' k = some d' →
      ∃ d, lookupKey m k = some d ∧ d'.resources = d.resources) :
    timelineResOK total jobs m' := by
  intro p hp
  have hlp : lookupKey m' p.1 = some p.2 :=
    lookupKey_eq_some_of_mem hs' (by simpa using hp)
  rcases hproj p.1 p.2 hlp with ⟨d, hld, hre⟩
  obtain ⟨hl, he⟩ := hres (p.1, d) (mem_of_lookupKey_eq_some hld)
  rw [hre]
  exact ⟨hl, he⟩

theorem nodup_insertEndEvent {m : List (Int × TimelineData)}
    (hs : SortedKeys m) (hnd : eventsNodup m) (total : List Int) (t : Int)
    (j : Nat) : eventsNodup (insertEndEvent total m t j) := by
  intro p hp
  have hsF := sorted_insertEndEvent hs total t j
  have hlp : lookupKey (insertEndEvent total m t j) p.1 = some p.2 :=
    lookupKey_eq_some_of_mem hsF (by simpa using hp)
  have hspec := insertEndEvent_spec total m t j p.1
  rw [hlp] at hspec
  cases hl0 : lookupKey m p.1 with
  | some d =>
    rw [hl0] at hspec
    obtain ⟨hds, hdexp, hdend, _⟩ := hspec
    obtain ⟨h1, h2, h3⟩ := hnd (p.1, d) (mem_of_lookupKey_eq_some hl0)
    rw [hds, hdexp, hdend]
    refine ⟨h1, ?_, h3⟩
    by_cases hpt : p.1 = t
    · rw [if_pos hpt]
      exact nodup_addElem h2 j
    · rw [if_neg hpt]
      exact h2
  | none =>
    rw [hl0] at hspec
    obtain ⟨hpt, hds, hdexp, hdend, _⟩ := hspec
    rw [hds, hdexp, hdend]
    exact ⟨List.nodup_nil, List.nodup_singleton j, List.nodup_nil⟩

theorem nodup_removeEndEvent {m m' : List (Int × TimelineData)} {t : Int}
    {j : Nat} (hs : SortedKeys m) (h : removeEndEvent m t j = some m')
    (hnd : eventsNodup m) : eventsNodup m' := by
  obtain ⟨hs', _, hspec⟩ := removeEndEvent_spec hs h
  intro p hp
  have hlp : lookupKey m' p.1 = some p.2 :=
    lookupKey_eq_some_of_mem hs' (by simpa using hp)
  have hk := hspec p.1
  rw [hlp] at hk
  cases hl0 : lookupKey m p.1 with
  | none => rw [hl0] at hk; cases hk
  | some d =>
    rw [hl0] at hk
    obtain ⟨hend, hstart, hexp, _⟩ := hk
    obtain ⟨h1, h2, h3⟩ := hnd (p.1, d) (mem_of_lookupKey_eq_some hl0)
    rw [hstart, hend, hexp]
    refine ⟨h1, ?_, h3⟩
    by_cases hpt : p.1 = t
    · rw [if_pos hpt]
      exact h2.erase j
    · rw [if_neg hpt]
      exact h2

theorem nodup_removeExpireEvent {m m' : List (Int × TimelineData)}
    {t : Int} {j : Nat} (hs : SortedKeys m)
    (h : removeExpireEvent m t j = some m') (hnd : eventsNodup m) :
    eventsNodup m' := by
  obtain ⟨hs', _, hspec⟩ := removeExpireEvent_spec hs h
  intro p hp
  have hlp : lookupKey m' p.1 = some p.2 :=
    lookupKey_eq_some_of_mem hs' (by simpa using hp)
  have hk := hspec p.1
  rw [hlp] at hk
  cases hl0 : lookupKey m p.1 with
  | none => rw [hl0] at hk; cases hk
  | some d =>
    rw [hl0] at hk
    obtain ⟨hexp, hend, hstart, _⟩ := hk
    obtain ⟨h1, h2, h3⟩ := hnd (p.1, d) (mem_of_lookupKey_eq_some hl0)
    rw [hstart, hend, hexp]
    refine ⟨h1, h2, ?_⟩
    by_cases hpt : p.1 = t
    · rw [if_pos hpt]
      exact h3.erase j
    · rw [if_neg hpt]
      exact h3

theorem nodup_creditRange {m : List (Int × TimelineData)}
    (hnd : eventsNodup m) (lo hi : Int) (dem : List Int) :
    eventsNodup (creditRange m lo hi dem) := by
  intro p hp
  unfold creditRange mapRange at hp
  rcases List.mem_map.mp hp with ⟨q, hq, hfq⟩
  obtain ⟨h1, h2, h3⟩ := hnd q hq
  by_cases hr : lo ≤ q.1 ∧ q.1 < hi
  · rw [if_pos hr] at hfq
    rw [← hfq]
    exact ⟨h1, h2, h3⟩
  · rw [if_neg hr] at hfq
    rw [← hfq]
    exact ⟨h1, h2, h3⟩

theorem sets_creditRange (m : List (Int × TimelineData)) (lo hi : Int)
    (dem : List Int) :
    ∀ k d2, lookupKey (creditRange m lo hi dem) k = some d2 →
      ∃ d1, lookupKey m k = some d1 ∧ d2.start = d1.start ∧
        d2.expired = d1.expired ∧ d2.end_ = d1.end_ := by
  intro k d2 hl
  unfold creditRange at hl
  rw [lookupKey_mapRange] at hl
  cases hl1 : lookupKey m k with
  | none => rw [hl1] at hl; cases hl
  | some d1 =>
    rw [hl1] at hl
    simp only [Option.map_some', Option.some.injEq] at hl
    by_cases hr : lo ≤ k ∧ k < hi
    · rw [if_pos hr] at hl
      rw [← hl]
      exact ⟨d1, rfl, rfl, rfl, rfl⟩
    · rw [if_neg hr] at hl
      rw [← hl]
      exact ⟨d1, rfl, rfl, rfl, rfl⟩

/-- Updating job `j` while transferring the events of all other jobs and
re-establishing the three boundary events of the updated record. -/
theorem eventsExist_set {jobs : List JobRec}
    {m m' : List (Int × TimelineData)} {j : Nat} {jrN : JobRec}
    (hex : eventsExist jobs m) (hkeep : keepsAllExcept j m m')
    (hjlt : j < jobs.length)
    (hstartN : ∀ st, jrN.startTime = some st →
      (jrN.state = JState.reserved ∨ jrN.state = JState.started ∨
        jrN.state = JState.finished) →
      ∃ d, lookupKey m' st = some d ∧ j ∈ d.start)
    (hexpN : ∀ dl, jrN.deadline = some dl →
      (jrN.state = JState.reserved ∨ jrN.state = JState.started) →
      ∃ d, lookupKey m' dl = some d ∧ j ∈ d.expired)
    (hendN : ∀ et, jrN.endTime = some et →
      (jrN.state = JState.started ∨ jrN.state = JState.finished) →
      ∃ d, lookupKey m' et = some d ∧ j ∈ d.end_) :
    eventsExist (jobs.set j jrN) m' := by
  intro j0 hj0
  rw [List.length_set] at hj0
  by_cases hj0j : j0 = j
  · subst hj0j
    rw [List.getElem?_set_eq hjlt]
    refine ⟨?_, ?_, ?_⟩
    · cases hst : jrN.startTime with
      | none => trivial
      | some st =>
        intro hstate
        rcases hstartN st hst hstate with ⟨d, hd, hm⟩
        rw [hd]
        exact hm
    · cases hdl : jrN.deadline with
      | none => trivial
      | some dl =>
        intro hstate
        rcases hexpN dl hdl hstate with ⟨d, hd, hm⟩
        rw [hd]
        exact hm
    · cases het : jrN.endTime with
      | none => trivial
      | some et =>
        intro hstate
        rcases hendN et het hstate with ⟨d, hd, hm⟩
        rw [hd]
        exact hm
  · rw [List.getElem?_set_ne (fun hc => hj0j hc.symm)]
    have h := hex j0 hj0
    cases hjr : jobs[j0]? with
    | none => trivial
    | some jrx =>
      rw [hjr] at h
      dsimp only at h
      refine ⟨?_, ?_, ?_⟩
      · cases hst : jrx.startTime with
        | none => trivial
        | some st =>
          rw [hst] at h
          intro hstate
          have h1 := h.1 hstate
          cases hl : lookupKey m st with
          | none => rw [hl] at h1; cases h1
          | some d =>
            rw [hl] at h1
            have hmem : j0 ∈ startSetAt m st :=
              mem_startSetAt.mpr ⟨d, hl, h1⟩
            have := (hkeep st j0 hj0j).1 hmem
            rcases mem_startSetAt.mp this with ⟨d', hd', hm'⟩
            rw [hd']
            exact hm'
      · cases hdl : jrx.deadline with
        | none => trivial
        | some dl =>
          rw [hdl] at h
          intro hstate
          have h1 := h.2.1 hstate
          cases hl : lookupKey m dl with
          | none => rw [hl] at h1; cases h1
          | some d =>
            rw [hl] at h1
            have hmem : j0 ∈ expiredSetAt m dl :=
              mem_expiredSetAt.mpr ⟨d, hl, h1⟩
            have := (hkeep dl j0 hj0j).2.1 hmem
            rcases mem_expiredSetAt.mp this with ⟨d', hd', hm'⟩
            rw [hd']
            exact hm'
      · cases het : jrx.endTime with
        | none => trivial
        | some et =>
          rw [het] at h
          intro hstate
          have h1 := h.2.2 hstate
          cases hl : lookupKey m et with
          | none => rw [hl] at h1; cases h1
          | some d =>
            rw [hl] at h1
            have hmem : j0 ∈ endSetAt m et :=
              mem_endSetAt.mpr ⟨d, hl, h1⟩
            have := (hkeep et j0 hj0j).2.2 hmem
            rcases mem_endSetAt.mp this with ⟨d', hd', hm'⟩
            rw [hd']
            exact hm'

/-! ## Invariant preservation: _end_job -/

theorem endJob_inv1 {s s' : SysState} {j : Nat}
    (hinv : Inv1 s) (h : endJob s j = some s') : Inv1 s' := by
  obtain ⟨jr, st, et, dl, tl', hj, hst, het, hdl, hstc, hsta, htl, rfl⟩ :=
    endJob_elim h
  obtain ⟨hs, hlen, hwf, hew, hex, hnd, hres⟩ := hinv
  have hjlt : j < s.jobs.length := (List.getElem?_eq_some_iff.mp hj).1
  have hjmem : jr ∈ s.jobs := List.getElem?_mem hj
  have hwfj := hwf jr hjmem
  obtain ⟨hcd, hce, m1, hm1case, hC⟩ := endJobReservation_elim htl
  -- the common facts about the intermediate timeline m1
  have hFpack : SortedKeys m1 ∧ timelineResOK s.total s.jobs m1 ∧
      eventsNodup m1 ∧ keepsExcept j s.timeline m1 ∧
      j ∈ endSetAt m1 s.curTime ∧
      (∀ k d1, lookupKey m1 k = some d1 →
        (∀ x ∈ d1.start, x ∈ startSetAt s.timeline k) ∧
        (∀ x ∈ d1.expired, x ∈ expiredSetAt s.timeline k) ∧
        (∀ x ∈ d1.end_,
          (x ∈ endSetAt s.timeline k ∧ ¬(x = j ∧ k = et)) ∨
          (x = j ∧ k = s.curTime))) := by
    rcases hm1case with ⟨hlt, hA⟩ | ⟨heq, rfl⟩
    · -- trimmed: insert the new end event at cur, remove the one at et
      have hsB : SortedKeys (insertEndEvent s.total s.timeline s.curTime j) :=
        sorted_insertEndEvent hs _ _ _
      have hndB : eventsNodup (insertEndEvent s.total s.timeline
          s.curTime j) := nodup_insertEndEvent hs hnd s.total s.curTime j
      obtain ⟨hsm1, _, hspecA⟩ := removeEndEvent_spec hsB hA
      refine ⟨hsm1, ?_, ?_, ?_, ?_, ?_⟩
      · -- resources preserved
        have hresB : timelineResOK s.total s.jobs
            (insertEndEvent s.total s.timeline s.curTime j) :=
          resOK_put hs hres (boundaryClosed_of_exists hex) s.curTime _ rfl
        refine resOK_transfer hsm1 hresB ?_
        intro k d' hl'
        have hk := hspecA k
        rw [hl'] at hk
        cases hlB : lookupKey (insertEndEvent s.total s.timeline
            s.curTime j) k with
        | none => rw [hlB] at hk; cases hk
        | some dB =>
          rw [hlB] at hk
          exact ⟨dB, rfl, hk.2.2.2⟩
      · exact nodup_removeEndEvent hsB hA hndB
      · exact keepsExcept_trans
          (keepsExcept_of_tlGrows (tlGrows_insertEndEvent s.total _ j))
          (keepsExcept_removeEnd hsB hA)
      · -- the fresh end event at cur survives the removal at et > cur
        rcases j_end_insertEndEvent s.total s.timeline s.curTime j with
          ⟨dB, hlB, hmB⟩
        have hk := hspecA s.curTime
        rw [hlB] at hk
        cases hl1 : lookupKey m1 s.curTime with
        | none =>
          rw [hl1] at hk
          exact absurd hk.1 (by omega)
        | some d1 =>
          rw [hl1] at hk
          refine mem_endSetAt.mpr ⟨d1, hl1, ?_⟩
          rw [hk.1, if_neg (by omega : ¬s.curTime = et)]
          exact hmB
      · -- event-set description of m1 relative to the original timeline
        intro k d1 hl1
        have hkA := hspecA k
        rw [hl1] at hkA
        cases hlB : lookupKey (insertEndEvent s.total s.timeline
            s.curTime j) k with
        | none => rw [hlB] at hkA; cases hkA
        | some dB =>
          rw [hlB] at hkA
          obtain ⟨hend1, hstart1, hexp1, _⟩ := hkA
          have hkB := insertEndEvent_spec s.total s.timeline s.curTime j k
          rw [hlB] at hkB
          cases hl0 : lookupKey s.timeline k with
          | some d0 =>
            rw [hl0] at hkB
            obtain ⟨hBs, hBexp, hBend, _⟩ := hkB
            refine ⟨?_, ?_, ?_⟩
            · intro x hx
              rw [hstart1, hBs] at hx
              exact mem_startSetAt.mpr ⟨d0, hl0, hx⟩
            · intro x hx
              rw [hexp1, hBexp] at hx
              exact mem_expiredSetAt.mpr ⟨d0, hl0, hx⟩
            · intro x hx
              rw [hend1] at hx
              by_cases hket : k = et
              · rw [if_pos hket] at hx
                have hndB2 : dB.end_.Nodup :=
                  (hndB (k, dB) (mem_of_lookupKey_eq_some hlB)).2.1
                obtain ⟨hxne, hxB⟩ := (List.Nodup.mem_erase_iff hndB2).mp hx
                rw [hBend, if_neg (by omega : ¬k = s.curTime)] at hxB
                exact Or.inl ⟨mem_endSetAt.mpr ⟨d0, hl0, hxB⟩,
                  fun hc => hxne hc.1⟩
              · rw [if_neg hket, hBend] at hx
                by_cases hkc : k = s.curTime
                · rw [if_pos hkc] at hx
                  rw [mem_addElem] at hx
                  rcases hx with hx | rfl
                  · exact Or.inl ⟨mem_endSetAt.mpr ⟨d0, hl0, hx⟩,
                      fun hc => hket hc.2⟩
                  · exact Or.inr ⟨rfl, hkc⟩
                · rw [if_neg hkc] at hx
                  exact Or.inl ⟨mem_endSetAt.mpr ⟨d0, hl0, hx⟩,
                    fun hc => hket hc.2⟩
          | none =>
            rw [hl0] at hkB
            obtain ⟨hkc, hBs, hBexp, hBend, _⟩ := hkB
            refine ⟨?_, ?_, ?_⟩
            · intro x hx
              rw [hstart1, hBs] at hx
              cases hx
            · intro x hx
              rw [hexp1, hBexp] at hx
              cases hx
            · intro x hx
              rw [hend1] at hx
              by_cases hket : k = et
              · exact absurd hkc (by omega)
              · rw [if_neg hket, hBend] at hx
                rw [List.mem_singleton] at hx
                subst hx
                exact Or.inr ⟨rfl, hkc⟩
    · -- untrimmed: cur = et, the timeline is untouched so far
      refine ⟨hs, hres, hnd, keepsExcept_of_tlGrows (tlGrows_refl _), ?_, ?_⟩
      · have hexj := hex j hjlt
        rw [hj] at hexj
        have h1 := hexj.2.2
        rw [het] at h1
        have h2 := h1 (Or.inl hsta)
        cases hl : lookupKey s.timeline et with
        | none => rw [hl] at h2; cases h2
        | some d =>
          rw [hl] at h2
          rw [heq]
          exact mem_endSetAt.mpr ⟨d, hl, h2⟩
      · intro k d1 hl1
        refine ⟨fun x hx => mem_startSetAt.mpr ⟨d1, hl1, hx⟩,
          fun x hx => mem_expiredSetAt.mpr ⟨d1, hl1, hx⟩, ?_⟩
        intro x hx
        by_cases hxc : x = j ∧ k = et
        · exact Or.inr ⟨hxc.1, by omega⟩
        · exact Or.inl ⟨mem_endSetAt.mpr ⟨d1, hl1, hx⟩, hxc⟩
  obtain ⟨hsm1, hres1, hnd1, hkeep1, hjend1, hdesc1⟩ := hFpack
  -- the demand shift caused by trimming [cur, dl) off the reservation
  have hsum : ∀ u i, demSumAt (s.jobs.set j (jobEnded jr s.curTime)) u i =
      demSumAt s.jobs u i -
        (if s.curTime ≤ u ∧ u < dl then compAt jr.resources i else 0) := by
    intro u i
    rw [demSumAt_set hj, countedAt_started_eq hsta hst hdl,
      countedAt_jobEnded hst]
    have hr : (jobEnded jr s.curTime).resources = jr.resources := rfl
    rw [hr]
    simp only [decide_eq_true_eq]
    split_ifs <;> omega
  -- the credited timeline m2
  obtain ⟨m2, hCm2, hsm2, hres2, hnd2, hkeep2, hjend2, hdesc2⟩ :
      ∃ m2, removeExpireEvent m2 dl j = some tl' ∧ SortedKeys m2 ∧
        timelineResOK s.total (s.jobs.set j (jobEnded jr s.curTime)) m2 ∧
        eventsNodup m2 ∧ keepsExcept j s.timeline m2 ∧
        j ∈ endSetAt m2 s.curTime ∧
        (∀ k d2, lookupKey m2 k = some d2 →
          (∀ x ∈ d2.start, x ∈ startSetAt s.timeline k) ∧
          (∀ x ∈ d2.expired, x ∈ expiredSetAt s.timeline k) ∧
          (∀ x ∈ d2.end_,
            (x ∈ endSetAt s.timeline k ∧ ¬(x = j ∧ k = et)) ∨
            (x = j ∧ k = s.curTime))) := by
    by_cases hBlt : s.curTime < dl
    · rw [if_pos hBlt] at hC
      refine ⟨creditRange m1 s.curTime dl jr.resources, hC, ?_, ?_, ?_, ?_,
        ?_, ?_⟩
      · unfold creditRange
        exact sortedKeys_mapRange hsm1 _ _ _
      · exact resOK_creditRange hres1 hsum (hlen jr hjmem).1
      · exact nodup_creditRange hnd1 _ _ _
      · exact keepsExcept_trans hkeep1 (keepsExcept_of_tlGrows
          (tlGrows_mapRange m1 s.curTime dl (fun v => rscAdd v jr.resources)))
      · rcases mem_endSetAt.mp hjend1 with ⟨d1, hl1, hm1⟩
        rcases tlGrows_mapRange m1 s.curTime dl
            (fun v => rscAdd v jr.resources) s.curTime d1 hl1 with
          ⟨d2, hl2, _, hb, _⟩
        exact mem_endSetAt.mpr ⟨d2, hl2, hb j hm1⟩
      · intro k d2 hl2
        rcases sets_creditRange m1 s.curTime dl jr.resources k d2 hl2 with
          ⟨d1, hl1, hset1, hset2, hset3⟩
        obtain ⟨q1, q2, q3⟩ := hdesc1 k d1 hl1
        refine ⟨?_, ?_, ?_⟩
        · intro x hx
          rw [hset1] at hx
          exact q1 x hx
        · intro x hx
          rw [hset2] at hx
          exact q2 x hx
        · intro x hx
          rw [hset3] at hx
          exact q3 x hx
    · rw [if_neg hBlt] at hC
      have hdemEq2 : ∀ u i,
          demSumAt (s.jobs.set j (jobEnded jr s.curTime)) u i =
            demSumAt s.jobs u i := by
        intro u i
        have h2 := hsum u i
        rw [if_neg (by omega)] at h2
        simpa using h2
      exact ⟨m1, hC, hsm1, resOK_congr hres1 hdemEq2, hnd1, hkeep1, hjend1,
        hdesc1⟩
  -- the final removal of the expire event at dl
  obtain ⟨hstl', _, hspecC⟩ := removeExpireEvent_spec hsm2 hCm2
  have hkeepF : keepsExcept j s.timeline tl' :=
    keepsExcept_trans hkeep2 (keepsExcept_removeExpire hsm2 hCm2)
  have hewF : eventsWF (s.jobs.set j (jobEnded jr s.curTime)) tl' := by
    intro p hp
    have hlp : lookupKey tl' p.1 = some p.2 :=
      lookupKey_eq_some_of_mem hstl' (by simpa using hp)
    have hkC := hspecC p.1
    rw [hlp] at hkC
    cases hl2 : lookupKey m2 p.1 with
    | none => rw [hl2] at hkC; cases hkC
    | some d2 =>
      rw [hl2] at hkC
      obtain ⟨hCexp, hCend, hCstart, _⟩ := hkC
      obtain ⟨q1, q2, q3⟩ := hdesc2 p.1 d2 hl2
      refine ⟨?_, ?_, ?_⟩
      · intro x hx
        rw [hCstart] at hx
        rcases mem_startSetAt.mp (q1 x hx) with ⟨d0, hl0, hm0⟩
        have hofact := (hew (p.1, d0) (mem_of_lookupKey_eq_some hl0)).1 x hm0
        by_cases hxj : x = j
        · subst hxj
          rw [hj] at hofact
          dsimp only at hofact
          rw [List.getElem?_set_eq hjlt]
          refine ⟨?_, Or.inr (Or.inr rfl)⟩
          show jr.startTime = some p.1
          exact hofact.1
        · rw [List.getElem?_set_ne (fun hc => hxj hc.symm)]
          exact hofact
      · intro x hx
        rw [hCexp] at hx
        have hxmem : x ∈ d2.expired ∧ ¬(x = j ∧ p.1 = dl) := by
          by_cases hpt : p.1 = dl
          · rw [if_pos hpt] at hx
            have hnd2e : d2.expired.Nodup :=
              (hnd2 (p.1, d2) (mem_of_lookupKey_eq_some hl2)).2.2
            obtain ⟨hxne, hxi⟩ := (List.Nodup.mem_erase_iff hnd2e).mp hx
            exact ⟨hxi, fun hc => hxne hc.1⟩
          · rw [if_neg hpt] at hx
            exact ⟨hx, fun hc => hpt hc.2⟩
        rcases mem_expiredSetAt.mp (q2 x hxmem.1) with ⟨d0, hl0, hm0⟩
        have hofact := (hew (p.1, d0) (mem_of_lookupKey_eq_some hl0)).2.1 x hm0
        by_cases hxj : x = j
        · subst hxj
          rw [hj] at hofact
          dsimp only at hofact
          exfalso
          apply hxmem.2
          refine ⟨rfl, ?_⟩
          have h2 := hofact.1
          rw [hdl] at h2
          injection h2 with hinj
          omega
        · rw [List.getElem?_set_ne (fun hc => hxj hc.symm)]
          exact hofact
      · intro x hx
        rw [hCend] at hx
        rcases q3 x hx with ⟨hxm, hnotet⟩ | ⟨rfl, hpc⟩
        · rcases mem_endSetAt.mp hxm with ⟨d0, hl0, hm0⟩
          have hofact := (hew (p.1, d0)
            (mem_of_lookupKey_eq_some hl0)).2.2 x hm0
          by_cases hxj : x = j
          · subst hxj
            rw [hj] at hofact
            dsimp only at hofact
            exfalso
            apply hnotet
            refine ⟨rfl, ?_⟩
            have h2 := hofact.1
            rw [het] at h2
            injection h2 with hinj
            omega
          · rw [List.getElem?_set_ne (fun hc => hxj hc.symm)]
            exact hofact
        · rw [List.getElem?_set_eq hjlt]
          refine ⟨?_, Or.inr rfl⟩
          show some s.curTime = some p.1
          rw [hpc]
  have hkeepAllF : keepsAllExcept j s.timeline tl' := fun k x hne =>
    ⟨(hkeepF k x).1, (hkeepF k x).2.1 hne, (hkeepF k x).2.2 hne⟩
  have hexF : eventsExist (s.jobs.set j (jobEnded jr s.curTime)) tl' := by
    refine eventsExist_set hex hkeepAllF hjlt ?_ ?_ ?_
    · intro st2 hst2 _
      have h2 : jr.startTime = some st2 := hst2
      rw [hst] at h2
      injection h2 with hinj
      subst hinj
      have hexj := hex j hjlt
      rw [hj] at hexj
      have h1 := hexj.1
      rw [hst] at h1
      have h2 := h1 (Or.inr (Or.inl hsta))
      cases hl : lookupKey s.timeline st with
      | none => rw [hl] at h2; cases h2
      | some d =>
        rw [hl] at h2
        have hmm := (hkeepF st j).1 (mem_startSetAt.mpr ⟨d, hl, h2⟩)
        exact mem_startSetAt.mp hmm
    · intro dl2 hdl2 hstate
      exfalso
      rcases hstate with hc | hc <;> simp [jobEnded] at hc
    · intro et2 het2 _
      have h2 : some s.curTime = some et2 := het2
      injection h2 with hinj
      subst hinj
      have hjF : j ∈ endSetAt tl' s.curTime := by
        rcases mem_endSetAt.mp hjend2 with ⟨d2, hl2, hm2⟩
        have hkC := hspecC s.curTime
        rw [hl2] at hkC
        cases hlF : lookupKey tl' s.curTime with
        | none =>
          rw [hlF] at hkC
          rw [hkC.2.2.1] at hm2
          cases hm2
        | some dF =>
          rw [hlF] at hkC
          refine mem_endSetAt.mpr ⟨dF, hlF, ?_⟩
          rw [hkC.2.1]
          exact hm2
      exact mem_endSetAt.mp hjF
  have hresF : timelineResOK s.total
      (s.jobs.set j (jobEnded jr s.curTime)) tl' := by
    refine resOK_transfer hstl' hres2 ?_
    intro k d' hl'
    have hkC := hspecC k
    rw [hl'] at hkC
    cases hl2 : lookupKey m2 k with
    | none => rw [hl2] at hkC; cases hkC
    | some d2 =>
      rw [hl2] at hkC
      exact ⟨d2, rfl, hkC.2.2.2⟩
  have hlenF : ∀ jr' ∈ s.jobs.set j (jobEnded jr s.curTime),
      jr'.resources.length = s.total.length ∧ 0 < jr'.timelimit := by
    intro jr' hjr'
    rcases List.mem_or_eq_of_mem_set hjr' with hmem | rfl
    · exact hlen jr' hmem
    · exact ⟨(hlen jr hjmem).1, (hlen jr hjmem).2⟩
  have hwfF : ∀ jr' ∈ s.jobs.set j (jobEnded jr s.curTime), JobWF jr' := by
    intro jr' hjr'
    rcases List.mem_or_eq_of_mem_set hjr' with hmem | rfl
    · exact hwf jr' hmem
    · show JobWF (jobEnded jr s.curTime)
      unfold JobWF jobEnded
      dsimp only
      rw [hst, hdl]
      trivial
  exact ⟨hstl', hlenF, hwfF, hewF, hexF,
    nodup_removeExpireEvent hsm2 hCm2 hnd2, hresF⟩

/-! ## Invariant preservation: unreserve -/

theorem keepsAllExcept_trans {j : Nat}
    {m1 m2 m3 : List (Int × TimelineData)} (h1 : keepsAllExcept j m1 m2)
    (h2 : keepsAllExcept j m2 m3) : keepsAllExcept j m1 m3 := by
  intro k x hne
  exact ⟨fun hx => (h2 k x hne).1 ((h1 k x hne).1 hx),
    fun hx => (h2 k x hne).2.1 ((h1 k x hne).2.1 hx),
    fun hx => (h2 k x hne).2.2 ((h1 k x hne).2.2 hx)⟩

theorem keepsAllExcept_of_keepsExcept {j : Nat}
    {m m' : List (Int × TimelineData)} (h : keepsExcept j m m') :
    keepsAllExcept j m m' := fun k x hne =>
  ⟨(h k x).1, (h k x).2.1 hne, (h k x).2.2 hne⟩

theorem keepsAllExcept_of_tlGrows {j : Nat}
    {m m' : List (Int × TimelineData)} (h : tlGrows m m') :
    keepsAllExcept j m m' :=
  keepsAllExcept_of_keepsExcept (keepsExcept_of_tlGrows h)

theorem keepsAllExcept_removeStart {m m' : List (Int × TimelineData)}
    {t : Int} {j : Nat} (hs : SortedKeys m)
    (h : removeStartEvent m t j = some m') : keepsAllExcept j m m' := by
  obtain ⟨hs', _, hspec⟩ := removeStartEvent_spec hs h
  intro k x hne
  have hk := hspec k
  refine ⟨fun hx => ?_, fun hx => ?_, fun hx => ?_⟩
  · rcases mem_startSetAt.mp hx with ⟨d, hl, hm⟩
    rw [hl] at hk
    cases hl' : lookupKey m' k with
    | none =>
      rw [hl'] at hk
      have h2 : x ∈ d.start.erase j := (List.mem_erase_of_ne hne).mpr hm
      rw [hk.2.1] at h2
      cases h2
    | some d' =>
      rw [hl'] at hk
      refine mem_startSetAt.mpr ⟨d', hl', ?_⟩
      rw [hk.1]
      by_cases hkt : k = t
      · rw [if_pos hkt]
        exact (List.mem_erase_of_ne hne).mpr hm
      · rw [if_neg hkt]
        exact hm
  · rcases mem_expiredSetAt.mp hx with ⟨d, hl, hm⟩
    rw [hl] at hk
    cases hl' : lookupKey m' k with
    | none =>
      rw [hl'] at hk
      rw [hk.2.2.2] at hm
      cases hm
    | some d' =>
      rw [hl'] at hk
      exact mem_expiredSetAt.mpr ⟨d', hl', by rw [hk.2.2.1]; exact hm⟩
  · rcases mem_endSetAt.mp hx with ⟨d, hl, hm⟩
    rw [hl] at hk
    cases hl' : lookupKey m' k with
    | none =>
      rw [hl'] at hk
      rw [hk.2.2.1] at hm
      cases hm
    | some d' =>
      rw [hl'] at hk
      exact mem_endSetAt.mpr ⟨d', hl', by rw [hk.2.1]; exact hm⟩

theorem nodup_removeStartEvent {m m' : List (Int × TimelineData)} {t : Int}
    {j : Nat} (hs : SortedKeys m) (h : removeStartEvent m t j = some m')
    (hnd : eventsNodup m) : eventsNodup m' := by
  obtain ⟨hs', _, hspec⟩ := removeStartEvent_spec hs h
  intro p hp
  have hlp : lookupKey m' p.1 = some p.2 :=
    lookupKey_eq_some_of_mem hs' (by simpa using hp)
  have hk := hspec p.1
  rw [hlp] at hk
  cases hl0 : lookupKey m p.1 with
  | none => rw [hl0] at hk; cases hk
  | some d =>
    rw [hl0] at hk
    obtain ⟨hstart, hend, hexp, _⟩ := hk
    obtain ⟨h1, h2, h3⟩ := hnd (p.1, d) (mem_of_lookupKey_eq_some hl0)
    rw [hstart, hend, hexp]
    refine ⟨?_, h2, h3⟩
    by_cases hpt : p.1 = t
    · rw [if_pos hpt]
      exact h1.erase j
    · rw [if_neg hpt]
      exact h1

theorem removeJobReservation_elim {m : List (Int × TimelineData)} {j : Nat}
    {st dl : Int} {dem : List Int} {tl' : List (Int × TimelineData)}
    (h : removeJobReservation m j st dl dem = some tl') :
    ∃ m1 m2, removeStartEvent m st j = some m1 ∧
      removeExpireEvent m1 dl j = some m2 ∧
      tl' = creditRange m2 st dl dem := by
  unfold removeJobReservation at h
  cases h1 : removeStartEvent m st j with
  | none =>
    rw [h1] at h
    simp only [Option.bind_eq_bind, Option.none_bind] at h
    cases h
  | some m1 =>
    rw [h1] at h
    simp only [Option.bind_eq_bind, Option.some_bind] at h
    cases h2 : removeExpireEvent m1 dl j with
    | none =>
      rw [h2] at h
      simp only [Option.none_bind] at h
      cases h
    | some m2 =>
      rw [h2] at h
      simp only [Option.some_bind, Option.some.injEq] at h
      exact ⟨m1, m2, rfl, h2, h.symm⟩

theorem unreserveOne_inv1 {s s' : SysState} {j : Nat}
    (hinv : Inv1 s) (h : unreserveOne s j = some s') : Inv1 s' := by
  obtain ⟨jr, st, dl, tl', hj, hst, hdl, hrsv, htl, rfl⟩ :=
    unreserveOne_elim h
  obtain ⟨hs, hlen, hwf, hew, hex, hnd, hres⟩ := hinv
  have hjlt : j < s.jobs.length := (List.getElem?_eq_some_iff.mp hj).1
  have hjmem : jr ∈ s.jobs := List.getElem?_mem hj
  obtain ⟨st2, hst2, hetn, hdl2⟩ := jobWF_reserved (hwf jr hjmem) hrsv
  obtain ⟨m1, m2, hrmS, hrmE, rfl⟩ := removeJobReservation_elim htl
  obtain ⟨hsm1, _, hspecS⟩ := removeStartEvent_spec hs hrmS
  obtain ⟨hsm2, _, hspecE⟩ := removeExpireEvent_spec hsm1 hrmE
  have hnd1 : eventsNodup m1 := nodup_removeStartEvent hs hrmS hnd
  have hnd2 : eventsNodup m2 := nodup_removeExpireEvent hsm1 hrmE hnd1
  have hstl' : SortedKeys (creditRange m2 st dl jr.resources) := by
    unfold creditRange
    exact sortedKeys_mapRange hsm2 _ _ _
  have hsum : ∀ u i, demSumAt (s.jobs.set j (jobUnreserved jr)) u i =
      demSumAt s.jobs u i -
        (if st ≤ u ∧ u < dl then compAt jr.resources i else 0) := by
    intro u i
    rw [demSumAt_set hj, countedAt_reserved_eq hrsv hst hdl,
      countedAt_jobUnreserved]
    simp only [decide_eq_true_eq, Bool.false_eq_true, if_false]
    split_ifs <;> omega
  have hres1 : timelineResOK s.total s.jobs m1 := by
    refine resOK_transfer hsm1 hres ?_
    intro k d' hl'
    have hk := hspecS k
    rw [hl'] at hk
    cases hl0 : lookupKey s.timeline k with
    | none => rw [hl0] at hk; cases hk
    | some d0 =>
      rw [hl0] at hk
      exact ⟨d0, rfl, hk.2.2.2⟩
  have hres2 : timelineResOK s.total s.jobs m2 := by
    refine resOK_transfer hsm2 hres1 ?_
    intro k d' hl'
    have hk := hspecE k
    rw [hl'] at hk
    cases hl0 : lookupKey m1 k with
    | none => rw [hl0] at hk; cases hk
    | some d0 =>
      rw [hl0] at hk
      exact ⟨d0, rfl, hk.2.2.2⟩
  have hresF := resOK_creditRange hres2 hsum (hlen jr hjmem).1
  have hdescF : ∀ k d',
      lookupKey (creditRange m2 st dl jr.resources) k = some d' →
      (∀ x ∈ d'.start, x ∈ startSetAt s.timeline k ∧ ¬(x = j ∧ k = st)) ∧
      (∀ x ∈ d'.expired,
        x ∈ expiredSetAt s.timeline k ∧ ¬(x = j ∧ k = dl)) ∧
      (∀ x ∈ d'.end_, x ∈ endSetAt s.timeline k) := by
    intro k d' hl'
    rcases sets_creditRange m2 st dl jr.resources k d' hl' with
      ⟨d2, hl2, hc1, hc2, hc3⟩
    have hkE := hspecE k
    rw [hl2] at hkE
    cases hl1 : lookupKey m1 k with
    | none => rw [hl1] at hkE; cases hkE
    | some d1 =>
      rw [hl1] at hkE
      obtain ⟨hEexp, hEend, hEstart, _⟩ := hkE
      have hkS := hspecS k
      rw [hl1] at hkS
      cases hl0 : lookupKey s.timeline k with
      | none => rw [hl0] at hkS; cases hkS
      | some d0 =>
        rw [hl0] at hkS
        obtain ⟨hSstart, hSend, hSexp, _⟩ := hkS
        refine ⟨?_, ?_, ?_⟩
        · intro x hx
          rw [hc1, hEstart, hSstart] at hx
          by_cases hkt : k = st
          · rw [if_pos hkt] at hx
            have hnd0 : d0.start.Nodup :=
              (hnd (k, d0) (mem_of_lookupKey_eq_some hl0)).1
            obtain ⟨hxne, hxi⟩ := (List.Nodup.mem_erase_iff hnd0).mp hx
            exact ⟨mem_startSetAt.mpr ⟨d0, hl0, hxi⟩, fun hc => hxne hc.1⟩
          · rw [if_neg hkt] at hx
            exact ⟨mem_startSetAt.mpr ⟨d0, hl0, hx⟩, fun hc => hkt hc.2⟩
        · intro x hx
          rw [hc2, hEexp] at hx
          by_cases hkt : k = dl
          · rw [if_pos hkt] at hx
            have hnd1e : d1.expired.Nodup :=
              (hnd1 (k, d1) (mem_of_lookupKey_eq_some hl1)).2.2
            obtain ⟨hxne, hxi⟩ := (List.Nodup.mem_erase_iff hnd1e).mp hx
            rw [hSexp] at hxi
            exact ⟨mem_expiredSetAt.mpr ⟨d0, hl0, hxi⟩, fun hc => hxne hc.1⟩
          · rw [if_neg hkt] at hx
            rw [hSexp] at hx
            exact ⟨mem_expiredSetAt.mpr ⟨d0, hl0, hx⟩, fun hc => hkt hc.2⟩
        · intro x hx
          rw [hc3, hEend, hSend] at hx
          exact mem_endSetAt.mpr ⟨d0, hl0, hx⟩
  have hewF : eventsWF (s.jobs.set j (jobUnreserved jr))
      (creditRange m2 st dl jr.resources) := by
    intro p hp
    have hlp : lookupKey (creditRange m2 st dl jr.resources) p.1 =
        some p.2 := lookupKey_eq_some_of_mem hstl' (by simpa using hp)
    obtain ⟨q1, q2, q3⟩ := hdescF p.1 p.2 hlp
    refine ⟨?_, ?_, ?_⟩
    · intro x hx
      obtain ⟨hxm, hnotst⟩ := q1 x hx
      rcases mem_startSetAt.mp hxm with ⟨d0, hl0, hm0⟩
      have hofact := (hew (p.1, d0) (mem_of_lookupKey_eq_some hl0)).1 x hm0
      by_cases hxj : x = j
      · subst hxj
        rw [hj] at hofact
        dsimp only at hofact
        exfalso
        apply hnotst
        refine ⟨rfl, ?_⟩
        have h2 := hofact.1
        rw [hst] at h2
        injection h2 with hinj
        omega
      · rw [List.getElem?_set_ne (fun hc => hxj hc.symm)]
        exact hofact
    · intro x hx
      obtain ⟨hxm, hnotdl⟩ := q2 x hx
      rcases mem_expiredSetAt.mp hxm with ⟨d0, hl0, hm0⟩
      have hofact := (hew (p.1, d0) (mem_of_lookupKey_eq_some hl0)).2.1 x hm0
      by_cases hxj : x = j
      · subst hxj
        rw [hj] at hofact
        dsimp only at hofact
        exfalso
        apply hnotdl
        refine ⟨rfl, ?_⟩
        have h2 := hofact.1
        rw [hdl] at h2
        injection h2 with hinj
        omega
      · rw [List.getElem?_set_ne (fun hc => hxj hc.symm)]
        exact hofact
    · intro x hx
      rcases mem_endSetAt.mp (q3 x hx) with ⟨d0, hl0, hm0⟩
      have hofact := (hew (p.1, d0) (mem_of_lookupKey_eq_some hl0)).2.2 x hm0
      by_cases hxj : x = j
      · subst hxj
        rw [hj] at hofact
        dsimp only at hofact
        rw [hetn] at hofact
        exact absurd hofact.1 (by simp)
      · rw [List.getElem?_set_ne (fun hc => hxj hc.symm)]
        exact hofact
  have hkeepAll : keepsAllExcept j s.timeline
      (creditRange m2 st dl jr.resources) :=
    keepsAllExcept_trans (keepsAllExcept_removeStart hs hrmS)
      (keepsAllExcept_trans
        (keepsAllExcept_of_keepsExcept (keepsExcept_removeExpire hsm1 hrmE))
        (keepsAllExcept_of_tlGrows
          (tlGrows_mapRange m2 st dl (fun v => rscAdd v jr.resources))))
  have hexF : eventsExist (s.jobs.set j (jobUnreserved jr))
      (creditRange m2 st dl jr.resources) := by
    refine eventsExist_set hex hkeepAll hjlt ?_ ?_ ?_
    · intro st3 hst3 _
      exact absurd hst3 (by simp [jobUnreserved])
    · intro dl3 hdl3 _
      exact absurd hdl3 (by simp [jobUnreserved])
    · intro et3 het3 _
      have h3 : jr.endTime = some et3 := het3
      rw [hetn] at h3
      exact absurd h3 (by simp)
  have hlenF : ∀ jr' ∈ s.jobs.set j (jobUnreserved jr),
      jr'.resources.length = s.total.length ∧ 0 < jr'.timelimit := by
    intro jr' hjr'
    rcases List.mem_or_eq_of_mem_set hjr' with hmem | rfl
    · exact hlen jr' hmem
    · exact ⟨(hlen jr hjmem).1, (hlen jr hjmem).2⟩
  have hwfF : ∀ jr' ∈ s.jobs.set j (jobUnreserved jr), JobWF jr' := by
    intro jr' hjr'
    rcases List.mem_or_eq_of_mem_set hjr' with hmem | rfl
    · exact hwf jr' hmem
    · show JobWF (jobUnreserved jr)
      unfold JobWF jobUnreserved
      dsimp only
      rw [hetn]
      trivial
  exact ⟨hstl', hlenF, hwfF, hewF, hexF,
    nodup_creditRange hnd2 st dl jr.resources, hresF⟩

theorem unreserveFold_inv1 {l : List Nat} {s s' : SysState}
    (hinv : Inv1 s) (h : unreserveFold l s = some s') : Inv1 s' := by
  induction l generalizing s with
  | nil =>
    unfold unreserveFold at h
    injection h with h
    rw [← h]
    exact hinv
  | cons j rest ih =>
    unfold unreserveFold at h
    cases h1 : unreserveOne s j with
    | none =>
      rw [h1] at h
      simp only [Option.bind_eq_bind, Option.none_bind] at h
      cases h
    | some s1 =>
      rw [h1] at h
      simp only [Option.bind_eq_bind, Option.some_bind] at h
      exact ih (unreserveOne_inv1 hinv h1) h

theorem unreserveAllJobs_inv1 {s s' : SysState} (hinv : Inv1 s)
    (h : unreserveAllJobs s = some s') : Inv1 s' := by
  unfold unreserveAllJobs at h
  dsimp only at h
  cases h1 : unreserveFold
      (List.insertionSort (fun a b => b ≤ a) s.reserved) s with
  | none =>
    rw [h1] at h
    simp only [Option.bind_eq_bind, Option.none_bind] at h
    cases h
  | some s1 =>
    rw [h1] at h
    simp only [Option.bind_eq_bind, Option.some_bind,
      Option.some.injEq] at h
    have h2 := unreserveFold_inv1 hinv h1
    rw [← h]
    exact h2

/-! ## Invariant preservation: handle_events and reachability -/

theorem startReservedJob_inv1 {s s' : SysState} {j : Nat}
    (hinv : Inv1 s) (h : startReservedJob s j = some s') : Inv1 s' := by
  unfold startReservedJob at h
  cases hj : s.jobs[j]? with
  | none => rw [hj] at h; cases h
  | some jr =>
    rw [hj] at h
    simp only [Option.bind_eq_bind, Option.some_bind] at h
    split at h
    case isTrue h1 => exact startJob_inv1 hinv h
    case isFalse h1 => cases h

theorem foldStartJobs_inv1 {l : List Nat} {s s' : SysState}
    (hinv : Inv1 s) (h : foldStartJobs l s = some s') : Inv1 s' := by
  induction l generalizing s with
  | nil =>
    unfold foldStartJobs at h
    injection h with h
    rw [← h]
    exact hinv
  | cons j rest ih =>
    unfold foldStartJobs at h
    cases h1 : startReservedJob s j with
    | none =>
      rw [h1] at h
      simp only [Option.bind_eq_bind, Option.none_bind] at h
      cases h
    | some s1 =>
      rw [h1] at h
      simp only [Option.bind_eq_bind, Option.some_bind] at h
      exact ih (startReservedJob_inv1 hinv h1) h

theorem foldEndJobs_inv1 {l : List Nat} {s s' : SysState}
    (hinv : Inv1 s) (h : foldEndJobs l s = some s') : Inv1 s' := by
  induction l generalizing s with
  | nil =>
    unfold foldEndJobs at h
    injection h with h
    rw [← h]
    exact hinv
  | cons j rest ih =>
    unfold foldEndJobs at h
    cases h1 : endJob s j with
    | none =>
      rw [h1] at h
      simp only [Option.bind_eq_bind, Option.none_bind] at h
      cases h
    | some s1 =>
      rw [h1] at h
      simp only [Option.bind_eq_bind, Option.some_bind] at h
      exact ih (endJob_inv1 hinv h1) h

theorem handleEvents_inv1 {s : SysState} {b : Bool} {s' : SysState}
    (hinv : Inv1 s) (h : handleEvents s = some (b, s')) : Inv1 s' := by
  unfold handleEvents at h
  cases hne : nextEvent s.timeline s.curTime with
  | none =>
    rw [hne] at h
    injection h with h
    injection h with h1 h2
    rw [← h2]
    exact hinv
  | some e =>
    rw [hne] at h
    obtain ⟨k, v⟩ := e
    dsimp only at h
    cases h1 : foldStartJobs (startSetAt s.timeline k)
        { s with curTime := k } with
    | none =>
      rw [h1] at h
      simp only [Option.bind_eq_bind, Option.none_bind] at h
      cases h
    | some s1 =>
      rw [h1] at h
      simp only [Option.bind_eq_bind, Option.some_bind] at h
      have hinv0 : Inv1 { s with curTime := k } := hinv
      have hinv1 : Inv1 s1 := foldStartJobs_inv1 hinv0 h1
      cases h2 : foldEndJobs (endSetAt s1.timeline k) s1 with
      | none =>
        rw [h2] at h
        simp only [Option.none_bind] at h
        cases h
      | some s2 =>
        rw [h2] at h
        simp only [Option.some_bind] at h
        have hinv2 : Inv1 s2 := foldEndJobs_inv1 hinv1 h2
        cases h3 : foldEndJobs (expiredSetAt s2.timeline k) s2 with
        | none =>
          rw [h3] at h
          simp only [Option.none_bind] at h
          cases h
        | some s3 =>
          rw [h3] at h
          simp only [Option.some_bind] at h
          have hinv3 : Inv1 s3 := foldEndJobs_inv1 hinv2 h3
          injection h with h
          injection h with hb hs2
          rw [← hs2]
          exact hinv3

theorem inv1_mkSystem (total : List Int) : Inv1 (mkSystem total) := by
  unfold Inv1 mkSystem
  dsimp only
  refine ⟨List.Pairwise.nil, ?_, ?_, ?_, ?_, ?_, ?_⟩
  · intro jr hjr
    cases hjr
  · intro jr hjr
    cases hjr
  · intro p hp
    cases hp
  · intro j hj
    simp at hj
  · intro p hp
    cases hp
  · intro p hp
    cases hp

theorem inv1_of_reachable {s : SysState} (h : Reachable s) : Inv1 s := by
  induction h with
  | init total => exact inv1_mkSystem total
  | enqueue hr he ih => exact enqueueJob_inv1 ih he
  | start hr hv ih => exact startJob_inv1 ih hv
  | reserve hr hv ih => exact reserveJob_inv1 ih hv
  | end_ hr hv ih => exact endJob_inv1 ih hv
  | unreserveAll hr hv ih => exact unreserveAllJobs_inv1 ih hv
  | handle hr hv ih => exact handleEvents_inv1 ih hv

/-! ## C1: the timeline projection invariant -/

theorem c1state_reachable : Reachable c1state :=
  Reachable.handle
    (Reachable.start
      (Reachable.enqueue (Reachable.init [1])
        (show enqueueJob (mkSystem [1]) 1 [1] 1 = EnqResult.ok c1s1 by
          decide))
      (show startJob c1s1 0 = some c1s2 by decide))
    (show handleEvents c1s2 = some (true, c1state) by decide)

/-- C1 (counterexample): the claimed form of T1 — charging only RESERVED
and STARTED jobs over `[start_time, deadline)` — is violated by a
reachable state: `end_job_reservation` credits only `[cur_time,
deadline)` back, so a FINISHED job stays debited at keys in
`[start_time, end_time)` while the claim's sum counts nothing for it. -/
theorem timelineProjection_claim_false :
    ∃ s, Reachable s ∧ ¬ claimT1 s :=
  ⟨c1state, c1state_reachable, by decide⟩

/-- C1 (amended): after any sequence of System operations, the cached
vector at every timeline key `t` equals `total_resources` minus the
demands of all RESERVED and STARTED jobs with `start_time ≤ t <
deadline` **plus those of FINISHED jobs with `start_time ≤ t <
end_time`** (`demSumAt`); the trimmed reservation of a finished job
remains debited over `[start_time, end_time)`. -/
theorem timelineProjection_inv (s : SysState) (h : Reachable s) :
    ∀ p ∈ s.timeline, p.2.resources.length = s.total.length ∧
      ∀ i < s.total.length,
        compAt p.2.resources i =
          compAt s.total i - demSumAt s.jobs p.1 i :=
  (inv1_of_reachable h).2.2.2.2.2.2

theorem timelineProjection_inv_witness :
    Reachable c1state ∧
      (∀ p ∈ c1state.timeline,
        p.2.resources.length = c1state.total.length ∧
        ∀ i < c1state.total.length,
          compAt p.2.resources i =
            compAt c1state.total i - demSumAt c1state.jobs p.1 i) :=
  ⟨c1state_reachable, timelineProjection_inv c1state c1state_reachable⟩

/-! ## C7: unreserve_all_jobs -/

theorem unreserveOne_sets_sub {s s' : SysState} {j : Nat}
    (hs : SortedKeys s.timeline) (h : unreserveOne s j = some s') :
    ∀ k x, (x ∈ startSetAt s'.timeline k → x ∈ startSetAt s.timeline k) ∧
      (x ∈ expiredSetAt s'.timeline k → x ∈ expiredSetAt s.timeline k) := by
  obtain ⟨jr, st, dl, tl', hj, hst, hdl, hrsv, htl, rfl⟩ :=
    unreserveOne_elim h
  obtain ⟨m1, m2, hrmS, hrmE, rfl⟩ := removeJobReservation_elim htl
  obtain ⟨hsm1, _, hspecS⟩ := removeStartEvent_spec hs hrmS
  obtain ⟨hsm2, _, hspecE⟩ := removeExpireEvent_spec hsm1 hrmE
  intro k x
  constructor
  · intro hx
    rcases mem_startSetAt.mp hx with ⟨d', hl', hm'⟩
    rcases sets_creditRange m2 st dl jr.resources k d' hl' with
      ⟨d2, hl2, hc1, _, _⟩
    rw [hc1] at hm'
    have hkE := hspecE k
    rw [hl2] at hkE
    cases hl1 : lookupKey m1 k with
    | none => rw [hl1] at hkE; cases hkE
    | some d1 =>
      rw [hl1] at hkE
      rw [hkE.2.2.1] at hm'
      have hkS := hspecS k
      rw [hl1] at hkS
      cases hl0 : lookupKey s.timeline k with
      | none => rw [hl0] at hkS; cases hkS
      | some d0 =>
        rw [hl0] at hkS
        rw [hkS.1] at hm'
        refine mem_startSetAt.mpr ⟨d0, hl0, ?_⟩
        by_cases hkt : k = st
        · rw [if_pos hkt] at hm'
          exact List.mem_of_mem_erase hm'
        · rw [if_neg hkt] at hm'
          exact hm'
  · intro hx
    rcases mem_expiredSetAt.mp hx with ⟨d', hl', hm'⟩
    rcases sets_creditRange m2 st dl jr.resources k d' hl' with
      ⟨d2, hl2, _, hc2, _⟩
    rw [hc2] at hm'
    have hkE := hspecE k
    rw [hl2] at hkE
    cases hl1 : lookupKey m1 k with
    | none => rw [hl1] at hkE; cases hkE
    | some d1 =>
      rw [hl1] at hkE
      rw [hkE.1] at hm'
      have hm1mem : x ∈ d1.expired := by
        by_cases hkt : k = dl
        · rw [if_pos hkt] at hm'
          exact List.mem_of_mem_erase hm'
        · rw [if_neg hkt] at hm'
          exact hm'
      have hkS := hspecS k
      rw [hl1] at hkS
      cases hl0 : lookupKey s.timeline k with
      | none => rw [hl0] at hkS; cases hkS
      | some d0 =>
        rw [hl0] at hkS
        rw [hkS.2.2.1] at hm1mem
        exact mem_expiredSetAt.mpr ⟨d0, hl0, hm1mem⟩

theorem unreserveOne_removes {s s' : SysState} {j : Nat}
    (hinv : Inv1 s) (h : unreserveOne s j = some s') :
    ∀ k, j ∉ startSetAt s'.timeline k ∧ j ∉ expiredSetAt s'.timeline k := by
  obtain ⟨hs, hlen, hwf, hew, hex, hnd, hres⟩ := hinv
  obtain ⟨jr, st, dl, tl', hj, hst, hdl, hrsv, htl, rfl⟩ :=
    unreserveOne_elim h
  obtain ⟨m1, m2, hrmS, hrmE, rfl⟩ := removeJobReservation_elim htl
  obtain ⟨hsm1, _, hspecS⟩ := removeStartEvent_spec hs hrmS
  obtain ⟨hsm2, _, hspecE⟩ := removeExpireEvent_spec hsm1 hrmE
  have hnd1 : eventsNodup m1 := nodup_removeStartEvent hs hrmS hnd
  intro k
  constructor
  · intro hx
    rcases mem_startSetAt.mp hx with ⟨d', hl', hm'⟩
    rcases sets_creditRange m2 st dl jr.resources k d' hl' with
      ⟨d2, hl2, hc1, _, _⟩
    rw [hc1] at hm'
    have hkE := hspecE k
    rw [hl2] at hkE
    cases hl1 : lookupKey m1 k with
    | none => rw [hl1] at hkE; cases hkE
    | some d1 =>
      rw [hl1] at hkE
      rw [hkE.2.2.1] at hm'
      have hkS := hspecS k
      rw [hl1] at hkS
      cases hl0 : lookupKey s.timeline k with
      | none => rw [hl0] at hkS; cases hkS
      | some d0 =>
        rw [hl0] at hkS
        rw [hkS.1] at hm'
        by_cases hkt : k = st
        · rw [if_pos hkt] at hm'
          have hnd0 : d0.start.Nodup :=
            (hnd (k, d0) (mem_of_lookupKey_eq_some hl0)).1
          exact hnd0.not_mem_erase hm'
        · rw [if_neg hkt] at hm'
          have hofact := (hew (k, d0) (mem_of_lookupKey_eq_some hl0)).1 j hm'
          rw [hj] at hofact
          dsimp only at hofact
          have h2 := hofact.1
          rw [hst] at h2
          injection h2 with hinj
          exact hkt hinj.symm
  · intro hx
    rcases mem_expiredSetAt.mp hx with ⟨d', hl', hm'⟩
    rcases sets_creditRange m2 st dl jr.resources k d' hl' with
      ⟨d2, hl2, _, hc2, _⟩
    rw [hc2] at hm'
    have hkE := hspecE k
    rw [hl2] at hkE
    cases hl1 : lookupKey m1 k with
    | none => rw [hl1] at hkE; cases hkE
    | some d1 =>
      rw [hl1] at hkE
      rw [hkE.1] at hm'
      have hkS := hspecS k
      rw [hl1] at hkS
      cases hl0 : lookupKey s.timeline k with
      | none => rw [hl0] at hkS; cases hkS
      | some d0 =>
        rw [hl0] at hkS
        by_cases hkt : k = dl
        · rw [if_pos hkt] at hm'
          have hnd1e : d1.expired.Nodup :=
            (hnd1 (k, d1) (mem_of_lookupKey_eq_some hl1)).2.2
          exact hnd1e.not_mem_erase hm'
        · rw [if_neg hkt] at hm'
          rw [hkS.2.2.1] at hm'
          have hofact := (hew (k, d0) (mem_of_lookupKey_eq_some hl0)).2.1 j hm'
          rw [hj] at hofact
          dsimp only at hofact
          have h2 := hofact.1
          rw [hdl] at h2
          injection h2 with hinj
          exact hkt hinj.symm

theorem unreserveFold_spec {l : List Nat} {s s' : SysState}
    (hinv : Inv1 s)
    (hl : ∀ j ∈ l, ∃ jr, s.jobs[j]? = some jr ∧
      jr.state = JState.reserved)
    (hnd : l.Nodup) (h : unreserveFold l s = some s') :
    s'.total = s.total ∧ s'.curTime = s.curTime ∧
    s'.reserved = s.reserved ∧ s'.finished = s.finished ∧
    s'.pending = l.reverse ++ s.pending ∧
    (∀ x, x ∉ l → s'.jobs[x]? = s.jobs[x]?) ∧
    (∀ j ∈ l, ∃ jr, s.jobs[j]? = some jr ∧
      s'.jobs[j]? = some (jobUnreserved jr)) ∧
    (∀ k x, (x ∈ startSetAt s'.timeline k → x ∈ startSetAt s.timeline k) ∧
      (x ∈ expiredSetAt s'.timeline k → x ∈ expiredSetAt s.timeline k)) ∧
    (∀ j ∈ l, ∀ k, j ∉ startSetAt s'.timeline k ∧
      j ∉ expiredSetAt s'.timeline k) := by
  induction l generalizing s with
  | nil =>
    unfold unreserveFold at h
    injection h with h
    subst h
    exact ⟨rfl, rfl, rfl, rfl, by simp, fun x _ => rfl,
      fun j hj => absurd hj (List.not_mem_nil j),
      fun k x => ⟨id, id⟩,
      fun j hj => absurd hj (List.not_mem_nil j)⟩
  | cons j rest ih =>
    unfold unreserveFold at h
    cases h1 : unreserveOne s j with
    | none =>
      rw [h1] at h
      simp only [Option.bind_eq_bind, Option.none_bind] at h
      cases h
    | some s1 =>
      rw [h1] at h
      simp only [Option.bind_eq_bind, Option.some_bind] at h
      obtain ⟨jr, st, dl, tl', hj, hst, hdl, hrsv, htl, hs1eq⟩ :=
        unreserveOne_elim h1
      have hinv1 : Inv1 s1 := unreserveOne_inv1 hinv h1
      have hnd_rest : rest.Nodup := List.Nodup.of_cons hnd
      have hjnotin : j ∉ rest := (List.nodup_cons.mp hnd).1
      have hl1 : ∀ j2 ∈ rest, ∃ jr2, s1.jobs[j2]? = some jr2 ∧
          jr2.state = JState.reserved := by
        intro j2 hj2
        obtain ⟨jr2, hj2e, hj2r⟩ := hl j2 (List.mem_cons_of_mem j hj2)
        refine ⟨jr2, ?_, hj2r⟩
        rw [hs1eq]
        have hne : j2 ≠ j := fun hc => hjnotin (hc ▸ hj2)
        show (unreserveOneRes s j jr tl').jobs[j2]? = some jr2
        unfold unreserveOneRes setJob
        dsimp only
        rw [List.getElem?_set_ne (fun hc => hne hc.symm)]
        exact hj2e
      obtain ⟨ht1, hc1, hr1, hf1, hp1, hun1, hrec1, hsub1, hrem1⟩ :=
        ih hinv1 hl1 hnd_rest h
      have hstep_sub := unreserveOne_sets_sub hinv.1 h1
      have hstep_rem := unreserveOne_removes hinv h1
      refine ⟨?_, ?_, ?_, ?_, ?_, ?_, ?_, ?_, ?_⟩
      · rw [ht1, hs1eq]
        rfl
      · rw [hc1, hs1eq]
        rfl
      · rw [hr1, hs1eq]
        rfl
      · rw [hf1, hs1eq]
        rfl
      · rw [hp1, hs1eq]
        show rest.reverse ++ (unreserveOneRes s j jr tl').pending =
          (j :: rest).reverse ++ s.pending
        unfold unreserveOneRes
        dsimp only
        rw [List.reverse_cons, List.append_assoc]
        rfl
      · intro x hx
        have hxnj : x ≠ j := fun hc => hx (hc ▸ List.mem_cons_self j rest)
        have hxnr : x ∉ rest := fun hc => hx (List.mem_cons_of_mem j hc)
        rw [hun1 x hxnr, hs1eq]
        show (unreserveOneRes s j jr tl').jobs[x]? = s.jobs[x]?
        unfold unreserveOneRes setJob
        dsimp only
        rw [List.getElem?_set_ne (fun hc => hxnj hc.symm)]
      · intro j2 hj2
        rcases List.mem_cons.mp hj2 with rfl | hj2r
        · refine ⟨jr, hj, ?_⟩
          rw [hun1 j2 hjnotin, hs1eq]
          show (unreserveOneRes s j2 jr tl').jobs[j2]? =
            some (jobUnreserved jr)
          unfold unreserveOneRes setJob
          dsimp only
          have hjlt : j2 < s.jobs.length :=
            (List.getElem?_eq_some_iff.mp hj).1
          rw [List.getElem?_set_eq hjlt]
        · obtain ⟨jr2, hs1j, hs'j⟩ := hrec1 j2 hj2r
          refine ⟨jr2, ?_, hs'j⟩
          rw [hs1eq] at hs1j
          have hne : j2 ≠ j := fun hc => hjnotin (hc ▸ hj2r)
          have heq2 : (unreserveOneRes s j jr tl').jobs[j2]? =
              s.jobs[j2]? := by
            unfold unreserveOneRes setJob
            dsimp only
            rw [List.getElem?_set_ne (fun hc => hne hc.symm)]
          rw [heq2] at hs1j
          exact hs1j
      · intro k x
        exact ⟨fun hx => (hstep_sub k x).1 ((hsub1 k x).1 hx),
          fun hx => (hstep_sub k x).2 ((hsub1 k x).2 hx)⟩
      · intro j2 hj2 k
        rcases List.mem_cons.mp hj2 with rfl | hj2r
        · exact ⟨fun hx => (hstep_rem k).1 ((hsub1 k j2).1 hx),
            fun hx => (hstep_rem k).2 ((hsub1 k j2).2 hx)⟩
        · exact hrem1 j2 hj2r k

theorem reverse_sortDesc (l : List Nat) :
    (List.insertionSort (fun a b => b ≤ a) l).reverse =
      List.insertionSort (fun a b => a ≤ b) l := by
  have hperm : List.Perm
      (List.insertionSort (fun a b => b ≤ a) l).reverse
      (List.insertionSort (fun a b => a ≤ b) l) :=
    ((List.reverse_perm _).trans
      (List.perm_insertionSort _ l)).trans
      (List.perm_insertionSort _ l).symm
  have h1 : List.Sorted (fun a b : Nat => a ≤ b)
      (List.insertionSort (fun a b => b ≤ a) l).reverse :=
    List.pairwise_reverse.mpr (List.sorted_insertionSort _ l)
  have h2 : List.Sorted (fun a b : Nat => a ≤ b)
      (List.insertionSort (fun a b => a ≤ b) l) :=
    List.sorted_insertionSort _ l
  exact List.eq_of_perm_of_sorted hperm h1 h2

/-- C7: `unreserve_all_jobs` empties the reserved list, restores every
reserved job to PENDING with its start time and deadline cleared and its
start/expire events removed from the timeline, and prepends the
previously reserved jobs in ascending job-id order to the pending
queue. -/
theorem unreserveAll_spec {s s' : SysState}
    (hinv : Inv1 s)
    (hres : allReserved s = true)
    (hnd : s.reserved.Nodup)
    (h : unreserveAllJobs s = some s') :
    s'.reserved = [] ∧
    s'.pending =
      List.insertionSort (fun a b => a ≤ b) s.reserved ++ s.pending ∧
    (∀ j ∈ s.reserved, ∃ jr, s.jobs[j]? = some jr ∧
      s'.jobs[j]? = some (jobUnreserved jr)) ∧
    (∀ j ∈ s.reserved, ∀ k,
      j ∉ startSetAt s'.timeline k ∧ j ∉ expiredSetAt s'.timeline k) := by
  unfold unreserveAllJobs at h
  dsimp only at h
  cases h1 : unreserveFold
      (List.insertionSort (fun a b => b ≤ a) s.reserved) s with
  | none =>
    rw [h1] at h
    simp only [Option.bind_eq_bind, Option.none_bind] at h
    cases h
  | some s1 =>
    rw [h1] at h
    simp only [Option.bind_eq_bind, Option.some_bind,
      Option.some.injEq] at h
    have hmem : ∀ j, j ∈ List.insertionSort (fun a b => b ≤ a) s.reserved ↔
        j ∈ s.reserved :=
      fun j => (List.perm_insertionSort _ s.reserved).mem_iff
    have hl0 : ∀ j ∈ List.insertionSort (fun a b => b ≤ a) s.reserved,
        ∃ jr, s.jobs[j]? = some jr ∧ jr.state = JState.reserved := by
      intro j hj
      have hthis := List.all_eq_true.mp hres j ((hmem j).mp hj)
      cases hje : s.jobs[j]? with
      | none => rw [hje] at hthis; cases hthis
      | some jr =>
        rw [hje] at hthis
        exact ⟨jr, rfl, beq_iff_eq.mp hthis⟩
    have hnd0 : (List.insertionSort (fun a b => b ≤ a) s.reserved).Nodup :=
      ((List.perm_insertionSort _ s.reserved).nodup_iff).mpr hnd
    obtain ⟨ht1, hc1, hr1, hf1, hp1, hun1, hrec1, hsub1, hrem1⟩ :=
      unreserveFold_spec hinv hl0 hnd0 h1
    rw [← h]
    refine ⟨rfl, ?_, ?_, ?_⟩
    · show s1.pending =
        List.insertionSort (fun a b => a ≤ b) s.reserved ++ s.pending
      rw [hp1, reverse_sortDesc]
    · intro j hj
      obtain ⟨jr, hje, hj'⟩ := hrec1 j ((hmem j).mpr hj)
      exact ⟨jr, hje, hj'⟩
    · intro j hj k
      exact hrem1 j ((hmem j).mpr hj) k

theorem c7state_reachable : Reachable c7state :=
  Reachable.reserve
    (Reachable.enqueue (Reachable.init [1])
      (show enqueueJob (mkSystem [1]) 2 [1] 1 = EnqResult.ok c7s1 by
        decide))
    (show reserveJob c7s1 0 1 = some c7state by decide)

theorem unreserveAll_spec_witness :
    c7state.reserved.Nodup ∧ unreserveAllJobs c7state = some c7res ∧
    c7res.reserved = [] ∧
    c7res.pending =
      List.insertionSort (fun a b => a ≤ b) c7state.reserved
        ++ c7state.pending := by
  have h := unreserveAll_spec (inv1_of_reachable c7state_reachable)
    (by decide) (by decide)
    (show unreserveAllJobs c7state = some c7res by decide)
  exact ⟨by decide, by decide, h.1, h.2.1⟩

/-! ## C3: bound queries -/

theorem tlbAux_or {α : Type} (t : BT α) (b : Int) :
    ∀ (succ : Option (Int × α)), BSTwf t →
      tlbAux t b succ =
        ((inorder t).find? (fun p => decide (b ≤ p.1))).or succ := by
  induction t with
  | leaf =>
    intro succ _
    rfl
  | node l k v r ihl ihr =>
    intro succ hw
    obtain ⟨hlk, hrk, hwl, hwr⟩ := hw
    have hio : inorder (BT.node l k v r) =
        inorder l ++ (k, v) :: inorder r := rfl
    by_cases hbk : b = k
    · subst hbk
      have hfl : (inorder l).find? (fun p => decide (b ≤ p.1)) = none := by
        rw [List.find?_eq_none]
        intro x hx
        simp only [decide_eq_true_eq]
        have := hlk x hx
        omega
      have hcons : List.find? (fun p : Int × α => decide (b ≤ p.1))
          ((b, v) :: inorder r) = some (b, v) :=
        List.find?_cons_of_pos _ (by simp)
      show tlbAux (BT.node l b v r) b succ = _
      unfold tlbAux
      rw [if_pos rfl, hio, List.find?_append, hfl, Option.none_or, hcons,
        Option.or_some]
    · by_cases hbl : b < k
      · have hcons : List.find? (fun p : Int × α => decide (b ≤ p.1))
            ((k, v) :: inorder r) = some (k, v) :=
          List.find?_cons_of_pos _
            (by simp only [decide_eq_true_eq]; omega)
        show tlbAux (BT.node l k v r) b succ = _
        unfold tlbAux
        rw [if_neg hbk, if_pos hbl, hio, List.find?_append]
        cases l with
        | leaf =>
          rw [hcons]
          simp only [inorder, List.find?_nil, Option.none_or,
            Option.or_some]
        | node l1 k1 v1 r1 =>
          dsimp only
          rw [ihl (some (k, v)) hwl, hcons, Option.or_assoc, Option.or_some]
      · have hkb : k < b := by omega
        have hfl : (inorder l).find? (fun p => decide (b ≤ p.1)) = none := by
          rw [List.find?_eq_none]
          intro x hx
          simp only [decide_eq_true_eq]
          have := hlk x hx
          omega
        have hcons : List.find? (fun p : Int × α => decide (b ≤ p.1))
            ((k, v) :: inorder r) =
            List.find? (fun p : Int × α => decide (b ≤ p.1)) (inorder r) :=
          List.find?_cons_of_neg _
            (by simp only [decide_eq_true_eq]; omega)
        show tlbAux (BT.node l k v r) b succ = _
        unfold tlbAux
        rw [if_neg hbk, if_neg (by omega : ¬ b < k), hio,
          List.find?_append, hfl, Option.none_or]
        cases r with
        | leaf =>
          rw [hcons]
          simp only [inorder, List.find?_nil, Option.none_or]
        | node r1 k1 v1 r2 =>
          dsimp only
          rw [ihr succ hwr, hcons]

theorem tubAux_or {α : Type} (t : BT α) (b : Int) :
    ∀ (pred : Option (Int × α)), BSTwf t →
      tubAux t b pred =
        ((inorder t).reverse.find? (fun p => decide (p.1 < b))).or pred := by
  induction t with
  | leaf =>
    intro pred _
    rfl
  | node l k v r ihl ihr =>
    intro pred hw
    obtain ⟨hlk, hrk, hwl, hwr⟩ := hw
    have hrev : (inorder (BT.node l k v r)).reverse =
        (inorder r).reverse ++ (k, v) :: (inorder l).reverse := by
      simp [inorder, List.reverse_append]
    rw [hrev, List.find?_append]
    by_cases hbk : b ≤ k
    · have hfr : ((inorder r).reverse).find? (fun p => decide (p.1 < b)) =
          none := by
        rw [List.find?_eq_none]
        intro x hx
        simp only [decide_eq_true_eq]
        have := hrk x (List.mem_reverse.mp hx)
        omega
      have hcons : List.find? (fun p : Int × α => decide (p.1 < b))
          ((k, v) :: (inorder l).reverse) =
          List.find? (fun p : Int × α => decide (p.1 < b))
            (inorder l).reverse :=
        List.find?_cons_of_neg _
          (by simp only [decide_eq_true_eq]; omega)
      show tubAux (BT.node l k v r) b pred = _
      unfold tubAux
      rw [if_pos hbk, hfr, Option.none_or]
      cases l with
      | leaf =>
        rw [hcons]
        simp only [inorder, List.reverse_nil, List.find?_nil,
          Option.none_or]
      | node l1 k1 v1 r1 =>
        dsimp only
        rw [ihl pred hwl, hcons]
    · have hcons : List.find? (fun p : Int × α => decide (p.1 < b))
          ((k, v) :: (inorder l).reverse) = some (k, v) :=
        List.find?_cons_of_pos _
          (by simp only [decide_eq_true_eq]; omega)
      show tubAux (BT.node l k v r) b pred = _
      unfold tubAux
      rw [if_neg hbk]
      cases r with
      | leaf =>
        simp only [inorder, List.reverse_nil, List.find?_nil,
          Option.none_or]
        rw [hcons, Option.or_some]
      | node r1 k1 v1 r2 =>
        dsimp only
        rw [ihr (some (k, v)) hwr, hcons, Option.or_assoc, Option.or_some]

theorem treeLowerBound_eq {α : Type} (t : BT α) (hw : BSTwf t) (b : Int) :
    treeLowerBound t b = (inorder t).find? (fun p => decide (b ≤ p.1)) := by
  cases t with
  | leaf => rfl
  | node l k v r =>
    show tlbAux (BT.node l k v r) b none = _
    rw [tlbAux_or (BT.node l k v r) b none hw, Option.or_none]

theorem treeUpperBound_eq {α : Type} (t : BT α) (hw : BSTwf t) (b : Int) :
    treeUpperBound t b =
      (inorder t).reverse.find? (fun p => decide (p.1 < b)) := by
  cases t with
  | leaf => rfl
  | node l k v r =>
    show tubAux (BT.node l k v r) b none = _
    rw [tubAux_or (BT.node l k v r) b none hw, Option.or_none]

/-- C3 (counterexample): `upper_bound` is not "the entry with the
smallest key strictly greater than the bound": on the single-node tree
`{2}` it answers `none` for bound 1 (it walks to `self._prev`, the
in-order predecessor), while the claimed semantics would answer the
entry with key 2. -/
theorem upperBound_claim_false :
    ∃ t : BT Int, BSTwf t ∧
      treeUpperBound t 1 ≠
        (inorder t).find? (fun p => decide (1 < p.1)) :=
  ⟨BT.node BT.leaf 2 0 BT.leaf, by decide, by decide⟩

/-- C3 (amended): on every search tree, `lower_bound(b)` returns the
entry with the smallest key `≥ b` (`none` if there is none) — as
claimed — while `upper_bound(b)` returns the entry with the **largest
key `< b`** (the strict predecessor; `none` if there is none), not the
smallest key `> b`. -/
theorem boundQueries_spec {α : Type} (t : BT α) (hw : BSTwf t) (b : Int) :
    treeLowerBound t b = (inorder t).find? (fun p => decide (b ≤ p.1)) ∧
    treeUpperBound t b =
      (inorder t).reverse.find? (fun p => decide (p.1 < b)) :=
  ⟨treeLowerBound_eq t hw b, treeUpperBound_eq t hw b⟩

theorem boundQueries_spec_witness :
    BSTwf c3tree ∧
    (treeLowerBound c3tree 2 =
        (inorder c3tree).find? (fun p => decide (2 ≤ p.1)) ∧
      treeUpperBound c3tree 2 =
        (inorder c3tree).reverse.find? (fun p => decide (p.1 < 2))) ∧
    treeLowerBound c3tree 2 = some (2, 20) ∧
    treeUpperBound c3tree 2 = some (1, 10) :=
  ⟨by decide, boundQueries_spec c3tree (by decide) 2, by decide, by decide⟩

/-! ## C9: range iteration -/

theorem inorder_sortedKeys {α : Type} :
    ∀ (t : BT α), BSTwf t → SortedKeys (inorder t) := by
  intro t
  induction t with
  | leaf =>
    intro _
    exact List.Pairwise.nil
  | node l k v r ihl ihr =>
    intro hw
    obtain ⟨hlk, hrk, hwl, hwr⟩ := hw
    show List.Pairwise (· < ·)
      ((inorder l ++ (k, v) :: inorder r).map Prod.fst)
    rw [List.map_append, List.map_cons, List.pairwise_append]
    refine ⟨ihl hwl, ?_, ?_⟩
    · rw [List.pairwise_cons]
      refine ⟨?_, ihr hwr⟩
      intro b hb
      rcases List.mem_map.mp hb with ⟨p, hp, rfl⟩
      exact hrk p hp
    · intro a ha b hb
      rcases List.mem_map.mp ha with ⟨p, hp, rfl⟩
      have h1 := hlk p hp
      rcases List.mem_cons.mp hb with rfl | hb2
      · exact h1
      · rcases List.mem_map.mp hb2 with ⟨q, hq, rfl⟩
        have h2 := hrk q hq
        omega

theorem keysNodup {α : Type} {xs : List (Int × α)} (hs : SortedKeys xs) :
    (xs.map Prod.fst).Nodup :=
  List.Pairwise.imp (fun h => Int.ne_of_lt h) hs

theorem sortedKeys_getElem_lt {α : Type} {xs : List (Int × α)}
    (hs : SortedKeys xs) {i j : Nat} (hij : i < j) (hj : j < xs.length) :
    (xs[i]).1 < (xs[j]).1 := by
  have hi : i < xs.length := Nat.lt_trans hij hj
  have h := List.Sorted.rel_get_of_lt
    (show List.Sorted (· < ·) (xs.map Prod.fst) from hs)
    (a := ⟨i, by simpa using hi⟩) (b := ⟨j, by simpa using hj⟩)
    (Fin.mk_lt_mk.mpr hij)
  simpa using h

theorem sortedKeys_getElem_le {α : Type} {xs : List (Int × α)}
    (hs : SortedKeys xs) {i j : Nat} (hij : i ≤ j) (hj : j < xs.length) :
    (xs[i]).1 ≤ (xs[j]).1 := by
  rcases Nat.eq_or_lt_of_le hij with rfl | hlt
  · exact le_refl _
  · exact le_of_lt (sortedKeys_getElem_lt hs hlt hj)

theorem find?_first {α : Type} {xs : List (Int × α)} {p : Int × α → Bool}
    {e : Int × α} (hf : xs.find? p = some e)
    (hnd : (xs.map Prod.fst).Nodup) :
    ∃ i, i < xs.length ∧
      xs.findIdx (fun q => decide (q.1 = e.1)) = i ∧
      xs[i]? = some e ∧ p e = true ∧
      ∀ j x, j < i → xs[j]? = some x → p x = false := by
  obtain ⟨hpe, as, bs, hxs, hall⟩ := List.find?_eq_some.mp hf
  subst hxs
  have hlen : as.length < (as ++ e :: bs).length := by
    rw [List.length_append, List.length_cons]
    omega
  have hei : (as ++ e :: bs)[as.length] = e := by
    rw [List.getElem_append_right (Nat.le_refl _)]
    simp
  refine ⟨as.length, hlen, ?_, ?_, hpe, ?_⟩
  · rw [List.findIdx_eq hlen]
    refine ⟨?_, ?_⟩
    · rw [hei]
      simp
    · intro j hj
      have hjlen : j < (as ++ e :: bs).length := by omega
      have hne : ((as ++ e :: bs)[j]).1 ≠ e.1 := by
        intro hkeq
        have hmj : j < ((as ++ e :: bs).map Prod.fst).length := by
          rw [List.length_map]
          exact hjlen
        have hmi : as.length < ((as ++ e :: bs).map Prod.fst).length := by
          rw [List.length_map]
          exact hlen
        have hkeys : ((as ++ e :: bs).map Prod.fst)[j] =
            ((as ++ e :: bs).map Prod.fst)[as.length] := by
          rw [List.getElem_map, List.getElem_map, hei, hkeq]
        have := (List.Nodup.getElem_inj_iff hnd).mp hkeys
        omega
      exact decide_eq_false hne
  · rw [List.getElem?_eq_getElem hlen, hei]
  · intro j x hj hx
    rw [List.getElem?_append_left hj] at hx
    have hmem : x ∈ as := List.getElem?_mem hx
    have := hall x hmem
    cases hpx : p x with
    | false => rfl
    | true =>
      rw [hpx] at this
      cases this

theorem revFind_last {α : Type} {xs : List (Int × α)} {q : Int × α → Bool}
    {e : Int × α} (hf : xs.reverse.find? q = some e)
    (hnd : (xs.map Prod.fst).Nodup) :
    ∃ j, j < xs.length ∧
      xs.findIdx (fun r => decide (r.1 = e.1)) = j ∧
      xs[j]? = some e ∧ q e = true ∧
      ∀ i x, j < i → xs[i]? = some x → q x = false := by
  obtain ⟨hpe, as, bs, hxs, hall⟩ := List.find?_eq_some.mp hf
  have hxs2 : xs = bs.reverse ++ e :: as.reverse := by
    have h2 : xs.reverse.reverse = (as ++ e :: bs).reverse := by rw [hxs]
    rw [List.reverse_reverse] at h2
    rw [h2]
    simp [List.reverse_append]
  subst hxs2
  have hlen : bs.reverse.length < (bs.reverse ++ e :: as.reverse).length := by
    rw [List.length_append, List.length_cons]
    omega
  have hei : (bs.reverse ++ e :: as.reverse)[bs.reverse.length] = e := by
    rw [List.getElem_append_right (Nat.le_refl _)]
    simp
  refine ⟨bs.reverse.length, hlen, ?_, ?_, hpe, ?_⟩
  · rw [List.findIdx_eq hlen]
    refine ⟨?_, ?_⟩
    · rw [hei]
      simp
    · intro j hj
      have hjlen : j < (bs.reverse ++ e :: as.reverse).length := by omega
      have hne : ((bs.reverse ++ e :: as.reverse)[j]).1 ≠ e.1 := by
        intro hkeq
        have hmj : j <
            ((bs.reverse ++ e :: as.reverse).map Prod.fst).length := by
          rw [List.length_map]
          exact hjlen
        have hmi : bs.reverse.length <
            ((bs.reverse ++ e :: as.reverse).map Prod.fst).length := by
          rw [List.length_map]
          exact hlen
        have hkeys : ((bs.reverse ++ e :: as.reverse).map Prod.fst)[j] =
            ((bs.reverse ++ e :: as.reverse).map
              Prod.fst)[bs.reverse.length] := by
          rw [List.getElem_map, List.getElem_map, hei, hkeq]
        have := (List.Nodup.getElem_inj_iff hnd).mp hkeys
        omega
      exact decide_eq_false hne
  · rw [List.getElem?_eq_getElem hlen, hei]
  · intro i x hi hx
    rw [List.getElem?_append_right (by omega : bs.reverse.length ≤ i)] at hx
    have hpos : 0 < i - bs.reverse.length := by omega
    cases hd : i - bs.reverse.length with
    | zero => omega
    | succ d =>
      rw [hd] at hx
      rw [List.getElem?_cons_succ] at hx
      have hmem : x ∈ as.reverse := List.getElem?_mem hx
      have := hall x (List.mem_reverse.mp hmem)
      cases hpx : q x with
      | false => rfl
      | true =>
        rw [hpx] at this
        cases this

theorem walk_slice {α : Type} (xs : List (Int × α)) :
    ∀ (d i fuel : Nat), i + d < xs.length → d < fuel →
      walkFrom xs fuel i (i + d) =
        some ((xs.drop i).take (d + 1)) := by
  intro d
  induction d with
  | zero =>
    intro i fuel hin hfuel
    cases fuel with
    | zero => omega
    | succ f =>
      have hi : i < xs.length := by omega
      unfold walkFrom
      rw [List.getElem?_eq_getElem hi]
      dsimp only
      rw [if_pos (by omega : i = i + 0)]
      rw [List.drop_eq_getElem_cons hi]
      rfl
  | succ d ih =>
    intro i fuel hin hfuel
    cases fuel with
    | zero => omega
    | succ f =>
      have hi : i < xs.length := by omega
      unfold walkFrom
      rw [List.getElem?_eq_getElem hi]
      dsimp only
      rw [if_neg (by omega : ¬ i = i + (d + 1))]
      have hnext : posNext xs.length i = i + 1 := by
        unfold posNext
        rw [if_neg (by omega : ¬ i = xs.length),
          if_neg (by omega : ¬ i + 1 = xs.length)]
      rw [hnext]
      have hrec := ih (i + 1) f (by omega) (by omega)
      rw [show i + 1 + d = i + (d + 1) from by omega] at hrec
      rw [hrec]
      dsimp only
      rw [List.drop_eq_getElem_cons hi]
      rfl

theorem filter_eq_slice {α : Type} :
    ∀ (xs : List (Int × α)) (F : Int × α → Bool) (i j : Nat),
      i ≤ j → j < xs.length →
      (∀ t x, xs[t]? = some x → (F x = true ↔ i ≤ t ∧ t ≤ j)) →
      xs.filter F = (xs.drop i).take (j + 1 - i) := by
  intro xs
  induction xs with
  | nil =>
    intro F i j hij hj hchar
    simp at hj
  | cons a rest ih =>
    intro F i j hij hj hchar
    cases i with
    | zero =>
      have hFa : F a = true :=
        (hchar 0 a (by rw [List.getElem?_cons_zero])).mpr
          ⟨Nat.le_refl 0, by omega⟩
      rw [List.filter_cons_of_pos hFa]
      cases j with
      | zero =>
        have hrest : rest.filter F = [] := by
          rw [List.filter_eq_nil_iff]
          intro x hx
          rcases List.mem_iff_getElem?.mp hx with ⟨t, ht⟩
          have := hchar (t + 1) x (by rw [List.getElem?_cons_succ]; exact ht)
          intro hc
          have := (this.mp hc).2
          omega
        rw [hrest]
        rfl
      | succ j0 =>
        have hchar2 : ∀ t x, rest[t]? = some x →
            (F x = true ↔ 0 ≤ t ∧ t ≤ j0) := by
          intro t x ht
          have := hchar (t + 1) x (by rw [List.getElem?_cons_succ]; exact ht)
          constructor
          · intro hc
            have h2 := this.mp hc
            omega
          · intro hc
            exact this.mpr ⟨by omega, by omega⟩
        have hrest := ih F 0 j0 (by omega)
          (by rw [List.length_cons] at hj; omega) hchar2
        rw [hrest]
        simp only [List.drop_zero]
        rfl
    | succ i0 =>
      have hFa : F a = false := by
        cases hFa : F a with
        | false => rfl
        | true =>
          have := (hchar 0 a (by rw [List.getElem?_cons_zero])).mp hFa
          omega
      rw [List.filter_cons_of_neg (by rw [hFa]; exact Bool.false_ne_true)]
      cases j with
      | zero => omega
      | succ j0 =>
        have hchar2 : ∀ t x, rest[t]? = some x →
            (F x = true ↔ i0 ≤ t ∧ t ≤ j0) := by
          intro t x ht
          have := hchar (t + 1) x (by rw [List.getElem?_cons_succ]; exact ht)
          constructor
          · intro hc
            have h2 := this.mp hc
            omega
          · intro hc
            exact this.mpr ⟨by omega, by omega⟩
        have hrest := ih F i0 j0 (by omega)
          (by rw [List.length_cons] at hj; omega) hchar2
        rw [hrest]
        rw [List.drop_succ_cons,
          show j0 + 1 + 1 - (i0 + 1) = j0 + 1 - i0 from by omega]

theorem filter_eq_nil_of_char {α : Type} (xs : List (Int × α))
    (F : Int × α → Bool)
    (h : ∀ (t : Nat) (x : Int × α), xs[t]? = some x → F x = false) :
    xs.filter F = [] := by
  rw [List.filter_eq_nil_iff]
  intro x hx
  rcases List.mem_iff_getElem?.mp hx with ⟨t, ht⟩
  rw [h t x ht]
  exact Bool.false_ne_true

theorem treeItemsRaw_spec {α : Type} (t : BT α) (hw : BSTwf t)
    {lo hi : Int} (hlh : lo ≤ hi) :
    treeItemsRaw t lo hi =
      some ((inorder t).filter (fun p => decide (lo ≤ p.1 ∧ p.1 < hi))) := by
  have hs : SortedKeys (inorder t) := inorder_sortedKeys t hw
  have hnd : ((inorder t).map Prod.fst).Nodup := keysNodup hs
  unfold treeItemsRaw
  rw [treeLowerBound_eq t hw lo, treeUpperBound_eq t hw hi]
  cases hfl : (inorder t).find? (fun p => decide (lo ≤ p.1)) with
  | none =>
    have hall : ∀ x ∈ inorder t, x.1 < lo := by
      intro x hx
      have := List.find?_eq_none.mp hfl x hx
      simp only [decide_eq_true_eq] at this
      omega
    have hfilter : (inorder t).filter
        (fun p => decide (lo ≤ p.1 ∧ p.1 < hi)) = [] := by
      apply filter_eq_nil_of_char
      intro u x hx
      have := hall x (List.getElem?_mem hx)
      exact decide_eq_false (by omega)
    rw [hfilter]
    cases hfu : (inorder t).reverse.find? (fun p => decide (p.1 < hi)) with
    | none =>
      have hn0 : inorder t = [] := by
        cases hxs : inorder t with
        | nil => rfl
        | cons a rest =>
          exfalso
          have ha := hall a (by rw [hxs]; exact List.mem_cons_self a rest)
          have hb := List.find?_eq_none.mp hfu a
            (by rw [hxs]
                exact List.mem_reverse.mpr (List.mem_cons_self a rest))
          simp only [decide_eq_true_eq] at hb
          omega
      simp only [lbPosOf]
      rw [hn0]
      rfl
    | some eU =>
      obtain ⟨j, hjn, hidxU, hje, hqe, hafter⟩ := revFind_last hfu hnd
      have hn1 : 0 < (inorder t).length := by omega
      have hjlast : j = (inorder t).length - 1 := by
        by_contra hc
        have h2 : j + 1 < (inorder t).length := by omega
        have hx := hafter (j + 1) ((inorder t)[j + 1]) (by omega)
          (List.getElem?_eq_getElem h2)
        have hlt := hall ((inorder t)[j + 1]) (List.getElem_mem h2)
        simp only [decide_eq_false_iff_not] at hx
        omega
      simp only [lbPosOf]
      rw [hidxU]
      unfold iterItemsFwd
      rw [if_neg (show ¬ (posPrev (inorder t).length (inorder t).length ≠ j)
        from ?_)]
      intro hc
      apply hc
      unfold posPrev
      rw [if_pos rfl, if_neg (by omega : ¬ (inorder t).length = 0)]
      omega
  | some e =>
    obtain ⟨i, hin, hidxL, hie, hpe, hbefore⟩ := find?_first hfl hnd
    have hloe : lo ≤ e.1 := by simpa using hpe
    have hxsi : (inorder t)[i] = e := by
      rw [List.getElem?_eq_getElem hin] at hie
      injection hie with h2
    simp only [lbPosOf]
    rw [hidxL]
    by_cases hhe : hi ≤ e.1
    · -- no key lies in [lo, hi)
      have hfilter : (inorder t).filter
          (fun p => decide (lo ≤ p.1 ∧ p.1 < hi)) = [] := by
        apply filter_eq_nil_of_char
        intro u x hx
        have hun : u < (inorder t).length :=
          (List.getElem?_eq_some_iff.mp hx).1
        by_cases hui : u < i
        · have h2 := hbefore u x hui hx
          simp only [decide_eq_false_iff_not] at h2
          exact decide_eq_false (by omega)
        · have hxu : (inorder t)[u] = x := by
            rw [List.getElem?_eq_getElem hun] at hx
            injection hx with h2
          have h2 := sortedKeys_getElem_le hs (by omega : i ≤ u) hun
          rw [hxsi, hxu] at h2
          exact decide_eq_false (by omega)
      rw [hfilter]
      cases hfu : (inorder t).reverse.find? (fun p => decide (p.1 < hi)) with
      | none =>
        have hi0 : i = 0 := by
          by_contra h0
          have h1 : 0 < i := by omega
          have h2 : (0 : Nat) < (inorder t).length := by omega
          have hx0 := hbefore 0 ((inorder t)[0]) h1
            (List.getElem?_eq_getElem h2)
          have hb := List.find?_eq_none.mp hfu ((inorder t)[0])
            (List.mem_reverse.mpr (List.getElem_mem h2))
          simp only [decide_eq_false_iff_not] at hx0
          simp only [decide_eq_true_eq] at hb
          omega
        subst hi0
        simp only [lbPosOf]
        unfold iterItemsFwd
        rw [if_neg (show ¬ (posPrev (inorder t).length 0 ≠
            (inorder t).length) from ?_)]
        intro hc
        apply hc
        unfold posPrev
        rw [if_neg (by omega : ¬ (0 : Nat) = (inorder t).length),
          if_pos rfl]
      | some eU =>
        obtain ⟨j, hjn, hidxU, hje, hqe, hafter⟩ := revFind_last hfu hnd
        have hqe2 : eU.1 < hi := by simpa using hqe
        have hxsj : (inorder t)[j] = eU := by
          rw [List.getElem?_eq_getElem hjn] at hje
          injection hje with h2
        have hji : j < i := by
          by_contra hc
          have hle := sortedKeys_getElem_le hs (by omega : i ≤ j) hjn
          rw [hxsi, hxsj] at hle
          omega
        have hipos : 0 < i := by omega
        have hjeq : j = i - 1 := by
          by_contra hc
          have h1 : j + 1 < i := by omega
          have h2 : j + 1 < (inorder t).length := by omega
          have hx := hafter (j + 1) ((inorder t)[j + 1]) (by omega)
            (List.getElem?_eq_getElem h2)
          have hxb := hbefore (j + 1) ((inorder t)[j + 1]) h1
            (List.getElem?_eq_getElem h2)
          simp only [decide_eq_false_iff_not] at hx hxb
          omega
        simp only [lbPosOf]
        rw [hidxU]
        unfold iterItemsFwd
        rw [if_neg (show ¬ (posPrev (inorder t).length i ≠ j) from ?_)]
        intro hc
        apply hc
        unfold posPrev
        rw [if_neg (by omega : ¬ i = (inorder t).length),
          if_neg (by omega : ¬ i = 0)]
        omega
    · push_neg at hhe
      cases hfu : (inorder t).reverse.find? (fun p => decide (p.1 < hi)) with
      | none =>
        exfalso
        have hmem : e ∈ inorder t := List.getElem?_mem hie
        have hb := List.find?_eq_none.mp hfu e (List.mem_reverse.mpr hmem)
        simp only [decide_eq_true_eq] at hb
        omega
      | some eU =>
        obtain ⟨j, hjn, hidxU, hje, hqe, hafter⟩ := revFind_last hfu hnd
        have hqe2 : eU.1 < hi := by simpa using hqe
        have hxsj : (inorder t)[j] = eU := by
          rw [List.getElem?_eq_getElem hjn] at hje
          injection hje with h2
        have hij : i ≤ j := by
          by_contra hc
          have hx := hafter i e (by omega) hie
          simp only [decide_eq_false_iff_not] at hx
          omega
        simp only [lbPosOf]
        rw [hidxU]
        unfold iterItemsFwd
        have hguard : posPrev (inorder t).length i ≠ j := by
          unfold posPrev
          rw [if_neg (by omega : ¬ i = (inorder t).length)]
          by_cases hi0 : i = 0
          · rw [if_pos hi0]
            omega
          · rw [if_neg hi0]
            omega
        rw [if_pos hguard]
        have hwalk := walk_slice (inorder t) (j - i) i
          ((inorder t).length + 1) (by omega) (by omega)
        rw [show i + (j - i) = j from by omega] at hwalk
        rw [hwalk]
        have hchar : ∀ (u : Nat) (x : Int × α), (inorder t)[u]? = some x →
            ((fun p => decide (lo ≤ p.1 ∧ p.1 < hi)) x = true ↔
              i ≤ u ∧ u ≤ j) := by
          intro u x hx
          have hun : u < (inorder t).length :=
            (List.getElem?_eq_some_iff.mp hx).1
          have hxu : (inorder t)[u] = x := by
            rw [List.getElem?_eq_getElem hun] at hx
            injection hx with h2
          constructor
          · intro hFx
            simp only [decide_eq_true_eq] at hFx
            constructor
            · by_contra hc
              have h2 := hbefore u x (by omega)
                (by rw [List.getElem?_eq_getElem hun, hxu])
              simp only [decide_eq_false_iff_not] at h2
              omega
            · by_contra hc
              have h2 := hafter u x (by omega)
                (by rw [List.getElem?_eq_getElem hun, hxu])
              simp only [decide_eq_false_iff_not] at h2
              omega
          · rintro ⟨hiu, huj⟩
            have h1 := sortedKeys_getElem_le hs hiu hun
            have h2 := sortedKeys_getElem_le hs huj hjn
            rw [hxsi] at h1
            rw [hxsj] at h2
            rw [hxu] at h1 h2
            simp only [decide_eq_true_eq]
            omega
        have hfeq := filter_eq_slice (inorder t)
          (fun p => decide (lo ≤ p.1 ∧ p.1 < hi)) i j hij hjn hchar
        rw [hfeq, show j + 1 - i = j - i + 1 from by omega]

/-- C9: `items(lo, hi)` yields exactly the entries with
`min(lo,hi) ≤ key < max(lo,hi)` in ascending order (and never hits the
sentinel or loops), and swapping the bounds yields the same
sequence. -/
theorem items_spec {α : Type} (t : BT α) (hw : BSTwf t) (lo hi : Int) :
    treeItems t lo hi =
      some ((inorder t).filter
        (fun p => decide (min lo hi ≤ p.1 ∧ p.1 < max lo hi))) ∧
    treeItems t lo hi = treeItems t hi lo := by
  constructor
  · unfold treeItems
    by_cases h : lo > hi
    · rw [if_pos h, treeItemsRaw_spec t hw (le_of_lt h),
        min_eq_right (le_of_lt h), max_eq_left (le_of_lt h)]
    · have hle : lo ≤ hi := by omega
      rw [if_neg h, treeItemsRaw_spec t hw hle, min_eq_left hle,
        max_eq_right hle]
  · unfold treeItems
    rcases lt_trichotomy lo hi with h | h | h
    · rw [if_neg (by omega), if_pos (by omega)]
    · subst h
      rfl
    · rw [if_pos (by omega), if_neg (by omega)]

theorem items_spec_witness :
    BSTwf c9tree ∧
    treeItems c9tree 6 2 =
      some ((inorder c9tree).filter
        (fun p => decide (min 6 2 ≤ p.1 ∧ p.1 < max 6 2))) ∧
    treeItems c9tree 6 2 = treeItems c9tree 2 6 ∧
    treeItems c9tree 6 2 = some [(3, 30), (5, 50)] :=
  ⟨by decide, (items_spec c9tree (by decide) 6 2).1,
    (items_spec c9tree (by decide) 6 2).2, by decide⟩

/-! ## C2: resource safety -/

theorem compAt_valid {a : List Int} (h : rscValid a) (i : Nat) :
    0 ≤ compAt a i := by
  unfold compAt
  by_cases hi : i < a.length
  · rw [List.getD_eq_getElem a 0 hi]
    exact h _ (List.getElem_mem hi)
  · rw [List.getD_eq_default a 0 (by omega)]

theorem mem_insertSorted_elim {α : Type} {m : List (Int × α)} {k : Int}
    {v : α} {p : Int × α} (h : p ∈ insertSorted m k v) :
    p = (k, v) ∨ p ∈ m := by
  induction m with
  | nil => simpa [insertSorted] using h
  | cons q rest ih =>
    unfold insertSorted at h
    split at h
    · rcases List.mem_cons.mp h with h | h
      · exact Or.inl h
      · exact Or.inr h
    · split at h
      · rcases List.mem_cons.mp h with h | h
        · exact Or.inl h
        · exact Or.inr (List.mem_cons_of_mem _ h)
      · rcases List.mem_cons.mp h with h | h
        · exact Or.inr (by rw [h]; exact List.mem_cons_self _ _)
        · rcases ih h with h | h
          · exact Or.inl h
          · exact Or.inr (List.mem_cons_of_mem _ h)

/-- The `_get_data` value is well-dimensioned and nonnegative on a
good timeline with valid capacity. -/
theorem getData_good {total : List Int} {m : List (Int × TimelineData)}
    {dim : Nat} (hs : SortedKeys m) (hgood : resGood dim m)
    (htot : rscValid total) (hdim : total.length = dim) (t : Int) :
    (getData total m t).resources.length = dim ∧
    ∀ i < dim, 0 ≤ compAt (getData total m t).resources i := by
  unfold getData
  cases ht : lookupKey m t with
  | some d => exact hgood (t, d) (mem_of_lookupKey_eq_some ht)
  | none =>
    cases hp : predStrict m t with
    | some e =>
      dsimp only
      exact hgood e (predStrict_eq_some_spec hs hp).1
    | none =>
      dsimp only
      exact ⟨hdim, fun i _ => compAt_valid htot i⟩

theorem resGood_insertSorted {dim : Nat} {m : List (Int × TimelineData)}
    {d : TimelineData} (hgood : resGood dim m)
    (hd : d.resources.length = dim ∧ ∀ i < dim, 0 ≤ compAt d.resources i)
    (t : Int) : resGood dim (insertSorted m t d) := by
  intro p hp
  rcases mem_insertSorted_elim hp with h | h
  · rw [h]; exact hd
  · exact hgood p h

theorem resGood_eraseKey {dim : Nat} {m : List (Int × TimelineData)}
    (hgood : resGood dim m) (t : Int) : resGood dim (eraseKey m t) :=
  fun p hp => hgood p ((eraseKey_sublist m t).subset hp)

theorem resGood_cleanupPut {dim : Nat} {m : List (Int × TimelineData)}
    {d : TimelineData} (hgood : resGood dim m)
    (hd : d.resources.length = dim ∧ ∀ i < dim, 0 ≤ compAt d.resources i)
    (t : Int) : resGood dim (cleanupPut m t d) := by
  unfold cleanupPut
  split
  · exact resGood_eraseKey hgood t
  · exact resGood_insertSorted hgood hd t

theorem mem_mapRange_elim {α : Type} {m : List (Int × α)} {lo hi : Int}
    {f : α → α} {q : Int × α} (h : q ∈ mapRange m lo hi f) :
    ∃ p ∈ m, (q = p ∧ ¬(lo ≤ p.1 ∧ p.1 < hi)) ∨
      (q = (p.1, f p.2) ∧ lo ≤ p.1 ∧ p.1 < hi) := by
  rcases List.mem_map.mp h with ⟨p, hp, hq⟩
  refine ⟨p, hp, ?_⟩
  by_cases hc : lo ≤ p.1 ∧ p.1 < hi
  · right
    rw [← hq, if_pos hc]
    exact ⟨rfl, hc⟩
  · left
    rw [← hq, if_neg hc]
    exact ⟨rfl, hc⟩

theorem resGood_creditRange {dim : Nat} {m : List (Int × TimelineData)}
    {dem : List Int} (hgood : resGood dim m) (hlen : dem.length = dim)
    (hdem : rscValid dem) (lo hi : Int) :
    resGood dim (creditRange m lo hi dem) := by
  intro q hq
  unfold creditRange at hq
  rcases mem_mapRange_elim hq with ⟨p, hp, hc | hc⟩
  · rw [hc.1]; exact hgood p hp
  · obtain ⟨hpl, hpv⟩ := hgood p hp
    have hl2 : p.2.resources.length = dem.length := by omega
    rw [hc.1]
    dsimp only
    refine ⟨by rw [rscAdd_length hl2]; exact hpl, fun i hi2 => ?_⟩
    rw [compAt_rscAdd hl2 (by omega)]
    have := hpv i hi2
    have := compAt_valid hdem i
    omega

theorem resGood_debitRange {dim : Nat} {m : List (Int × TimelineData)}
    {dem : List Int} (hgood : resGood dim m) (hlen : dem.length = dim)
    {lo hi : Int}
    (hdom : ∀ p ∈ m, lo ≤ p.1 → p.1 < hi →
      ∀ i < dim, compAt dem i ≤ compAt p.2.resources i) :
    resGood dim (debitRange m lo hi dem) := by
  intro q hq
  unfold debitRange at hq
  rcases mem_mapRange_elim hq with ⟨p, hp, hc | hc⟩
  · rw [hc.1]; exact hgood p hp
  · obtain ⟨hpl, hpv⟩ := hgood p hp
    have hl2 : p.2.resources.length = dem.length := by omega
    rw [hc.1]
    dsimp only
    refine ⟨by rw [rscSub_length hl2]; exact hpl, fun i hi2 => ?_⟩
    rw [compAt_rscSub hl2 (by omega)]
    have := hdom p hp hc.2.1 hc.2.2 i hi2
    omega

theorem resGood_removeStartEvent {dim : Nat}
    {m m' : List (Int × TimelineData)} {t : Int} {j : Nat}
    (hgood : resGood dim m) (h : removeStartEvent m t j = some m') :
    resGood dim m' := by
  unfold removeStartEvent at h
  cases hl : lookupKey m t with
  | none => rw [hl] at h; cases h
  | some d =>
    rw [hl] at h
    dsimp only at h
    split at h
    · injection h with h
      rw [← h]
      refine resGood_cleanupPut hgood ?_ t
      exact hgood (t, d) (mem_of_lookupKey_eq_some hl)
    · cases h

theorem resGood_removeExpireEvent {dim : Nat}
    {m m' : List (Int × TimelineData)} {t : Int} {j : Nat}
    (hgood : resGood dim m) (h : removeExpireEvent m t j = some m') :
    resGood dim m' := by
  unfold removeExpireEvent at h
  cases hl : lookupKey m t with
  | none => rw [hl] at h; cases h
  | some d =>
    rw [hl] at h
    dsimp only at h
    split at h
    · injection h with h
      rw [← h]
      refine resGood_cleanupPut hgood ?_ t
      exact hgood (t, d) (mem_of_lookupKey_eq_some hl)
    · cases h

theorem resGood_removeEndEvent {dim : Nat}
    {m m' : List (Int × TimelineData)} {t : Int} {j : Nat}
    (hgood : resGood dim m) (h : removeEndEvent m t j = some m') :
    resGood dim m' := by
  unfold removeEndEvent at h
  cases hl : lookupKey m t with
  | none => rw [hl] at h; cases h
  | some d =>
    rw [hl] at h
    dsimp only at h
    split at h
    · injection h with h
      rw [← h]
      refine resGood_cleanupPut hgood ?_ t
      exact hgood (t, d) (mem_of_lookupKey_eq_some hl)
    · cases h

theorem resGood_insertEndEvent {dim : Nat} {total : List Int}
    {m : List (Int × TimelineData)} (hs : SortedKeys m)
    (hgood : resGood dim m) (htot : rscValid total)
    (hdim : total.length = dim) (t : Int) (j : Nat) :
    resGood dim (insertEndEvent total m t j) := by
  unfold insertEndEvent
  refine resGood_insertSorted hgood ?_ t
  exact getData_good hs hgood htot hdim t

theorem resGood_endJobReservation {dim : Nat} {total dem : List Int}
    {m m' : List (Int × TimelineData)} {j : Nat} {et dl newEnd : Int}
    (hs : SortedKeys m) (hgood : resGood dim m) (htot : rscValid total)
    (hdim : total.length = dim) (hdem : rscValid dem)
    (hlen : dem.length = dim)
    (h : endJobReservation total m j et dl newEnd dem = some m') :
    resGood dim m' := by
  obtain ⟨h1, h2, m1, hm1, hrem⟩ := endJobReservation_elim h
  have hg1 : resGood dim m1 := by
    rcases hm1 with ⟨hlt, hr⟩ | ⟨heq, rfl⟩
    · exact resGood_removeEndEvent
        (resGood_insertEndEvent hs hgood htot hdim newEnd j) hr
    · exact hgood
  have hg2 : resGood dim
      (if newEnd < dl then creditRange m1 newEnd dl dem else m1) := by
    split
    · exact resGood_creditRange hg1 hlen hdem newEnd dl
    · exact hg1
  exact resGood_removeExpireEvent hg2 hrem

/-- A candidate accepted by the `find_schedulable_time` loop dominates
the demand at every timeline key from the candidate entry onwards
within the window. -/
theorem findSchedLoop_success {m : List (Int × TimelineData)}
    {dem : List Int} {L startT : Int} {reserve : Bool} {t : Int}
    (cands : List (Int × TimelineData)) (hc : ∀ p ∈ cands, p ∈ m)
    (h : findSchedLoop m dem L startT reserve cands = some (some t)) :
    startT ≤ t ∧ ∃ q ∈ m, q.1 ≤ t ∧
      ∀ p ∈ m, q.1 ≤ p.1 → p.1 < t + L → allGeq p.2.resources dem := by
  induction cands with
  | nil => simp [findSchedLoop] at h
  | cons e rest ih =>
    obtain ⟨it, v⟩ := e
    unfold findSchedLoop at h
    split at h
    · injection h with h; cases h
    · dsimp only at h
      split at h
      case isTrue hall =>
        injection h with h
        injection h with h
        subst h
        refine ⟨le_max_left _ _, (it, v), hc _ (List.mem_cons_self _ _),
          le_max_right _ _, ?_⟩
        intro p hp hp1 hp2
        have hmem : p ∈ m.filter (fun q =>
            decide (it ≤ q.1) && decide (q.1 < max startT it + L)) := by
          rw [List.mem_filter]
          exact ⟨hp, by simp only [Bool.and_eq_true, decide_eq_true_eq]
                        exact ⟨hp1, hp2⟩⟩
        have := (List.all_eq_true.mp hall) p hmem
        simpa using this
      case isFalse hall =>
        exact ih (fun p hp => hc p (List.mem_cons_of_mem _ hp)) h

/-- Success specification of `find_schedulable_time`: the chosen time
is at or after the requested start, every timeline key in the window
`[t, t + L)` has resources dominating the demand, and so does the
projection materialized at `t` by `_get_data`. -/
theorem findSched_success {c : List Int}
    {m : List (Int × TimelineData)} {dem : List Int} {L startT : Int}
    {reserve : Bool} {t : Int} (hs : SortedKeys m) (hL : 0 < L)
    (htot : allGeq c dem)
    (h : findSchedulableTime m dem L startT reserve = some (some t)) :
    startT ≤ t ∧
    (∀ p ∈ m, t ≤ p.1 → p.1 < t + L → allGeq p.2.resources dem) ∧
    allGeq (getData c m t).resources dem := by
  unfold findSchedulableTime at h
  split at h
  case isTrue hemp =>
    injection h with h
    injection h with h
    subst h
    have hm : m = [] := List.isEmpty_iff.mp hemp
    subst hm
    refine ⟨le_refl _, fun p hp => absurd hp (List.not_mem_nil p), ?_⟩
    simpa [getData, lookupKey, predStrict] using htot
  case isFalse hemp =>
    obtain ⟨hst, q, hq, hqt, hdom⟩ := findSchedLoop_success _
      (fun p hp => (mem_itemsBetween.mp hp).1) h
    refine ⟨hst, ?_, ?_⟩
    · intro p hp hp1 hp2
      exact hdom p hp (by omega) hp2
    · unfold getData
      cases ht : lookupKey m t with
      | some d =>
        exact hdom (t, d) (mem_of_lookupKey_eq_some ht) hqt (by omega)
      | none =>
        have hqne : q.1 ≠ t := by
          intro hc
          have hlq : lookupKey m t = some q.2 := by
            rw [← hc]
            exact lookupKey_eq_some_of_mem hs (by simpa using hq)
          rw [ht] at hlq
          cases hlq
        have hqlt : q.1 < t := by omega
        cases hp : predStrict m t with
        | none =>
          exfalso
          have := (predStrict_eq_none_iff hs).mp hp q hq
          omega
        | some e =>
          dsimp only
          obtain ⟨hem, helt, hemax⟩ := predStrict_eq_some_spec hs hp
          have hqe : q.1 ≤ e.1 := hemax q hq hqlt
          exact hdom e hem (by omega) (by omega)

theorem resGood_addJobReservation {dim : Nat} {total dem : List Int}
    {m : List (Int × TimelineData)} {j : Nat} {st dl : Int}
    (hs : SortedKeys m) (hgood : resGood dim m) (htot : rscValid total)
    (hdim : total.length = dim) (hdem : rscValid dem)
    (hlen : dem.length = dim)
    (hdom : ∀ p ∈ m, st ≤ p.1 → p.1 < dl → allGeq p.2.resources dem)
    (hget : allGeq (getData total m st).resources dem) :
    resGood dim (addJobReservation total m j st dl dem) := by
  unfold addJobReservation
  have hg1 : resGood dim (insertStartEvent total m st j) := by
    unfold insertStartEvent
    refine resGood_insertSorted hgood ?_ st
    exact getData_good hs hgood htot hdim st
  have hs1 : SortedKeys (insertStartEvent total m st j) := by
    unfold insertStartEvent
    exact sortedKeys_insertSorted hs st _
  have hg2 : resGood dim
      (insertExpireEvent total (insertStartEvent total m st j) dl j) := by
    unfold insertExpireEvent
    refine resGood_insertSorted hg1 ?_ dl
    exact getData_good hs1 hg1 htot hdim dl
  refine resGood_debitRange hg2 hlen ?_
  intro p hp hp1 hp2 i hi
  unfold insertExpireEvent at hp
  rcases mem_insertSorted_elim hp with hpd | hp
  · exfalso
    have hpk : p.1 = dl := by rw [hpd]
    omega
  · unfold insertStartEvent at hp
    rcases mem_insertSorted_elim hp with hps | hp
    · obtain ⟨hgl, hgc⟩ := allGeq_iff_compAt.mp hget
      have hglen := (getData_good hs hgood htot hdim st).1
      have hres : p.2.resources = (getData total m st).resources := by
        rw [hps]
      rw [hres]
      exact hgc i (by omega)
    · obtain ⟨hl, hc⟩ := allGeq_iff_compAt.mp (hdom p hp hp1 hp2)
      have hplen := (hgood p hp).1
      exact hc i (by omega)

theorem resGood_removeJobReservation {dim : Nat} {dem : List Int}
    {m tl' : List (Int × TimelineData)} {j : Nat} {st dl : Int}
    (hgood : resGood dim m) (hdem : rscValid dem) (hlen : dem.length = dim)
    (h : removeJobReservation m j st dl dem = some tl') :
    resGood dim tl' := by
  obtain ⟨m1, m2, h1, h2, rfl⟩ := removeJobReservation_elim h
  exact resGood_creditRange
    (resGood_removeExpireEvent (resGood_removeStartEvent hgood h1) h2)
    hlen hdem st dl

theorem resGood_of_inv {s : SysState} (hinv : Inv1 s)
    (hval : timelineResValid s.total.length s.timeline) :
    resGood s.total.length s.timeline :=
  fun p hp => ⟨(hinv.2.2.2.2.2.2 p hp).1, hval p hp⟩

theorem resValid_of_good {dim : Nat} {m : List (Int × TimelineData)}
    (h : resGood dim m) : timelineResValid dim m :=
  fun p hp => (h p hp).2

/-! ## C2: temporal-placement helpers -/

theorem jobTimesOK_reserved {jr : JobRec} {cur : Int}
    (h : jobTimesOK jr cur) (hst : jr.state = JState.reserved) :
    ∃ st, jr.startTime = some st ∧ cur < st := by
  unfold jobTimesOK at h
  rw [hst] at h
  exact h

theorem jobTimesOK_started {jr : JobRec} {cur : Int}
    (h : jobTimesOK jr cur) (hst : jr.state = JState.started) :
    ∃ st, jr.startTime = some st ∧ st ≤ cur ∧
      jr.endTime = some (st + jr.actualRuntime) ∧
      cur < st + jr.actualRuntime := by
  unfold jobTimesOK at h
  rw [hst] at h
  exact h

theorem jobTimesOK_finished {jr : JobRec} {cur : Int}
    (h : jobTimesOK jr cur) (hst : jr.state = JState.finished) :
    ∃ et, jr.endTime = some et ∧ et ≤ cur := by
  unfold jobTimesOK at h
  rw [hst] at h
  exact h

theorem jobTimesMid_reserved {jr : JobRec} {cur : Int}
    (h : jobTimesMid jr cur) (hst : jr.state = JState.reserved) :
    ∃ st, jr.startTime = some st ∧ cur ≤ st := by
  unfold jobTimesMid at h
  rw [hst] at h
  exact h

theorem jobTimesMid_started {jr : JobRec} {cur : Int}
    (h : jobTimesMid jr cur) (hst : jr.state = JState.started) :
    ∃ st, jr.startTime = some st ∧ st ≤ cur ∧
      jr.endTime = some (st + jr.actualRuntime) ∧
      cur ≤ st + jr.actualRuntime := by
  unfold jobTimesMid at h
  rw [hst] at h
  exact h

theorem jobTimesMid_finished {jr : JobRec} {cur : Int}
    (h : jobTimesMid jr cur) (hst : jr.state = JState.finished) :
    ∃ et, jr.endTime = some et ∧ et ≤ cur := by
  unfold jobTimesMid at h
  rw [hst] at h
  exact h

theorem jobTimesMid_of_OK {jr : JobRec} {cur : Int}
    (h : jobTimesOK jr cur) : jobTimesMid jr cur := by
  unfold jobTimesOK at h
  unfold jobTimesMid
  rcases hst : jr.state <;> rw [hst] at h
  · exact h
  · obtain ⟨st, h1, h2, h3, h4⟩ := h
    exact ⟨st, h1, h2, h3, by omega⟩
  · obtain ⟨st, h1, h2⟩ := h
    exact ⟨st, h1, by omega⟩
  · exact h

/-! ## C2: invariant preservation through the scheduling operations -/

theorem enqueueJob_inv2 {s s' : SysState} {tl : Int} {dem : List Int}
    {rt : Int} (hinv : Inv2 s) (hdem : rscValid dem) (hrt : 0 < rt)
    (hrtl : rt ≤ tl) (h : enqueueJob s tl dem rt = EnqResult.ok s') :
    Inv2 s' := by
  obtain ⟨hinv1, htot, hval, hjv, hjt⟩ := hinv
  have hinv1' := enqueueJob_inv1 hinv1 h
  unfold enqueueJob at h
  split at h
  case isFalse => cases h
  case isTrue h1 =>
    split at h
    case isFalse => cases h
    case isTrue h2 =>
      injection h with h
      subst h
      refine ⟨hinv1', htot, hval, ?_, ?_⟩
      · intro jr hjr
        rcases List.mem_append.mp hjr with hjr | hjr
        · exact hjv jr hjr
        · rcases List.mem_singleton.mp hjr with rfl
          exact ⟨hdem, h2, hrt, hrtl⟩
      · intro jr hjr
        rcases List.mem_append.mp hjr with hjr | hjr
        · exact hjt jr hjr
        · rcases List.mem_singleton.mp hjr with rfl
          trivial

theorem startOrReserve_inv2 {s : SysState} {j : Nat} {r : Bool}
    {st : JState} {s' : SysState} (hinv : Inv2 s)
    (h : startOrReserveJob s j r = some (st, s')) : Inv2 s' := by
  obtain ⟨hinv1, htot, hval, hjv, hjt⟩ := hinv
  have hgood : resGood s.total.length s.timeline := resGood_of_inv hinv1 hval
  obtain ⟨jr, hj, hcase⟩ := startOrReserveJob_elim h
  have hjmem : jr ∈ s.jobs := List.getElem?_mem hj
  have hjval := hjv jr hjmem
  have hlen : jr.resources.length = s.total.length := (hinv1.2.1 jr hjmem).1
  have htl : 0 < jr.timelimit := (hinv1.2.1 jr hjmem).2
  rcases hcase with ⟨_, rfl, _⟩ | ⟨t, hf, hlt, _, hres⟩ | ⟨hf, _, hstart⟩
  · exact ⟨hinv1, htot, hval, hjv, hjt⟩
  · -- reservation at a strictly future time t
    have hinv1' := reserveJob_inv1 hinv1 hres
    obtain ⟨jr2, hj2, _, hpend, rfl⟩ := reserveJob_elim hres
    rw [hj] at hj2
    injection hj2 with hj2e
    subst hj2e
    obtain ⟨hst, hdomW, hget⟩ :=
      findSched_success (c := s.total) hinv1.1 htl hjval.2.1 hf
    refine ⟨hinv1', htot, ?_, ?_, ?_⟩
    · refine resValid_of_good (resGood_addJobReservation hinv1.1 hgood
        htot rfl hjval.1 hlen ?_ hget)
      intro p hp hp1 hp2
      exact hdomW p hp hp1 hp2
    · intro jr' hjr'
      rcases List.mem_or_eq_of_mem_set hjr' with hmem | rfl
      · exact hjv jr' hmem
      · exact hjval
    · intro jr' hjr'
      rcases List.mem_or_eq_of_mem_set hjr' with hmem | rfl
      · exact hjt jr' hmem
      · exact ⟨t, rfl, hlt⟩
  · -- start at the current time
    have hinv1' := startJob_inv1 hinv1 hstart
    obtain ⟨jr2, hj2, hcase2⟩ := startJob_elim hstart
    rw [hj] at hj2
    injection hj2 with hj2e
    subst hj2e
    rcases hcase2 with ⟨hrsv, hst0, _, rfl⟩ | ⟨hpend, rfl⟩
    · -- a RESERVED job cannot have start time equal to cur_time
      exfalso
      obtain ⟨st0, hst1, hlt1⟩ := jobTimesOK_reserved (hjt jr hjmem) hrsv
      rw [hst0] at hst1
      injection hst1 with hst1
      omega
    · obtain ⟨hst, hdomW, hget⟩ :=
        findSched_success (c := s.total) hinv1.1 htl hjval.2.1 hf
      have hrt : 0 < jr.actualRuntime := hjval.2.2.1
      have hadd : resGood s.total.length
          (addJobReservation s.total s.timeline j s.curTime
            (s.curTime + jr.timelimit) jr.resources) := by
        refine resGood_addJobReservation hinv1.1 hgood htot rfl hjval.1
          hlen ?_ hget
        intro p hp hp1 hp2
        exact hdomW p hp hp1 hp2
      have hsadd : SortedKeys
          (addJobReservation s.total s.timeline j s.curTime
            (s.curTime + jr.timelimit) jr.resources) :=
        sorted_addJobReservation hinv1.1 s.total j s.curTime
          (s.curTime + jr.timelimit) jr.resources
      refine ⟨hinv1', htot, ?_, ?_, ?_⟩
      · exact resValid_of_good
          (resGood_insertEndEvent hsadd hadd htot rfl
            (s.curTime + jr.actualRuntime) j)
      · intro jr' hjr'
        rcases List.mem_or_eq_of_mem_set hjr' with hmem | rfl
        · exact hjv jr' hmem
        · exact hjval
      · intro jr' hjr'
        rcases List.mem_or_eq_of_mem_set hjr' with hmem | rfl
        · exact hjt jr' hmem
        · refine ⟨s.curTime, rfl, ?_, rfl, ?_⟩
          · show s.curTime ≤ s.curTime
            omega
          · show s.curTime < s.curTime + jr.actualRuntime
            omega

theorem unreserveOne_inv2 {s s' : SysState} {j : Nat} (hinv : Inv2 s)
    (h : unreserveOne s j = some s') : Inv2 s' := by
  obtain ⟨hinv1, htot, hval, hjv, hjt⟩ := hinv
  have hgood := resGood_of_inv hinv1 hval
  have hinv1' := unreserveOne_inv1 hinv1 h
  obtain ⟨jr, st0, dl0, tl', hj, hst, hdl, hrsv, htl, rfl⟩ :=
    unreserveOne_elim h
  have hjmem : jr ∈ s.jobs := List.getElem?_mem hj
  have hjval := hjv jr hjmem
  have hlen : jr.resources.length = s.total.length := (hinv1.2.1 jr hjmem).1
  refine ⟨hinv1', htot, ?_, ?_, ?_⟩
  · exact resValid_of_good
      (resGood_removeJobReservation hgood hjval.1 hlen htl)
  · intro jr' hjr'
    rcases List.mem_or_eq_of_mem_set hjr' with hmem | rfl
    · exact hjv jr' hmem
    · exact hjval
  · intro jr' hjr'
    rcases List.mem_or_eq_of_mem_set hjr' with hmem | rfl
    · exact hjt jr' hmem
    · trivial

theorem unreserveFold_inv2 {l : List Nat} {s s' : SysState}
    (hinv : Inv2 s) (h : unreserveFold l s = some s') : Inv2 s' := by
  induction l generalizing s with
  | nil =>
    unfold unreserveFold at h
    injection h with h
    rw [← h]
    exact hinv
  | cons j rest ih =>
    unfold unreserveFold at h
    cases h1 : unreserveOne s j with
    | none =>
      rw [h1] at h
      simp only [Option.bind_eq_bind, Option.none_bind] at h
      cases h
    | some s1 =>
      rw [h1] at h
      simp only [Option.bind_eq_bind, Option.some_bind] at h
      exact ih (unreserveOne_inv2 hinv h1) h

theorem unreserveAllJobs_inv2 {s s' : SysState} (hinv : Inv2 s)
    (h : unreserveAllJobs s = some s') : Inv2 s' := by
  unfold unreserveAllJobs at h
  dsimp only at h
  cases h1 : unreserveFold
      (List.insertionSort (fun a b => b ≤ a) s.reserved) s with
  | none =>
    rw [h1] at h
    simp only [Option.bind_eq_bind, Option.none_bind] at h
    cases h
  | some s1 =>
    rw [h1] at h
    simp only [Option.bind_eq_bind, Option.some_bind,
      Option.some.injEq] at h
    have h2 := unreserveFold_inv2 hinv h1
    rw [← h]
    exact h2

theorem fcfsLoop_inv2 {n : Nat} {s s' : SysState} (hinv : Inv2 s)
    (h : fcfsLoop n s = some s') : Inv2 s' := by
  induction n generalizing s with
  | zero =>
    unfold fcfsLoop at h
    split at h
    · injection h with h; rw [← h]; exact hinv
    · cases h
  | succ n ih =>
    unfold fcfsLoop at h
    cases hp : s.pending with
    | nil =>
      rw [hp] at h
      injection h with h
      rw [← h]
      exact hinv
    | cons j rest =>
      rw [hp] at h
      dsimp only at h
      cases h1 : startOrReserveJob s j false with
      | none =>
        rw [h1] at h
        simp only [Option.bind_eq_bind, Option.none_bind] at h
        cases h
      | some pr =>
        obtain ⟨st1, s1⟩ := pr
        rw [h1] at h
        simp only [Option.bind_eq_bind, Option.some_bind] at h
        have hinv1 : Inv2 s1 := startOrReserve_inv2 hinv h1
        split at h
        · exact ih
            (show Inv2 { s1 with pending := s1.pending.tail } from hinv1) h
        · injection h with h; rw [← h]; exact hinv1

theorem backfillLoop_inv2 {cap : Option Nat} {n cnt : Nat}
    {acc : List Nat} {s s' : SysState} (hinv : Inv2 s)
    (h : backfillLoop cap n cnt acc s = some s') : Inv2 s' := by
  induction n generalizing cnt acc s with
  | zero =>
    unfold backfillLoop at h
    split at h
    · injection h with h
      rw [← h]
      exact hinv
    · cases h
  | succ n ih =>
    unfold backfillLoop at h
    cases hp : s.pending with
    | nil =>
      rw [hp] at h
      injection h with h
      rw [← h]
      exact hinv
    | cons j rest =>
      rw [hp] at h
      dsimp only at h
      have hinv0 : Inv2 { s with pending := rest } := hinv
      split at h
      · cases h1 : startOrReserveJob { s with pending := rest } j true with
        | none =>
          rw [h1] at h
          simp only [Option.bind_eq_bind, Option.none_bind] at h
          cases h
        | some pr =>
          obtain ⟨st1, s1⟩ := pr
          rw [h1] at h
          simp only [Option.bind_eq_bind, Option.some_bind] at h
          have hinv1 : Inv2 s1 := startOrReserve_inv2 hinv0 h1
          split at h
          · cases h
          · exact ih hinv1 h
      · cases h1 : startOrReserveJob { s with pending := rest } j false with
        | none =>
          rw [h1] at h
          simp only [Option.bind_eq_bind, Option.none_bind] at h
          cases h
        | some pr =>
          obtain ⟨st1, s1⟩ := pr
          rw [h1] at h
          simp only [Option.bind_eq_bind, Option.some_bind] at h
          have hinv1 : Inv2 s1 := startOrReserve_inv2 hinv0 h1
          split at h
          · cases h
          · exact ih hinv1 h

theorem policy_inv2 {pol : SysState → Option SysState}
    (hpol : PolicyOf pol) {s s' : SysState} (hinv : Inv2 s)
    (h : pol s = some s') : Inv2 s' := by
  rcases hpol with rfl | ⟨cap, rfl⟩
  · exact fcfsLoop_inv2 hinv h
  · unfold backfillSched at h
    cases h1 : unreserveAllJobs s with
    | none =>
      rw [h1] at h
      simp only [Option.bind_eq_bind, Option.none_bind] at h
      cases h
    | some s1 =>
      rw [h1] at h
      simp only [Option.bind_eq_bind, Option.some_bind] at h
      exact backfillLoop_inv2 (unreserveAllJobs_inv2 hinv h1) h

theorem runSchedLoop_inv2 {pol : SysState → Option SysState}
    (hpol : PolicyOf pol) {s s' : SysState} (hinv : Inv2 s)
    (h : runSchedLoop pol s = some s') : Inv2 s' := by
  unfold runSchedLoop at h
  split at h
  · cases h1 : pol s with
    | none =>
      rw [h1] at h
      simp only [Option.bind_eq_bind, Option.none_bind] at h
      cases h
    | some s1 =>
      rw [h1] at h
      simp only [Option.bind_eq_bind, Option.some_bind,
        Option.some.injEq] at h
      have h2 := policy_inv2 hpol hinv h1
      rw [← h]
      exact h2
  · injection h with h
    rw [← h]
    exact hinv

/-! ## C2: invariant preservation through handle_events -/

theorem startReservedJob_inv2m {s s' : SysState} {j : Nat}
    (hinv : Inv2m s) (h : startReservedJob s j = some s') :
    Inv2m s' ∧ s'.curTime = s.curTime ∧ s'.total = s.total ∧
    s'.jobs.length = s.jobs.length ∧
    ∃ jr, s.jobs[j]? = some jr ∧ jr.state = JState.reserved ∧
      s'.jobs = s.jobs.set j (jobStarted jr s.curTime) := by
  obtain ⟨hinv1, htot, hval, hjv, hjt⟩ := hinv
  have hgood := resGood_of_inv hinv1 hval
  have hinv1' := startReservedJob_inv1 hinv1 h
  unfold startReservedJob at h
  cases hj : s.jobs[j]? with
  | none => rw [hj] at h; cases h
  | some jr =>
    rw [hj] at h
    simp only [Option.bind_eq_bind, Option.some_bind] at h
    split at h
    case isFalse h1 => cases h
    case isTrue h1 =>
      obtain ⟨jr2, hj2, hcase⟩ := startJob_elim h
      rw [hj] at hj2
      injection hj2 with hj2e
      subst hj2e
      have hjmem : jr ∈ s.jobs := List.getElem?_mem hj
      have hjval := hjv jr hjmem
      rcases hcase with ⟨hrsv, hst0, hres0, rfl⟩ | ⟨hpend, rfl⟩
      · refine ⟨⟨hinv1', htot, ?_, ?_, ?_⟩, rfl, rfl,
          by simp [startJobR, setJob], jr, rfl, hrsv, rfl⟩
        · exact resValid_of_good
            (resGood_insertEndEvent hinv1.1 hgood htot rfl
              (s.curTime + jr.actualRuntime) j)
        · intro jr' hjr'
          rcases List.mem_or_eq_of_mem_set hjr' with hmem | rfl
          · exact hjv jr' hmem
          · exact hjval
        · intro jr' hjr'
          rcases List.mem_or_eq_of_mem_set hjr' with hmem | rfl
          · exact hjt jr' hmem
          · refine ⟨s.curTime, rfl, ?_, rfl, ?_⟩
            · show s.curTime ≤ s.curTime
              omega
            · show s.curTime ≤ s.curTime + jr.actualRuntime
              have := hjval.2.2.1
              omega
      · rw [hpend] at h1
        cases h1

theorem endJob_inv2m {s s' : SysState} {j : Nat} (hinv : Inv2m s)
    (h : endJob s j = some s') :
    Inv2m s' ∧ s'.curTime = s.curTime ∧ s'.total = s.total ∧
    s'.jobs.length = s.jobs.length ∧
    ∃ jr, s.jobs[j]? = some jr ∧ jr.state = JState.started ∧
      s'.jobs = s.jobs.set j (jobEnded jr s.curTime) := by
  obtain ⟨hinv1, htot, hval, hjv, hjt⟩ := hinv
  have hgood := resGood_of_inv hinv1 hval
  have hinv1' := endJob_inv1 hinv1 h
  obtain ⟨jr, st0, et0, dl0, tl', hj, hst, het, hdl, hstc, hsta, htl,
    rfl⟩ := endJob_elim h
  have hjmem : jr ∈ s.jobs := List.getElem?_mem hj
  have hjval := hjv jr hjmem
  have hlen : jr.resources.length = s.total.length := (hinv1.2.1 jr hjmem).1
  refine ⟨⟨hinv1', htot, ?_, ?_, ?_⟩, rfl, rfl,
    by simp [endJobRes, setJob], jr, hj, hsta, rfl⟩
  · exact resValid_of_good
      (resGood_endJobReservation hinv1.1 hgood htot rfl hjval.1 hlen htl)
  · intro jr' hjr'
    rcases List.mem_or_eq_of_mem_set hjr' with hmem | rfl
    · exact hjv jr' hmem
    · exact hjval
  · intro jr' hjr'
    rcases List.mem_or_eq_of_mem_set hjr' with hmem | rfl
    · exact hjt jr' hmem
    · refine ⟨s.curTime, rfl, ?_⟩
      show s.curTime ≤ s.curTime
      omega

theorem foldStartJobs_inv2m {l : List Nat} {s s' : SysState}
    (hinv : Inv2m s) (h : foldStartJobs l s = some s') :
    Inv2m s' ∧ s'.curTime = s.curTime ∧ s'.total = s.total ∧
    s'.jobs.length = s.jobs.length ∧
    (∀ x ∈ l, jobStateIs s' x JState.started) ∧
    (∀ (x : Nat) (jr : JobRec), s'.jobs[x]? = some jr →
      jr.state ≠ JState.started → s.jobs[x]? = some jr) := by
  induction l generalizing s with
  | nil =>
    unfold foldStartJobs at h
    injection h with h
    subst h
    exact ⟨hinv, rfl, rfl, rfl, by simp, fun x jr hx _ => hx⟩
  | cons j rest ih =>
    unfold foldStartJobs at h
    cases h1 : startReservedJob s j with
    | none =>
      rw [h1] at h
      simp only [Option.bind_eq_bind, Option.none_bind] at h
      cases h
    | some s1 =>
      rw [h1] at h
      simp only [Option.bind_eq_bind, Option.some_bind] at h
      obtain ⟨hinv1, hcur1, htot1, hlen1, jr, hj, hrsv, hjobs1⟩ :=
        startReservedJob_inv2m hinv h1
      obtain ⟨hinv2, hcur2, htot2, hlen2, hmem2, hback2⟩ := ih hinv1 h
      have hjlt : j < s.jobs.length := (List.getElem?_eq_some_iff.mp hj).1
      have hj1 : s1.jobs[j]? = some (jobStarted jr s.curTime) := by
        rw [hjobs1]
        exact List.getElem?_set_self hjlt
      refine ⟨hinv2, hcur2.trans hcur1, htot2.trans htot1,
        hlen2.trans hlen1, ?_, ?_⟩
      · intro x hx
        rcases List.mem_cons.mp hx with rfl | hx
        · have hxlt : x < s'.jobs.length := by omega
          have hj' : s'.jobs[x]? = some (s'.jobs.get ⟨x, hxlt⟩) := by
            rw [List.getElem?_eq_getElem hxlt]
            rfl
          by_cases hsta : (s'.jobs.get ⟨x, hxlt⟩).state = JState.started
          · exact ⟨s'.jobs.get ⟨x, hxlt⟩, hj', hsta⟩
          · exfalso
            have h3 := hback2 x (s'.jobs.get ⟨x, hxlt⟩) hj' hsta
            rw [hj1] at h3
            injection h3 with h3
            rw [← h3] at hsta
            exact hsta rfl
        · exact hmem2 x hx
      · intro x jr' hx hsta
        have h2 := hback2 x jr' hx hsta
        by_cases hxj : x = j
        · exfalso
          subst hxj
          rw [hj1] at h2
          injection h2 with h2
          rw [← h2] at hsta
          exact hsta rfl
        · rw [hjobs1, List.getElem?_set_ne (fun hc => hxj hc.symm)] at h2
          exact h2

theorem foldEndJobs_inv2m {l : List Nat} {s s' : SysState}
    (hinv : Inv2m s) (h : foldEndJobs l s = some s') :
    Inv2m s' ∧ s'.curTime = s.curTime ∧ s'.total = s.total ∧
    s'.jobs.length = s.jobs.length ∧
    (∀ x ∈ l, jobStateIs s' x JState.finished) ∧
    (∀ (x : Nat) (jr : JobRec), s'.jobs[x]? = some jr →
      jr.state ≠ JState.finished → s.jobs[x]? = some jr) := by
  induction l generalizing s with
  | nil =>
    unfold foldEndJobs at h
    injection h with h
    subst h
    exact ⟨hinv, rfl, rfl, rfl, by simp, fun x jr hx _ => hx⟩
  | cons j rest ih =>
    unfold foldEndJobs at h
    cases h1 : endJob s j with
    | none =>
      rw [h1] at h
      simp only [Option.bind_eq_bind, Option.none_bind] at h
      cases h
    | some s1 =>
      rw [h1] at h
      simp only [Option.bind_eq_bind, Option.some_bind] at h
      obtain ⟨hinv1, hcur1, htot1, hlen1, jr, hj, hsta0, hjobs1⟩ :=
        endJob_inv2m hinv h1
      obtain ⟨hinv2, hcur2, htot2, hlen2, hmem2, hback2⟩ := ih hinv1 h
      have hjlt : j < s.jobs.length := (List.getElem?_eq_some_iff.mp hj).1
      have hj1 : s1.jobs[j]? = some (jobEnded jr s.curTime) := by
        rw [hjobs1]
        exact List.getElem?_set_self hjlt
      refine ⟨hinv2, hcur2.trans hcur1, htot2.trans htot1,
        hlen2.trans hlen1, ?_, ?_⟩
      · intro x hx
        rcases List.mem_cons.mp hx with rfl | hx
        · have hxlt : x < s'.jobs.length := by omega
          have hj' : s'.jobs[x]? = some (s'.jobs.get ⟨x, hxlt⟩) := by
            rw [List.getElem?_eq_getElem hxlt]
            rfl
          by_cases hfin : (s'.jobs.get ⟨x, hxlt⟩).state = JState.finished
          · exact ⟨s'.jobs.get ⟨x, hxlt⟩, hj', hfin⟩
          · exfalso
            have h3 := hback2 x (s'.jobs.get ⟨x, hxlt⟩) hj' hfin
            rw [hj1] at h3
            injection h3 with h3
            rw [← h3] at hfin
            exact hfin rfl
        · exact hmem2 x hx
      · intro x jr' hx hfin
        have h2 := hback2 x jr' hx hfin
        by_cases hxj : x = j
        · exfalso
          subst hxj
          rw [hj1] at h2
          injection h2 with h2
          rw [← h2] at hfin
          exact hfin rfl
        · rw [hjobs1, List.getElem?_set_ne (fun hc => hxj hc.symm)] at h2
          exact h2

theorem handleEvents_inv2 {s : SysState} {b : Bool} {s' : SysState}
    (hinv : Inv2 s) (h : handleEvents s = some (b, s')) : Inv2 s' := by
  obtain ⟨hinv1, htot, hval, hjv, hjt⟩ := hinv
  unfold handleEvents at h
  cases hne : nextEvent s.timeline s.curTime with
  | none =>
    rw [hne] at h
    injection h with h
    injection h with h1 h2
    rw [← h2]
    exact ⟨hinv1, htot, hval, hjv, hjt⟩
  | some e =>
    rw [hne] at h
    obtain ⟨k, v⟩ := e
    dsimp only at h
    unfold nextEvent at hne
    obtain ⟨hkm, hkge, hkmin⟩ := succIncl_eq_some_spec hinv1.1 hne
    have hinv1k : Inv1 { s with curTime := k } := hinv1
    have hmid0 : Inv2m { s with curTime := k } := by
      refine ⟨hinv1k, htot, hval, hjv, ?_⟩
      intro jr hjr
      rcases List.mem_iff_getElem.mp hjr with ⟨x, hxlt, hxe⟩
      have hx? : s.jobs[x]? = some jr := by
        rw [List.getElem?_eq_getElem hxlt, hxe]
      have hex := hinv1.2.2.2.2.1 x hxlt
      rw [hx?] at hex
      dsimp only at hex
      have hjtm := hjt jr hjr
      show jobTimesMid jr k
      unfold jobTimesMid
      rcases hstate : jr.state with _ | _ | _ | _
      · trivial
      · -- started
        obtain ⟨st, hst, hstle, het, hlt⟩ := jobTimesOK_started hjtm hstate
        have h3 := hex.2.2
        rw [het] at h3
        dsimp only at h3
        have h4 := h3 (Or.inl hstate)
        cases hl : lookupKey s.timeline (st + jr.actualRuntime) with
        | none => rw [hl] at h4; exact absurd h4 (fun hc => hc)
        | some d =>
          have hmem : (st + jr.actualRuntime, d) ∈ s.timeline :=
            mem_of_lookupKey_eq_some hl
          have hkle := hkmin _ hmem (by omega)
          exact ⟨st, hst, by omega, het, by omega⟩
      · -- reserved
        obtain ⟨st, hst, hlt⟩ := jobTimesOK_reserved hjtm hstate
        have h3 := hex.1
        rw [hst] at h3
        dsimp only at h3
        have h4 := h3 (Or.inl hstate)
        cases hl : lookupKey s.timeline st with
        | none => rw [hl] at h4; exact absurd h4 (fun hc => hc)
        | some d =>
          have hmem : (st, d) ∈ s.timeline := mem_of_lookupKey_eq_some hl
          have hkle := hkmin _ hmem (by omega)
          exact ⟨st, hst, by omega⟩
      · -- finished
        obtain ⟨et, het, hle⟩ := jobTimesOK_finished hjtm hstate
        exact ⟨et, het, by omega⟩
    cases h1 : foldStartJobs (startSetAt s.timeline k)
        { s with curTime := k } with
    | none =>
      rw [h1] at h
      simp only [Option.bind_eq_bind, Option.none_bind] at h
      cases h
    | some s1 =>
      rw [h1] at h
      simp only [Option.bind_eq_bind, Option.some_bind] at h
      obtain ⟨hmid1, hcur1, htot1, hlen1, hstarted1, hback1⟩ :=
        foldStartJobs_inv2m hmid0 h1
      have hc1 : s1.curTime = k := hcur1
      have ht1 : s1.total = s.total := htot1
      have hres1 : ∀ (x : Nat) (jr : JobRec), s1.jobs[x]? = some jr →
          jr.state = JState.reserved →
          ∃ st, jr.startTime = some st ∧ k < st := by
        intro x jr hx hrsv
        have hback := hback1 x jr hx (by rw [hrsv]; intro hc; cases hc)
        have hxlt : x < s.jobs.length :=
          (List.getElem?_eq_some_iff.mp hback).1
        have hjrmem : jr ∈ s.jobs := List.getElem?_mem hback
        have hmidj : jobTimesMid jr k := hmid0.2.2.2.2 jr hjrmem
        obtain ⟨st, hst, hle⟩ := jobTimesMid_reserved hmidj hrsv
        refine ⟨st, hst, ?_⟩
        rcases lt_or_eq_of_le hle with hlt | heq
        · exact hlt
        · exfalso
          have hex := hinv1.2.2.2.2.1 x hxlt
          rw [hback] at hex
          dsimp only at hex
          have h2 := hex.1
          rw [hst] at h2
          dsimp only at h2
          have h3 := h2 (Or.inl hrsv)
          rw [← heq] at h3
          cases hl : lookupKey s.timeline k with
          | none => rw [hl] at h3; exact h3
          | some d =>
            rw [hl] at h3
            have hxs : x ∈ startSetAt s.timeline k :=
              mem_startSetAt.mpr ⟨d, hl, h3⟩
            obtain ⟨jr2, hj2, hsta2⟩ := hstarted1 x hxs
            rw [hx] at hj2
            injection hj2 with hj2
            rw [← hj2] at hsta2
            rw [hrsv] at hsta2
            cases hsta2
      cases h2 : foldEndJobs (endSetAt s1.timeline k) s1 with
      | none =>
        rw [h2] at h
        simp only [Option.none_bind] at h
        cases h
      | some s2 =>
        rw [h2] at h
        simp only [Option.some_bind] at h
        obtain ⟨hmid2, hcur2, htot2, hlen2, hfin2, hback2⟩ :=
          foldEndJobs_inv2m hmid1 h2
        have hc2 : s2.curTime = k := by rw [hcur2, hc1]
        have ht2 : s2.total = s.total := by rw [htot2, ht1]
        have hres2 : ∀ (x : Nat) (jr : JobRec), s2.jobs[x]? = some jr →
            jr.state = JState.reserved →
            ∃ st, jr.startTime = some st ∧ k < st := by
          intro x jr hx hrsv
          exact hres1 x jr
            (hback2 x jr hx (by rw [hrsv]; intro hc; cases hc)) hrsv
        have hsta2 : ∀ (x : Nat) (jr : JobRec), s2.jobs[x]? = some jr →
            jr.state = JState.started →
            ∃ st, jr.startTime = some st ∧ st ≤ k ∧
              jr.endTime = some (st + jr.actualRuntime) ∧
              k < st + jr.actualRuntime := by
          intro x jr hx hsta
          have hback := hback2 x jr hx (by rw [hsta]; intro hc; cases hc)
          have hxlt1 : x < s1.jobs.length :=
            (List.getElem?_eq_some_iff.mp hback).1
          have hjrmem1 : jr ∈ s1.jobs := List.getElem?_mem hback
          obtain ⟨st, hst, hstle, het, hetle⟩ :=
            jobTimesMid_started (hmid1.2.2.2.2 jr hjrmem1) hsta
          have hex1 := hmid1.1.2.2.2.2.1 x hxlt1
          rw [hback] at hex1
          dsimp only at hex1
          have h3 := hex1.2.2
          rw [het] at h3
          dsimp only at h3
          have h4 := h3 (Or.inl hsta)
          by_cases heqk : st + jr.actualRuntime = k
          · exfalso
            rw [heqk] at h4
            cases hl : lookupKey s1.timeline k with
            | none => rw [hl] at h4; exact h4
            | some d =>
              rw [hl] at h4
              have hxe : x ∈ endSetAt s1.timeline k :=
                mem_endSetAt.mpr ⟨d, hl, h4⟩
              obtain ⟨jr2, hj2, hfin⟩ := hfin2 x hxe
              rw [hx] at hj2
              injection hj2 with hj2
              rw [← hj2] at hfin
              rw [hsta] at hfin
              cases hfin
          · exact ⟨st, hst, by omega, het, by omega⟩
        have hexp : expiredSetAt s2.timeline k = [] := by
          cases hel : expiredSetAt s2.timeline k with
          | nil => rfl
          | cons x xs =>
            exfalso
            have hxmem : x ∈ expiredSetAt s2.timeline k := by
              rw [hel]
              exact List.mem_cons_self _ _
            obtain ⟨d, hl, hxd⟩ := mem_expiredSetAt.mp hxmem
            have hmem2 : (k, d) ∈ s2.timeline := mem_of_lookupKey_eq_some hl
            have h5 := (hmid2.1.2.2.2.1 (k, d) hmem2).2.1 x hxd
            cases hx2 : s2.jobs[x]? with
            | none => rw [hx2] at h5; exact h5
            | some jr =>
              rw [hx2] at h5
              dsimp only at h5
              obtain ⟨hdl, hstates⟩ := h5
              have hjrmem2 : jr ∈ s2.jobs := List.getElem?_mem hx2
              have hwfj : JobWF jr := hmid2.1.2.2.1 jr hjrmem2
              have htl0 : 0 < jr.timelimit := (hmid2.1.2.1 jr hjrmem2).2
              have hrtl : jr.actualRuntime ≤ jr.timelimit :=
                (hmid2.2.2.2.1 jr hjrmem2).2.2.2
              rcases hstates with hrsv | hsta
              · obtain ⟨st, hst, hlt⟩ := hres2 x jr hx2 hrsv
                obtain ⟨st2, hst2, _, hdl2⟩ := jobWF_reserved hwfj hrsv
                rw [hst] at hst2
                injection hst2 with hst2
                rw [hdl2] at hdl
                injection hdl with hdl
                omega
              · obtain ⟨st, hst, hstle, het, hlt⟩ := hsta2 x jr hx2 hsta
                obtain ⟨st2, et2, hst2, het2, hdl2⟩ := jobWF_started hwfj hsta
                rw [hst] at hst2
                injection hst2 with hst2
                rw [hdl2] at hdl
                injection hdl with hdl
                omega
        cases h3 : foldEndJobs (expiredSetAt s2.timeline k) s2 with
        | none =>
          rw [h3] at h
          simp only [Option.none_bind] at h
          cases h
        | some s3 =>
          rw [h3] at h
          simp only [Option.some_bind] at h
          rw [hexp] at h3
          unfold foldEndJobs at h3
          injection h3 with h3
          injection h with h
          injection h with hb hs'
          rw [← hs', ← h3]
          refine ⟨hmid2.1, hmid2.2.1, hmid2.2.2.1, hmid2.2.2.2.1, ?_⟩
          intro jr hjr
          rcases List.mem_iff_getElem.mp hjr with ⟨x, hxlt, hxe⟩
          have hx2 : s2.jobs[x]? = some jr := by
            rw [List.getElem?_eq_getElem hxlt, hxe]
          show jobTimesOK jr s2.curTime
          unfold jobTimesOK
          rcases hstate : jr.state with _ | _ | _ | _
          · trivial
          · obtain ⟨st, hst, hstle, het, hlt⟩ := hsta2 x jr hx2 hstate
            exact ⟨st, hst, by omega, het, by omega⟩
          · obtain ⟨st, hst, hlt⟩ := hres2 x jr hx2 hstate
            exact ⟨st, hst, by omega⟩
          · obtain ⟨et, het, hle⟩ :=
              jobTimesMid_finished (hmid2.2.2.2.2 jr hjr) hstate
            exact ⟨et, het, hle⟩

theorem tick_inv2 {pol : SysState → Option SysState}
    (hpol : PolicyOf pol) {s s' : SysState} {b : Bool} (hinv : Inv2 s)
    (h : tick pol s = some (b, s')) : Inv2 s' := by
  unfold tick at h
  cases h1 : runSchedLoop pol s with
  | none =>
    rw [h1] at h
    simp only [Option.bind_eq_bind, Option.none_bind] at h
    cases h
  | some s1 =>
    rw [h1] at h
    simp only [Option.bind_eq_bind, Option.some_bind] at h
    have hinvA := runSchedLoop_inv2 hpol hinv h1
    cases h2 : handleEvents s1 with
    | none =>
      rw [h2] at h
      simp only [Option.none_bind] at h
      cases h
    | some pr =>
      obtain ⟨b2, s2⟩ := pr
      rw [h2] at h
      simp only [Option.some_bind] at h
      have hinvB := handleEvents_inv2 hinvA h2
      cases b2 with
      | false =>
        dsimp only at h
        injection h with h
        injection h with hb hs'
        rw [← hs']
        exact hinvB
      | true =>
        dsimp only at h
        cases h3 : runSchedLoop pol s2 with
        | none =>
          rw [h3] at h
          simp only [Option.bind_eq_bind, Option.none_bind] at h
          cases h
        | some s3 =>
          rw [h3] at h
          simp only [Option.bind_eq_bind, Option.some_bind] at h
          injection h with h
          injection h with hb hs'
          rw [← hs']
          exact runSchedLoop_inv2 hpol hinvB h3

theorem inv2_mkSystem {total : List Int} (htot : rscValid total) :
    Inv2 (mkSystem total) := by
  refine ⟨inv1_mkSystem total, htot, ?_, ?_, ?_⟩
  · intro p hp
    cases hp
  · intro jr hjr
    cases hjr
  · intro jr hjr
    cases hjr

theorem inv2_of_reachableRun {s : SysState} (h : ReachableRun s) :
    Inv2 s := by
  induction h with
  | init total htot => exact inv2_mkSystem htot
  | enqueue hr hdem hrt hrtl he ih =>
    exact enqueueJob_inv2 ih hdem hrt hrtl he
  | step hr hpol ht ih => exact tick_inv2 hpol ih ht

theorem compAt_rangeMap {f : Nat → Int} {n i : Nat} (hi : i < n) :
    compAt ((List.range n).map f) i = f i := by
  unfold compAt
  rw [List.getD_eq_getElem _ 0 (by simpa using hi)]
  simp

/-- Resource safety at a single state, from the run invariant: the
joint demand of the STARTED jobs never exceeds the capacity. -/
theorem inv2_safety {s : SysState} (hinv : Inv2 s) :
    allGeq s.total (startedDemVec s.jobs s.total.length) := by
  obtain ⟨hinv1, htot, hval, hjv, hjt⟩ := hinv
  rw [allGeq_iff_compAt]
  constructor
  · simp [startedDemVec]
  · intro i hi
    have hcomp : compAt (startedDemVec s.jobs s.total.length) i =
        (s.jobs.map (fun jr =>
          if jr.state = JState.started then compAt jr.resources i
          else 0)).sum := by
      unfold startedDemVec
      exact compAt_rangeMap hi
    rw [hcomp]
    have hA : (s.jobs.map (fun jr =>
        if jr.state = JState.started then compAt jr.resources i
        else 0)).sum ≤ demSumAt s.jobs s.curTime i := by
      unfold demSumAt
      apply List.sum_le_sum
      intro jr hjr
      by_cases hsta : jr.state = JState.started
      · rw [if_pos hsta]
        have hcnt : countedAt jr s.curTime = true := by
          obtain ⟨st, hst, hstle, het, hlt⟩ :=
            jobTimesOK_started (hjt jr hjr) hsta
          obtain ⟨st2, et2, hst2, het2, hdl2⟩ :=
            jobWF_started (hinv1.2.2.1 jr hjr) hsta
          rw [hst] at hst2
          injection hst2 with hst2
          have hrtl := (hjv jr hjr).2.2.2
          rw [countedAt_started_eq hsta hst hdl2]
          simp only [decide_eq_true_eq]
          constructor
          · exact hstle
          · omega
        rw [hcnt]
        simp
      · rw [if_neg hsta]
        have h0 : (0:Int) ≤ compAt jr.resources i :=
          compAt_valid (hjv jr hjr).1 i
        split
        · exact h0
        · exact le_refl 0
    have hbc : boundaryClosed s.jobs s.timeline :=
      boundaryClosed_of_exists hinv1.2.2.2.2.1
    have hres := hinv1.2.2.2.2.2.2
    obtain ⟨hglen, hgeq⟩ := getData_res_ok hinv1.1 hres hbc s.curTime
    have hgood := resGood_of_inv hinv1 hval
    have hgval := (getData_good hinv1.1 hgood htot rfl s.curTime).2 i hi
    have hB := hgeq i hi
    omega

/-- C2, amended.  Resource safety holds on every state reached while
`System.run` executes FCFS or backfill (with any cap) on a workload of
valid jobs — nonnegative capacity, accepted enqueues with nonnegative
demands, and positive pinned runtimes within the time limit: at every
`cur_time` the componentwise sum of the demands of the STARTED jobs is
`≤ total_resources`.  (The claim's unrestricted form, which allows
negative demand components, is refuted by
`resourceSafety_claim_false`.) -/
theorem resourceSafety {s : SysState} (h : ReachableRun s) :
    allGeq s.total (startedDemVec s.jobs s.total.length) :=
  inv2_safety (inv2_of_reachableRun h)

/-- Witness for C2 at a concrete run: a unit machine with one accepted
unit job. -/
theorem resourceSafety_witness :
    allGeq (enqOk (mkSystem [1]) 1 [1] 1).total
      (startedDemVec (enqOk (mkSystem [1]) 1 [1] 1).jobs
        (enqOk (mkSystem [1]) 1 [1] 1).total.length) :=
  resourceSafety
    (@ReachableRun.enqueue (mkSystem [1]) (enqOk (mkSystem [1]) 1 [1] 1)
      1 [1] 1 (ReachableRun.init [1] (by decide)) (by decide) (by decide)
      (by decide) (by decide))

/-- C2, as stated, is false: `enqueue_job` only checks
`demand ≤ total_resources` componentwise, so a job with a negative
demand component is accepted; when it finishes early, the credited
range drives the projection negative and later FCFS ticks leave the
STARTED jobs' joint demand exceeding the capacity.  Concretely, on
capacity `[1]` with accepted jobs of demands `[-1]`, `[1]`, `[1]`, one
FCFS tick reaches `cur_time = 5` with the two unit jobs STARTED: their
sum `[2]` is not `≤ [1]`. -/
theorem resourceSafety_claim_false :
    ∃ s, ReachableRunW s ∧
      ¬ allGeq s.total (startedDemVec s.jobs s.total.length) := by
  refine ⟨c2bad, ?_, by decide⟩
  have h0 : ReachableRunW (mkSystem [1]) := ReachableRunW.init [1]
  have h1 : ReachableRunW (enqOk (mkSystem [1]) 10 [-1] 5) :=
    ReachableRunW.enqueue h0
      (by decide : enqueueJob (mkSystem [1]) 10 [-1] 5 =
        EnqResult.ok (enqOk (mkSystem [1]) 10 [-1] 5))
  have h2 : ReachableRunW (enqOk (enqOk (mkSystem [1]) 10 [-1] 5)
      10 [1] 10) :=
    ReachableRunW.enqueue h1
      (by decide : enqueueJob (enqOk (mkSystem [1]) 10 [-1] 5) 10 [1] 10 =
        EnqResult.ok (enqOk (enqOk (mkSystem [1]) 10 [-1] 5) 10 [1] 10))
  have h3 : ReachableRunW c2s :=
    ReachableRunW.enqueue h2
      (by decide : enqueueJob (enqOk (enqOk (mkSystem [1]) 10 [-1] 5)
          10 [1] 10) 10 [1] 10 = EnqResult.ok c2s)
  exact ReachableRunW.step h3 (Or.inl rfl)
    (by decide : tick fcfs c2s = some (true, c2bad))

/-! ## C4: sorted-list decomposition lemmas -/

theorem lookupKey_append {α : Type} (A B : List (Int × α)) (key : Int) :
    lookupKey (A ++ B) key =
      match lookupKey A key with
      | some v => some v
      | none => lookupKey B key := by
  induction A with
  | nil => simp [lookupKey]
  | cons a A ih =>
    obtain ⟨ak, av⟩ := a
    by_cases h : key = ak
    · simp [lookupKey, h]
    · simp only [List.cons_append, lookupKey, if_neg h]
      exact ih

theorem lookupKey_none_of_ne {α : Type} {A : List (Int × α)} {key : Int}
    (h : ∀ p ∈ A, p.1 ≠ key) : lookupKey A key = none := by
  induction A with
  | nil => rfl
  | cons a A ih =>
    have h1 := h a (List.mem_cons_self _ _)
    obtain ⟨ak, av⟩ := a
    have h2 : ¬(key = ak) := fun hc => h1 hc.symm
    simp only [lookupKey, if_neg h2]
    exact ih (fun p hp => h p (List.mem_cons_of_mem _ hp))

theorem insertSorted_append_lt {α : Type} (A : List (Int × α)) {k : Int}
    {v : α} (B : List (Int × α)) {key : Int} (val : α) (h : key < k) :
    insertSorted (A ++ (k, v) :: B) key val =
      insertSorted A key val ++ (k, v) :: B := by
  induction A with
  | nil => simp [insertSorted, if_pos h]
  | cons a A ih =>
    obtain ⟨ak, av⟩ := a
    by_cases h1 : key < ak
    · simp [insertSorted, if_pos h1]
    · by_cases h2 : key = ak
      · simp [insertSorted, if_neg h1, if_pos h2]
      · simp only [List.cons_append, insertSorted, if_neg h1, if_neg h2,
          List.append_eq]
        rw [ih]

theorem insertSorted_append_gt {α : Type} (A : List (Int × α)) {k : Int}
    {v : α} (B : List (Int × α)) {key : Int} (val : α) (hk : k < key)
    (hA : ∀ p ∈ A, p.1 < key) :
    insertSorted (A ++ (k, v) :: B) key val =
      A ++ (k, v) :: insertSorted B key val := by
  induction A with
  | nil =>
    simp only [List.nil_append, insertSorted,
      if_neg (by omega : ¬key < k), if_neg (by omega : ¬key = k)]
  | cons a A ih =>
    obtain ⟨ak, av⟩ := a
    have h1 := hA (ak, av) (List.mem_cons_self _ _)
    simp only at h1
    simp only [List.cons_append, insertSorted,
      if_neg (by omega : ¬key < ak), if_neg (by omega : ¬key = ak),
      List.append_eq]
    rw [ih (fun p hp => hA p (List.mem_cons_of_mem _ hp))]

theorem eraseKey_no_op {α : Type} {A : List (Int × α)} {key : Int}
    (h : ∀ p ∈ A, p.1 ≠ key) : eraseKey A key = A := by
  induction A with
  | nil => rfl
  | cons a A ih =>
    have h1 := h a (List.mem_cons_self _ _)
    obtain ⟨ak, av⟩ := a
    have h2 : ¬(key = ak) := fun hc => h1 hc.symm
    simp only [eraseKey, if_neg h2]
    rw [ih (fun p hp => h p (List.mem_cons_of_mem _ hp))]

theorem eraseKey_append_left {α : Type} (A : List (Int × α)) {k : Int}
    {v : α} {B : List (Int × α)} {key : Int} (hk : key ≠ k)
    (hB : ∀ p ∈ B, p.1 ≠ key) :
    eraseKey (A ++ (k, v) :: B) key = eraseKey A key ++ (k, v) :: B := by
  induction A with
  | nil =>
    simp only [List.nil_append, eraseKey, if_neg hk]
    rw [eraseKey_no_op hB]
  | cons a A ih =>
    obtain ⟨ak, av⟩ := a
    by_cases h1 : key = ak
    · simp [eraseKey, if_pos h1]
    · simp only [List.cons_append, eraseKey, if_neg h1, List.append_eq]
      rw [ih]

theorem eraseKey_append_right {α : Type} (A : List (Int × α)) {k : Int}
    {v : α} {B : List (Int × α)} {key : Int} (hk : key ≠ k)
    (hA : ∀ p ∈ A, p.1 ≠ key) :
    eraseKey (A ++ (k, v) :: B) key = A ++ (k, v) :: eraseKey B key := by
  induction A with
  | nil => simp [eraseKey, if_neg hk]
  | cons a A ih =>
    have h1 := hA a (List.mem_cons_self _ _)
    obtain ⟨ak, av⟩ := a
    have h2 : ¬(key = ak) := fun hc => h1 hc.symm
    simp only [List.cons_append, eraseKey, if_neg h2, List.append_eq]
    rw [ih (fun p hp => hA p (List.mem_cons_of_mem _ hp))]

theorem sorted_append_mid {α : Type} {A : List (Int × α)} {k : Int}
    {v : α} {B : List (Int × α)}
    (hs : SortedKeys (A ++ (k, v) :: B)) :
    (∀ p ∈ A, p.1 < k) ∧ (∀ p ∈ B, k < p.1) ∧
      SortedKeys A ∧ SortedKeys B := by
  unfold SortedKeys at *
  rw [List.map_append, List.pairwise_append] at hs
  obtain ⟨hA, hkB, hcross⟩ := hs
  rw [List.map_cons, List.pairwise_cons] at hkB
  refine ⟨?_, ?_, hA, hkB.2⟩
  · intro p hp
    exact hcross p.1 (List.mem_map_of_mem _ hp) k (by simp)
  · intro p hp
    exact hkB.1 p.1 (List.mem_map_of_mem _ hp)

theorem hA_eq_zero_iff {α : Type} {t : AT α} : hA t = 0 ↔ t = AT.leaf := by
  cases t with
  | leaf => simp [hA]
  | node l k v b r => simp [hA]

/-- `AVLNode._rebalance` on a left-heavy node: succeeds, preserves the
in-order sequence, restores the invariant, and shrinks the subtree
height exactly when the taller child was not perfectly balanced. -/
theorem avlRebalance_left {α : Type} {l r : AT α} {k : Int} {v : α}
    {b : Int} (hl : AvlOk l) (hr : AvlOk r)
    (hbal : b = (hA r : Int) - hA l) (hh : hA l = hA r + 2) :
    ∃ t', avlRebalance (.node l k v b r) = some t' ∧
      atInorder t' = atInorder l ++ (k, v) :: atInorder r ∧
      AvlOk t' ∧
      hA t' = (if balOf l = 0 then hA l + 1 else hA l) := by
  have hbneg : b < 0 := by omega
  cases l with
  | leaf => simp [hA] at hh
  | node ll lk lv lb lr =>
    obtain ⟨hll, hlr, hlb, hlbd1, hlbd2⟩ := hl
    have hhl : hA (AT.node ll lk lv lb lr) = max (hA ll) (hA lr) + 1 := rfl
    by_cases hlbpos : lb > 0
    · -- double rotation: the left child is right-heavy
      have hlrn : lr ≠ AT.leaf := by
        intro hc
        subst hc
        simp [hA] at hlb
        omega
      cases lr with
      | leaf => exact absurd rfl hlrn
      | node m mk mv mb mr =>
        obtain ⟨hm, hmr, hmb, hmbd1, hmbd2⟩ := hlr
        have hhlr : hA (AT.node m mk mv mb mr) = max (hA m) (hA mr) + 1 := rfl
        simp only [avlRebalance, if_pos hbneg, if_pos hlbpos, avlRotR,
          avlRotL, Option.bind_eq_bind, Option.some_bind]
        refine ⟨_, rfl, ?_, ?_, ?_⟩
        · simp [atInorder]
        · simp only [AvlOk, balOf, hA]
          simp only [hA] at hh hbal
          refine ⟨⟨hll, hm, ?_, ?_, ?_⟩, ⟨hmr, hr, ?_, ?_, ?_⟩, ?_, ?_, ?_⟩ <;>
            (try split_ifs) <;> push_cast <;> omega
        · simp only [balOf, hA]
          simp only [hA] at hh hbal
          split_ifs <;> push_cast <;> omega
    · -- single rotation
      have hlrn : lr = AT.leaf ∨ lr ≠ AT.leaf := by
        cases lr
        · exact Or.inl rfl
        · exact Or.inr (by intro hc; cases hc)
      simp only [avlRebalance, if_pos hbneg, if_neg hlbpos, avlRotL]
      refine ⟨_, rfl, ?_, ?_, ?_⟩
      · simp [atInorder]
      · simp only [AvlOk, balOf, hA]
        simp only [hA] at hh hbal
        refine ⟨hll, ⟨hlr, hr, ?_, ?_, ?_⟩, ?_, ?_, ?_⟩ <;>
          (try split_ifs) <;> push_cast <;> omega
      · simp only [balOf, hA]
        simp only [hA] at hh hbal
        split_ifs <;> push_cast <;> omega

/-- `AVLNode._rebalance` on a right-heavy node. -/
theorem avlRebalance_right {α : Type} {l r : AT α} {k : Int} {v : α}
    {b : Int} (hl : AvlOk l) (hr : AvlOk r)
    (hbal : b = (hA r : Int) - hA l) (hh : hA r = hA l + 2) :
    ∃ t', avlRebalance (.node l k v b r) = some t' ∧
      atInorder t' = atInorder l ++ (k, v) :: atInorder r ∧
      AvlOk t' ∧
      hA t' = (if balOf r = 0 then hA r + 1 else hA r) := by
  have hbneg : ¬b < 0 := by omega
  cases r with
  | leaf => simp [hA] at hh
  | node rl rk rv rb rr =>
    obtain ⟨hrl, hrr, hrb, hrbd1, hrbd2⟩ := hr
    by_cases hrbneg : rb < 0
    · -- double rotation: the right child is left-heavy
      have hrln : rl ≠ AT.leaf := by
        intro hc
        subst hc
        simp [hA] at hrb
        omega
      cases rl with
      | leaf => exact absurd rfl hrln
      | node m mk mv mb mr =>
        obtain ⟨hm, hmr, hmb, hmbd1, hmbd2⟩ := hrl
        have hexp : hA (AT.node m mk mv mb mr) = max (hA m) (hA mr) + 1 := rfl
        simp only [avlRebalance, if_neg hbneg, if_pos hrbneg, avlRotL,
          avlRotR, Option.bind_eq_bind, Option.some_bind]
        refine ⟨_, rfl, ?_, ?_, ?_⟩
        · simp [atInorder]
        · simp only [AvlOk, balOf, hA]
          simp only [hA] at hh hbal
          refine ⟨⟨hl, hm, ?_, ?_, ?_⟩, ⟨hmr, hrr, ?_, ?_, ?_⟩, ?_, ?_, ?_⟩ <;>
            (try split_ifs) <;> push_cast <;> omega
        · simp only [balOf, hA]
          simp only [hA] at hh hbal
          split_ifs <;> push_cast <;> omega
    · -- single rotation
      simp only [avlRebalance, if_neg hbneg, if_neg hrbneg, avlRotR]
      refine ⟨_, rfl, ?_, ?_, ?_⟩
      · simp [atInorder]
      · simp only [AvlOk, balOf, hA]
        simp only [hA] at hh hbal
        refine ⟨⟨hl, hrl, ?_, ?_, ?_⟩, hrr, ?_, ?_, ?_⟩ <;>
          (try split_ifs) <;> push_cast <;> omega
      · simp only [balOf, hA]
        simp only [hA] at hh hbal
        split_ifs <;> push_cast <;> omega

theorem insertSorted_append_eq {α : Type} (A : List (Int × α)) {k : Int}
    {v : α} (B : List (Int × α)) (val : α)
    (hA : ∀ p ∈ A, p.1 < k) :
    insertSorted (A ++ (k, v) :: B) k val = A ++ (k, val) :: B := by
  induction A with
  | nil => simp [insertSorted]
  | cons a A ih =>
    obtain ⟨ak, av⟩ := a
    have h1 := hA (ak, av) (List.mem_cons_self _ _)
    simp only at h1
    simp only [List.cons_append, insertSorted,
      if_neg (by omega : ¬k < ak), if_neg (by omega : ¬k = ak),
      List.append_eq]
    rw [ih (fun p hp => hA p (List.mem_cons_of_mem _ hp))]

theorem lookupKey_append_left {α : Type} {A : List (Int × α)} {k : Int}
    {v : α} {B : List (Int × α)} {key : Int} (hk : key ≠ k)
    (hB : ∀ p ∈ B, p.1 ≠ key) :
    lookupKey (A ++ (k, v) :: B) key = lookupKey A key := by
  rw [lookupKey_append]
  cases h : lookupKey A key with
  | some w => rfl
  | none =>
    simp only [lookupKey, if_neg hk]
    exact lookupKey_none_of_ne hB

theorem lookupKey_append_right {α : Type} {A : List (Int × α)} {k : Int}
    {v : α} {B : List (Int × α)} {key : Int} (hk : key ≠ k)
    (hA : ∀ p ∈ A, p.1 ≠ key) :
    lookupKey (A ++ (k, v) :: B) key = lookupKey B key := by
  rw [lookupKey_append, lookupKey_none_of_ne hA]
  simp only [lookupKey, if_neg hk]

theorem lookupKey_append_mid {α : Type} {A : List (Int × α)} {k : Int}
    {v : α} {B : List (Int × α)} (hA : ∀ p ∈ A, p.1 ≠ k) :
    lookupKey (A ++ (k, v) :: B) k = some v := by
  rw [lookupKey_append, lookupKey_none_of_ne hA]
  simp [lookupKey]

/-- `Tree.insert` on an AVL tree: always succeeds on a valid tree,
returns the previous binding, conforms to `insertSorted` on the
in-order list, preserves the invariant, and reports height growth
exactly (a grown subtree is a singleton or unbalanced). -/
theorem avlInsert_spec {α : Type} (t : AT α) (key : Int) (val : α)
    (hs : SortedKeys (atInorder t)) (hok : AvlOk t) :
    ∃ old t2 grew, avlInsert t key val = some (old, t2, grew) ∧
      old = lookupKey (atInorder t) key ∧
      atInorder t2 = insertSorted (atInorder t) key val ∧
      AvlOk t2 ∧
      hA t2 = (if grew then hA t + 1 else hA t) ∧
      (grew = true → balOf t2 ≠ 0 ∨ hA t2 = 1) := by
  induction t with
  | leaf =>
    refine ⟨none, .node .leaf key val 0 .leaf, true, rfl, rfl, ?_, ?_, ?_, ?_⟩
    · simp [atInorder, insertSorted]
    · simp [AvlOk, hA]
    · simp [hA]
    · intro _
      right
      simp [hA]
  | node l k v bal r ihl ihr =>
    simp only [atInorder] at hs
    obtain ⟨hltk, hkgt, hsl, hsr⟩ := sorted_append_mid hs
    obtain ⟨hokl, hokr, hbal, hd1, hd2⟩ := hok
    have hexp : hA (AT.node l k v bal r) = max (hA l) (hA r) + 1 := rfl
    by_cases hk : key = k
    · subst hk
      refine ⟨some v, .node l key val bal r, false, ?_, ?_, ?_, ?_, ?_, ?_⟩
      · simp [avlInsert]
      · rw [atInorder, lookupKey_append_mid (fun p hp => by
          have := hltk p hp
          omega)]
      · simp only [atInorder]
        rw [insertSorted_append_eq _ _ _ hltk]
      · exact ⟨hokl, hokr, hbal, hd1, hd2⟩
      · simp [hA]
      · intro hc
        cases hc
    · by_cases hklt : key < k
      · -- insert into the left subtree
        obtain ⟨old, l2, grew, heq, hold, hio, hok2, hh2, hgb⟩ := ihl hsl hokl
        have hioeq : atInorder (AT.node l2 k v bal r) =
            insertSorted (atInorder (AT.node l k v bal r)) key val := by
          simp only [atInorder]
          rw [insertSorted_append_lt _ _ _ hklt, hio]
        have holdeq : old = lookupKey (atInorder (AT.node l k v bal r)) key := by
          rw [hold, atInorder, lookupKey_append_left hk (fun p hp => by
            have := hkgt p hp
            omega)]
        cases grew with
        | false =>
          refine ⟨old, .node l2 k v bal r, false, ?_, holdeq, ?_, ?_, ?_, ?_⟩
          · simp only [avlInsert, if_neg hk, if_pos hklt, heq,
              Option.bind_eq_bind, Option.some_bind]
            simp
          · simp only [atInorder]
            rw [insertSorted_append_lt _ _ _ hklt, hio]
          · simp only [Bool.false_eq_true, if_false] at hh2
            exact ⟨hok2, hokr, by omega, by omega, by omega⟩
          · simp only [Bool.false_eq_true, if_false] at hh2
            simp only [hA, Bool.false_eq_true, if_false]
            simp only [hA] at hexp
            omega
          · intro hc
            cases hc
        | true =>
          rw [if_pos rfl] at hh2
          have hgb2 := hgb rfl
          by_cases hbneg : bal < 0
          · -- the node was already left-heavy: rebalance
            have hbm1 : bal = -1 := by omega
            obtain ⟨t2, heq2, hio2, hok3, hh3⟩ :=
              avlRebalance_left (k := k) (v := v) (b := bal - 1) hok2 hokr
                (by push_cast; omega) (by omega)
            refine ⟨old, t2, false, ?_, holdeq, ?_, hok3, ?_, ?_⟩
            · simp only [avlInsert, if_neg hk, if_pos hklt, heq,
                Option.bind_eq_bind, Option.some_bind]
              simp [heq2, hbneg]
            · rw [hio2, hio]
              simp only [atInorder]
              rw [insertSorted_append_lt _ _ _ hklt]
            · have hbne : balOf l2 ≠ 0 := by
                rcases hgb2 with h | h
                · exact h
                · omega
              rw [if_neg hbne] at hh3
              simp only [hA, Bool.false_eq_true, if_false]
              simp only [hA] at hexp
              omega
            · intro hc
              cases hc
          · by_cases hbpos : bal > 0
            · refine ⟨old, .node l2 k v (bal - 1) r, false, ?_, holdeq,
                hioeq, ?_, ?_, ?_⟩
              · simp only [avlInsert, if_neg hk, if_pos hklt, heq,
                  Option.bind_eq_bind, Option.some_bind]
                simp [hbneg, hbpos]
              · exact ⟨hok2, hokr, by push_cast; omega, by omega, by omega⟩
              · simp only [hA, Bool.false_eq_true, if_false]
                simp only [hA] at hexp
                omega
              · intro hc
                cases hc
            · -- bal = 0: the subtree grows
              refine ⟨old, .node l2 k v (bal - 1) r, true, ?_, holdeq,
                hioeq, ?_, ?_, ?_⟩
              · simp only [avlInsert, if_neg hk, if_pos hklt, heq,
                  Option.bind_eq_bind, Option.some_bind]
                simp [hbneg, hbpos]
              · exact ⟨hok2, hokr, by push_cast; omega, by omega, by omega⟩
              · rw [if_pos rfl]
                simp only [hA]
                simp only [hA] at hexp
                omega
              · intro _
                left
                simp only [balOf]
                omega
      · -- insert into the right subtree
        have hkgtk : k < key := by omega
        obtain ⟨old, r2, grew, heq, hold, hio, hok2, hh2, hgb⟩ := ihr hsr hokr
        have hioeq : atInorder (AT.node l k v bal r2) =
            insertSorted (atInorder (AT.node l k v bal r)) key val := by
          simp only [atInorder]
          rw [insertSorted_append_gt _ _ _ hkgtk (fun p hp => by
            have := hltk p hp
            omega), hio]
        have holdeq : old = lookupKey (atInorder (AT.node l k v bal r)) key := by
          rw [hold, atInorder, lookupKey_append_right hk (fun p hp => by
            have := hltk p hp
            omega)]
        cases grew with
        | false =>
          refine ⟨old, .node l k v bal r2, false, ?_, holdeq, hioeq, ?_, ?_, ?_⟩
          · simp only [avlInsert, if_neg hk, if_neg hklt, heq,
              Option.bind_eq_bind, Option.some_bind]
            simp
          · simp only [Bool.false_eq_true, if_false] at hh2
            exact ⟨hokl, hok2, by omega, by omega, by omega⟩
          · simp only [Bool.false_eq_true, if_false] at hh2
            simp only [hA, Bool.false_eq_true, if_false]
            simp only [hA] at hexp
            omega
          · intro hc
            cases hc
        | true =>
          rw [if_pos rfl] at hh2
          have hgb2 := hgb rfl
          by_cases hbpos : bal > 0
          · have hb1 : bal = 1 := by omega
            obtain ⟨t2, heq2, hio2, hok3, hh3⟩ :=
              avlRebalance_right (k := k) (v := v) (b := bal + 1) hokl hok2
                (by push_cast; omega) (by omega)
            refine ⟨old, t2, false, ?_, holdeq, ?_, hok3, ?_, ?_⟩
            · simp only [avlInsert, if_neg hk, if_neg hklt, heq,
                Option.bind_eq_bind, Option.some_bind]
              simp [heq2, hbpos]
            · rw [hio2, hio]
              simp only [atInorder]
              rw [insertSorted_append_gt _ _ _ hkgtk (fun p hp => by
                have := hltk p hp
                omega)]
            · have hbne : balOf r2 ≠ 0 := by
                rcases hgb2 with h | h
                · exact h
                · omega
              rw [if_neg hbne] at hh3
              simp only [hA, Bool.false_eq_true, if_false]
              simp only [hA] at hexp
              omega
            · intro hc
              cases hc
          · by_cases hbneg : bal < 0
            · refine ⟨old, .node l k v (bal + 1) r2, false, ?_, holdeq,
                hioeq, ?_, ?_, ?_⟩
              · simp only [avlInsert, if_neg hk, if_neg hklt, heq,
                  Option.bind_eq_bind, Option.some_bind]
                simp [hbneg, hbpos]
              · exact ⟨hokl, hok2, by push_cast; omega, by omega, by omega⟩
              · simp only [hA, Bool.false_eq_true, if_false]
                simp only [hA] at hexp
                omega
              · intro hc
                cases hc
            · refine ⟨old, .node l k v (bal + 1) r2, true, ?_, holdeq,
                hioeq, ?_, ?_, ?_⟩
              · simp only [avlInsert, if_neg hk, if_neg hklt, heq,
                  Option.bind_eq_bind, Option.some_bind]
                simp [hbneg, hbpos]
              · exact ⟨hokl, hok2, by push_cast; omega, by omega, by omega⟩
              · rw [if_pos rfl]
                simp only [hA]
                simp only [hA] at hexp
                omega
              · intro _
                left
                simp only [balOf]
                omega

theorem atInorder_node_ne_nil {α : Type} {l : AT α} {k : Int} {v : α}
    {b : Int} {r : AT α} : atInorder (AT.node l k v b r) ≠ [] := by
  simp [atInorder]

theorem sizeA_eq_zero_iff {α : Type} {t : AT α} : sizeA t = 0 ↔ t = AT.leaf := by
  cases t with
  | leaf => simp [sizeA]
  | node l k v b r => simp [sizeA]

/-- The leftmost entry heads the in-order sequence. -/
theorem firstE_cons {α : Type} (t : AT α) (hne : t ≠ AT.leaf) :
    ∃ p tl, firstE t = some p ∧ atInorder t = p :: tl := by
  induction t with
  | leaf => exact absurd rfl hne
  | node l k v b r ihl =>
    cases l with
    | leaf => exact ⟨(k, v), atInorder r, rfl, rfl⟩
    | node ll lk lv lb lr =>
      obtain ⟨p, tl, hf, hio⟩ := ihl (by intro hc; cases hc)
      refine ⟨p, tl ++ (k, v) :: atInorder r, ?_, ?_⟩
      · simp only [firstE]
        exact hf
      · simp only [atInorder] at hio ⊢
        rw [hio, List.cons_append]

theorem eraseKey_append_mid {α : Type} (A : List (Int × α)) {k : Int}
    {v : α} (B : List (Int × α)) (hA : ∀ p ∈ A, p.1 ≠ k) :
    eraseKey (A ++ (k, v) :: B) k = A ++ B := by
  induction A with
  | nil => simp [eraseKey]
  | cons a A ih =>
    have h1 := hA a (List.mem_cons_self _ _)
    obtain ⟨ak, av⟩ := a
    have h2 : ¬(k = ak) := fun hc => h1 hc.symm
    simp only [List.cons_append, eraseKey, if_neg h2, List.append_eq]
    rw [ih (fun p hp => hA p (List.mem_cons_of_mem _ hp))]

/-- `AVLNode._repair_delete`, one level, after the left subtree lost a
level of height (`shrunk`): succeeds, keeps the in-order sequence,
restores the invariant, and reports the exact height change. -/
theorem avlAdjust_left {α : Type} {l r : AT α} {k : Int} {v : α}
    {bal : Int} {shrunk : Bool} (hl : AvlOk l) (hr : AvlOk r)
    (hb : bal = (hA r : Int) - ((hA l : Int) + (if shrunk then 1 else 0)))
    (hd1 : -1 ≤ bal) (hd2 : bal ≤ 1) :
    ∃ t' s', avlAdjust l k v bal r true shrunk = some (t', s') ∧
      atInorder t' = atInorder l ++ (k, v) :: atInorder r ∧
      AvlOk t' ∧
      (hA t' : Int) + (if s' then 1 else 0) =
        max ((hA l : Int) + (if shrunk then 1 else 0)) (hA r) + 1 := by
  cases shrunk with
  | false =>
    rw [if_neg (by simp : ¬(false = true))] at hb
    refine ⟨.node l k v bal r, false, ?_, rfl, ?_, ?_⟩
    · simp only [avlAdjust, Bool.false_eq_true, not_false_iff, if_true]
    · exact ⟨hl, hr, by omega, by omega, by omega⟩
    · have hexp : hA (AT.node l k v bal r) = max (hA l) (hA r) + 1 := rfl
      rw [if_neg (by simp : ¬(false = true)), hexp]
      push_cast
      omega
  | true =>
    rw [if_pos rfl] at hb
    by_cases h0 : bal + 1 = 0
    · refine ⟨.node l k v (bal + 1) r, true, ?_, rfl, ?_, ?_⟩
      · simp only [avlAdjust, not_true, if_false, if_true, if_pos h0]
      · exact ⟨hl, hr, by omega, by omega, by omega⟩
      · have hexp : hA (AT.node l k v (bal + 1) r) = max (hA l) (hA r) + 1 := rfl
        rw [if_pos rfl, hexp]
        push_cast
        omega
    · by_cases h2 : bal + 1 = 2
      · -- the right sibling is now two levels taller: rebalance
        have hh : hA r = hA l + 2 := by omega
        obtain ⟨t', hreb, hio, hok, hht⟩ :=
          avlRebalance_right (k := k) (v := v) (b := bal + 1) hl hr
            (by omega) hh
        refine ⟨t', decide (balOf r ≠ 0), ?_, hio, hok, ?_⟩
        · simp only [avlAdjust, not_true, if_false, if_true, if_neg h0,
            if_pos h2, hreb, Option.bind_eq_bind, Option.some_bind]
        · by_cases hbr : balOf r = 0
          · rw [if_pos hbr] at hht
            have hs : (decide (balOf r ≠ 0)) = false := by simp [hbr]
            rw [hs, hht, if_pos rfl]
            simp only [Bool.false_eq_true, if_false]
            push_cast
            omega
          · rw [if_neg hbr] at hht
            have hs : (decide (balOf r ≠ 0)) = true := by simp [hbr]
            rw [hs, hht, if_pos rfl]
            push_cast
            omega
      · -- bal + 1 = 1: the node absorbs the height change
        refine ⟨.node l k v (bal + 1) r, false, ?_, rfl, ?_, ?_⟩
        · simp only [avlAdjust, not_true, if_false, if_true, if_neg h0,
            if_neg h2]
        · exact ⟨hl, hr, by omega, by omega, by omega⟩
        · have hexp : hA (AT.node l k v (bal + 1) r) = max (hA l) (hA r) + 1 := rfl
          rw [if_neg (by simp : ¬(false = true)), if_pos rfl, hexp]
          push_cast
          omega

/-- `AVLNode._repair_delete`, one level, after the right subtree lost a
level of height. -/
theorem avlAdjust_right {α : Type} {l r : AT α} {k : Int} {v : α}
    {bal : Int} {shrunk : Bool} (hl : AvlOk l) (hr : AvlOk r)
    (hb : bal = ((hA r : Int) + (if shrunk then 1 else 0)) - (hA l : Int))
    (hd1 : -1 ≤ bal) (hd2 : bal ≤ 1) :
    ∃ t' s', avlAdjust l k v bal r false shrunk = some (t', s') ∧
      atInorder t' = atInorder l ++ (k, v) :: atInorder r ∧
      AvlOk t' ∧
      (hA t' : Int) + (if s' then 1 else 0) =
        max (hA l : Int) ((hA r : Int) + (if shrunk then 1 else 0)) + 1 := by
  cases shrunk with
  | false =>
    rw [if_neg (by simp : ¬(false = true))] at hb
    refine ⟨.node l k v bal r, false, ?_, rfl, ?_, ?_⟩
    · simp only [avlAdjust, Bool.false_eq_true, not_false_iff, if_true]
    · exact ⟨hl, hr, by omega, by omega, by omega⟩
    · have hexp : hA (AT.node l k v bal r) = max (hA l) (hA r) + 1 := rfl
      rw [if_neg (by simp : ¬(false = true)), hexp]
      push_cast
      omega
  | true =>
    rw [if_pos rfl] at hb
    by_cases h0 : bal - 1 = 0
    · refine ⟨.node l k v (bal - 1) r, true, ?_, rfl, ?_, ?_⟩
      · simp only [avlAdjust, not_true, if_false, Bool.false_eq_true,
          if_pos h0]
      · exact ⟨hl, hr, by omega, by omega, by omega⟩
      · have hexp : hA (AT.node l k v (bal - 1) r) = max (hA l) (hA r) + 1 := rfl
        rw [if_pos rfl, hexp]
        push_cast
        omega
    · by_cases h2 : bal - 1 = -2
      · -- the left sibling is now two levels taller: rebalance
        have hh : hA l = hA r + 2 := by omega
        obtain ⟨t', hreb, hio, hok, hht⟩ :=
          avlRebalance_left (k := k) (v := v) (b := bal - 1) hl hr
            (by omega) hh
        refine ⟨t', decide (balOf l ≠ 0), ?_, hio, hok, ?_⟩
        · simp only [avlAdjust, not_true, if_false, Bool.false_eq_true,
            if_neg h0, if_pos h2, hreb, Option.bind_eq_bind, Option.some_bind]
        · by_cases hbl : balOf l = 0
          · rw [if_pos hbl] at hht
            have hs : (decide (balOf l ≠ 0)) = false := by simp [hbl]
            rw [hs, hht, if_pos rfl]
            simp only [Bool.false_eq_true, if_false]
            push_cast
            omega
          · rw [if_neg hbl] at hht
            have hs : (decide (balOf l ≠ 0)) = true := by simp [hbl]
            rw [hs, hht, if_pos rfl]
            push_cast
            omega
      · -- bal - 1 = -1: the node absorbs the height change
        refine ⟨.node l k v (bal - 1) r, false, ?_, rfl, ?_, ?_⟩
        · simp only [avlAdjust, not_true, if_false, Bool.false_eq_true,
            if_neg h0, if_neg h2]
        · exact ⟨hl, hr, by omega, by omega, by omega⟩
        · have hexp : hA (AT.node l k v (bal - 1) r) = max (hA l) (hA r) + 1 := rfl
          rw [if_neg (by simp : ¬(false = true)), if_pos rfl, hexp]
          push_cast
          omega
